import Mathlib

/-!
Verification of the hedgehog linearizability checker.

This file contains a shallow embedding of the Rust sources of the repository
(src/bitvec.rs, src/lib.rs, src/runner.rs) as executable Lean definitions,
together with theorems about those definitions.  Machine integers (u64, usize)
are modelled as Nat; every u64 value reachable from the embedded operations
stays below 2 ^ 64, and all operations used (xor, and, or, shift by a value
below 64) agree with the Rust semantics on that range.  Rust panics
(indexing out of bounds, unwrap, expect, unreachable) are modelled by Option,
with none standing for a panic.
-/

namespace Hedgehog

/-! ## Bit vector with running XOR hash (src/bitvec.rs) -/

/-- The value of u64::MAX. -/
def u64Max : Nat := 2 ^ 64 - 1

/-- Embedding of struct BitVec: a vector of 64-bit blocks plus the running hash. -/
structure BitVec where
  inner : List Nat
  hash : Nat
deriving DecidableEq

namespace BitVec

/-- Embedding of BitVec::new. -/
def new : BitVec := ⟨[], 0⟩

/-- Embedding of BitVec::from_elem. -/
def from_elem (val : Bool) (len : Nat) : BitVec :=
  let block := if val then u64Max else 0
  let count := (len + 63) / 64
  let hash := if count % 2 = 0 then 0 else block
  ⟨List.replicate count block, hash⟩

/-- Embedding of BitVec::get; none models the index panic. -/
def get (b : BitVec) (i : Nat) : Option Bool :=
  (b.inner[i / 64]?).map (fun block => (block &&& (1 <<< (i % 64))) != 0)

/-- Embedding of BitVec::set; none models the unwrap panic.
The complement of the mask inside u64 is taken by xor with u64Max. -/
def set (b : BitVec) (i : Nat) (val : Bool) : Option BitVec :=
  (b.inner[i / 64]?).map (fun block =>
    let hash1 := b.hash ^^^ block
    let block2 := if val then block ||| (1 <<< (i % 64))
      else block &&& (u64Max ^^^ (1 <<< (i % 64)))
    ⟨b.inner.set (i / 64) block2, hash1 ^^^ block2⟩)

/-- Embedding of the Hash impl for BitVec: only the running hash is written
to the hasher state. -/
def hashWrite (b : BitVec) : Nat := b.hash

/-- XOR of all blocks of a list. -/
def xorBlocks (l : List Nat) : Nat := l.foldr (fun a b => a ^^^ b) 0

/-- The hash invariant: the running hash equals the XOR of all blocks. -/
def hashInv (b : BitVec) : Prop := b.hash = xorBlocks b.inner

/-- A sequence of set operations, failing (like Rust panicking) when any
single set fails. -/
def applySets (b : BitVec) : List (Nat × Bool) → Option BitVec
  | [] => some b
  | (i, v) :: rest => (set b i v).bind (fun b2 => applySets b2 rest)

theorem xorBlocks_nil : xorBlocks [] = 0 := rfl

theorem xorBlocks_cons (a : Nat) (l : List Nat) :
    xorBlocks (a :: l) = a ^^^ xorBlocks l := rfl

theorem xorBlocks_replicate (n b : Nat) :
    xorBlocks (List.replicate n b) = if n % 2 = 0 then 0 else b := by
  induction n with
  | zero => simp [xorBlocks_nil]
  | succ k ih =>
    rw [List.replicate_succ, xorBlocks_cons, ih]
    rcases Nat.even_or_odd k with hk | hk
    · have h0 : k % 2 = 0 := Nat.even_iff.mp hk
      have h1 : (k + 1) % 2 = 1 := by omega
      simp [h0, h1]
    · have h0 : k % 2 = 1 := Nat.odd_iff.mp hk
      have h1 : (k + 1) % 2 = 0 := by omega
      simp [h0, h1]

theorem xor_cancel_mid (X a x : Nat) : X ^^^ a ^^^ (a ^^^ x) = X ^^^ x := by
  rw [Nat.xor_assoc, Nat.xor_cancel_left]

theorem xorBlocks_set (l : List Nat) (i a x : Nat) (h : l[i]? = some a) :
    xorBlocks (l.set i x) = xorBlocks l ^^^ a ^^^ x := by
  induction l generalizing i with
  | nil => simp at h
  | cons hd tl ih =>
    cases i with
    | zero =>
      simp only [List.getElem?_cons_zero, Option.some.injEq] at h
      subst h
      simp only [List.set_cons_zero, xorBlocks_cons]
      rw [Nat.xor_comm hd (xorBlocks tl), Nat.xor_assoc, Nat.xor_assoc, Nat.xor_cancel_left,
        Nat.xor_comm]
    | succ j =>
      simp only [List.getElem?_cons_succ] at h
      simp only [List.set_cons_succ, xorBlocks_cons, ih j h]
      simp [Nat.xor_assoc]

theorem from_elem_hashInv (v : Bool) (len : Nat) : hashInv (from_elem v len) := by
  unfold hashInv from_elem
  simp only [xorBlocks_replicate]

theorem set_hashInv (b : BitVec) (i : Nat) (v : Bool) (b2 : BitVec)
    (hinv : hashInv b) (h : set b i v = some b2) : hashInv b2 := by
  unfold set at h
  cases hb : b.inner[i / 64]? with
  | none => rw [hb] at h; simp at h
  | some block =>
    rw [hb] at h
    simp only [Option.map_some', Option.some.injEq] at h
    subst h
    unfold hashInv
    simp only
    rw [xorBlocks_set b.inner (i / 64) block _ hb, hinv]

theorem applySets_hashInv (b : BitVec) (ops : List (Nat × Bool)) (b2 : BitVec)
    (hinv : hashInv b) (h : applySets b ops = some b2) : hashInv b2 := by
  induction ops generalizing b with
  | nil =>
    unfold applySets at h
    cases h
    exact hinv
  | cons op rest ih =>
    obtain ⟨i, v⟩ := op
    rw [show applySets b ((i, v) :: rest) =
      (set b i v).bind (fun b2 => applySets b2 rest) from rfl] at h
    cases hs : BitVec.set b i v with
    | none => rw [hs] at h; simp at h
    | some bm =>
      rw [hs] at h
      exact ih bm (set_hashInv b i v bm hinv hs) h

/-- C8: the BitVec hash field always equals the XOR of its 64-bit blocks:
from_elem establishes the invariant (in particular from_elem true len has hash 0
when the block count is even and all-ones when it is odd), every successful set
preserves it by XOR-ing the old block value out and the new block value in, and
therefore after any sequence of set operations the final hash equals the XOR of
the final blocks. -/
theorem c8_hash_xor_invariant :
    (∀ (v : Bool) (len : Nat), hashInv (from_elem v len)) ∧
    (∀ len : Nat, (from_elem true len).hash =
      if ((len + 63) / 64) % 2 = 0 then 0 else u64Max) ∧
    (∀ (b : BitVec) (i : Nat) (v : Bool) (b2 : BitVec),
      hashInv b → set b i v = some b2 → hashInv b2) ∧
    (∀ (b : BitVec) (ops : List (Nat × Bool)) (b2 : BitVec),
      hashInv b → applySets b ops = some b2 → hashInv b2) ∧
    (∀ (v : Bool) (len : Nat) (ops : List (Nat × Bool)) (b2 : BitVec),
      applySets (from_elem v len) ops = some b2 → b2.hash = xorBlocks b2.inner) := by
  refine ⟨from_elem_hashInv, fun len => rfl, set_hashInv, applySets_hashInv, ?_⟩
  intro v len ops b2 h
  exact applySets_hashInv (from_elem v len) ops b2 (from_elem_hashInv v len) h

/-- Witness for C8 at concrete inputs: the invariant holds for
from_elem false 100 and is preserved across the set sequence
(5, true), (70, true), (5, false), which ends at blocks [0, 64] and hash 64. -/
theorem c8_hash_xor_invariant_witness :
    hashInv (from_elem false 100) ∧ hashInv (⟨[0, 64], 64⟩ : BitVec) :=
  ⟨c8_hash_xor_invariant.1 false 100,
    c8_hash_xor_invariant.2.2.2.1 (from_elem false 100)
      [(5, true), (70, true), (5, false)] ⟨[0, 64], 64⟩
      (c8_hash_xor_invariant.1 false 100) (by decide)⟩

/-- C10: BitVec stores no logical length: from_elem allocates exactly
ceil(len / 64) blocks; get and set succeed exactly when i / 64 is below the
block count — so indices at or beyond the requested length that still fall in
the last block succeed, and any larger index panics; equality and the Hash impl
look only at the blocks and the running hash; and two from_elem calls whose
lengths round to the same block count produce equal BitVecs. -/
theorem c10_no_logical_length :
    (∀ (v : Bool) (len : Nat), (from_elem v len).inner.length = (len + 63) / 64) ∧
    (∀ (b : BitVec) (i : Nat), (get b i).isSome = true ↔ i / 64 < b.inner.length) ∧
    (∀ (b : BitVec) (i : Nat) (v : Bool),
      (set b i v).isSome = true ↔ i / 64 < b.inner.length) ∧
    (∀ b1 b2 : BitVec, b1.inner = b2.inner → b1.hash = b2.hash →
      b1 = b2 ∧ hashWrite b1 = hashWrite b2) ∧
    (∀ (v : Bool) (len1 len2 : Nat), (len1 + 63) / 64 = (len2 + 63) / 64 →
      from_elem v len1 = from_elem v len2) := by
  refine ⟨fun v len => by simp [from_elem], ?_, ?_, ?_, ?_⟩
  · intro b i
    unfold get
    rw [Option.isSome_map']
    rw [Option.isSome_iff_exists]
    constructor
    · rintro ⟨a, ha⟩; exact (List.getElem?_eq_some.mp ha).1
    · intro h; exact ⟨b.inner[i / 64], List.getElem?_eq_some.mpr ⟨h, rfl⟩⟩
  · intro b i v
    unfold set
    rw [Option.isSome_map']
    rw [Option.isSome_iff_exists]
    constructor
    · rintro ⟨a, ha⟩; exact (List.getElem?_eq_some.mp ha).1
    · intro h; exact ⟨b.inner[i / 64], List.getElem?_eq_some.mpr ⟨h, rfl⟩⟩
  · rintro ⟨i1, h1⟩ ⟨i2, h2⟩ hi hh
    subst hi; subst hh
    exact ⟨rfl, rfl⟩
  · intro v len1 len2 h
    unfold from_elem
    simp only [h]

/-- Witness for C10 at concrete inputs: from_elem false 1 and from_elem false 64
round to the same single block and compare equal, and the extension lemma applied
at two equal concrete BitVecs. -/
theorem c10_no_logical_length_witness :
    from_elem false 1 = from_elem false 64 :=
  c10_no_logical_length.2.2.2.2 false 1 64 (by decide)

end BitVec


/-! ## Events and the intrusive doubly linked history (src/lib.rs) -/

/-- Embedding of enum Event. The Model associated types Op and Value are type
parameters. -/
inductive Event (Op Value : Type) where
  | invoke (op : Op) (ret_event : Nat) (call_id : Nat)
  | ret (val : Value)
deriving DecidableEq

/-- Embedding of struct Node. -/
structure Node (Op Value : Type) where
  ev : Option (Event Op Value)
  next : Nat
  prev : Nat
deriving DecidableEq

/-- Embedding of struct Hist: the vector backed arena of nodes. -/
structure Hist (Op Value : Type) where
  events : List (Node Op Value)
deriving DecidableEq

namespace Hist

/-- Embedding of Hist::BEGIN. -/
def BEGIN : Nat := 0

/-- Embedding of Hist::END; in the source both constants are zero. -/
def END : Nat := 0

variable {Op Value : Type}

/-- Embedding of Hist::with_capacity: pushes the two sentinel nodes. The
capacity argument only affects allocation in the source and is unused here. -/
def with_capacity (_cap : Nat) : Hist Op Value :=
  ⟨[⟨none, END, BEGIN⟩, ⟨none, END, BEGIN⟩]⟩

/-- Embedding of Hist::push_back. The two get_mut calls are modelled by
optional lookups (none models the unwrap panic). -/
def push_back (h : Hist Op Value) (ev : Event Op Value) : Option (Hist Op Value × Nat) :=
  let news_pos := h.events.length
  (h.events[END]?).bind (fun last =>
    let old_last := last.prev
    let events1 := h.events.set END { last with prev := news_pos }
    (events1[old_last]?).bind (fun lastNode =>
      let events2 := events1.set old_last { lastNode with next := news_pos }
      some (⟨events2 ++ [⟨some ev, END, old_last⟩]⟩, news_pos)))

/-- Embedding of Hist::get_from_eid; none models either expect panic. -/
def get_from_eid (h : Hist Op Value) (eid : Nat) : Option (Event Op Value) :=
  (h.events[eid]?).bind (fun nd => nd.ev)

/-- Embedding of Hist::next_eid. The outer Option models the indexing panic,
the inner Option is the Rust return value. -/
def next_eid (h : Hist Op Value) (eid : Nat) : Option (Option Nat) :=
  (h.events[eid]?).map (fun nd => if nd.next ≠ END then some nd.next else none)

/-- Embedding of Hist::first_eid. -/
def first_eid (h : Hist Op Value) : Option (Option Nat) := next_eid h BEGIN

/-- Embedding of Hist::lift_event. -/
def lift_event (h : Hist Op Value) (eid : Nat) : Option (Hist Op Value) :=
  (h.events[eid]?).bind (fun nd =>
    (h.events[nd.prev]?).bind (fun pnode =>
      let events1 := h.events.set nd.prev { pnode with next := nd.next }
      (events1[nd.next]?).bind (fun nnode =>
        some ⟨events1.set nd.next { nnode with prev := nd.prev }⟩)))

/-- Embedding of Hist::lift: the invoke node is unlinked first, then its
matching return node; none models the unreachable panic on a return eid. -/
def lift (h : Hist Op Value) (eid : Nat) : Option (Hist Op Value) :=
  (get_from_eid h eid).bind (fun ev =>
    match ev with
    | Event.invoke _ eid_ret _ =>
      (lift_event h eid).bind (fun h1 => lift_event h1 eid_ret)
    | Event.ret _ => none)

/-- Embedding of Hist::unlift_event. -/
def unlift_event (h : Hist Op Value) (eid : Nat) : Option (Hist Op Value) :=
  (h.events[eid]?).bind (fun nd =>
    (h.events[nd.prev]?).bind (fun pnode =>
      let events1 := h.events.set nd.prev { pnode with next := eid }
      (events1[nd.next]?).bind (fun nnode =>
        some ⟨events1.set nd.next { nnode with prev := eid }⟩)))

/-- Embedding of Hist::unlift: the return node is relinked first, then the
invoke node. -/
def unlift (h : Hist Op Value) (eid : Nat) : Option (Hist Op Value) :=
  (get_from_eid h eid).bind (fun ev =>
    match ev with
    | Event.invoke _ eid_ret _ =>
      (unlift_event h eid_ret).bind (fun h1 => unlift_event h1 eid)
    | Event.ret _ => none)

/-- Embedding of Hist::len. -/
def len (h : Hist Op Value) : Nat := h.events.length - 2

/-- Embedding of Hist::get_call_id; none models the panics. -/
def get_call_id (h : Hist Op Value) (eid : Nat) : Option Nat :=
  (get_from_eid h eid).bind (fun ev =>
    match ev with
    | Event.invoke _ _ inv_id => some inv_id
    | Event.ret _ => none)

/-! ### Derived notions used to state the history invariants -/

/-- The next field of the node at an index (0 when the index is invalid). -/
def nextOf (h : Hist Op Value) (i : Nat) : Nat :=
  match h.events[i]? with
  | some nd => nd.next
  | none => 0

/-- The prev field of the node at an index (0 when the index is invalid). -/
def prevOf (h : Hist Op Value) (i : Nat) : Nat :=
  match h.events[i]? with
  | some nd => nd.prev
  | none => 0

/-- The doubly linked property at one node: the node exists, its prev
neighbour exists and points forward to it, and its next neighbour exists and
points back to it. -/
def linkedAt (h : Hist Op Value) (i : Nat) : Bool :=
  ((h.events[i]?).bind (fun nd =>
    (h.events[nd.prev]?).bind (fun p =>
      (h.events[nd.next]?).map (fun n =>
        p.next == i && n.prev == i)))).getD false

/-- chainOK h a xs b: following next links from a visits exactly xs and then
lands on b, with all backward prev links matching. -/
def chainOK (h : Hist Op Value) : Nat → List Nat → Nat → Bool
  | a, [], b => nextOf h a == b && prevOf h b == a
  | a, x :: xs, b => nextOf h a == x && prevOf h x == a && chainOK h x xs b

/-- The forward walk from a node, stopping at the sentinel 0, with fuel. -/
def chainFrom (h : Hist Op Value) : Nat → Nat → List Nat
  | 0, _ => []
  | fuel + 1, cur =>
    let n := nextOf h cur
    if n = 0 then [] else n :: chainFrom h fuel n

/-- The canonical live list: the forward walk from the sentinel. -/
def liveList (h : Hist Op Value) : List Nat := chainFrom h h.events.length 0

/-- A valid live chain: the cyclic doubly linked representation of lv through
the sentinel 0, with distinct live indices that are valid and nonzero. -/
def goodChain (h : Hist Op Value) (lv : List Nat) : Prop :=
  chainOK h 0 lv 0 = true ∧ lv.Nodup ∧ (∀ x ∈ lv, x ≠ 0 ∧ x < h.events.length) ∧
    0 < h.events.length

/-- The history invariant: the canonical walk is a valid live chain. -/
def histWF (h : Hist Op Value) : Prop := goodChain h (liveList h)

end Hist


/-! ### Helper lemmas about list updates and the history operations -/

theorem set_getElem_self {α : Type} (l : List α) (i : Nat) (a : α)
    (h : l[i]? = some a) : l.set i a = l := by
  induction l generalizing i with
  | nil => simp at h
  | cons hd tl ih =>
    cases i with
    | zero =>
      simp only [List.getElem?_cons_zero, Option.some.injEq] at h
      subst h
      rfl
    | succ j =>
      simp only [List.getElem?_cons_succ] at h
      simp [List.set_cons_succ, ih j h]

namespace Hist

variable {Op Value : Type}

theorem getElem_lt {α : Type} {l : List α} {i : Nat} {a : α}
    (h : l[i]? = some a) : i < l.length :=
  (List.getElem?_eq_some.mp h).1

theorem lift_event_eq (h : Hist Op Value) (i : Nat) (nd pn nn2 : Node Op Value)
    (hnd : h.events[i]? = some nd) (hp : h.events[nd.prev]? = some pn)
    (hn : (h.events.set nd.prev { pn with next := nd.next })[nd.next]? = some nn2) :
    lift_event h i =
      some ⟨(h.events.set nd.prev { pn with next := nd.next }).set nd.next
        { nn2 with prev := nd.prev }⟩ := by
  unfold lift_event
  rw [hnd, Option.some_bind, hp, Option.some_bind]
  simp only
  rw [hn, Option.some_bind]

theorem unlift_event_eq (h : Hist Op Value) (i : Nat) (nd pn nn2 : Node Op Value)
    (hnd : h.events[i]? = some nd) (hp : h.events[nd.prev]? = some pn)
    (hn : (h.events.set nd.prev { pn with next := i })[nd.next]? = some nn2) :
    unlift_event h i =
      some ⟨(h.events.set nd.prev { pn with next := i }).set nd.next
        { nn2 with prev := i }⟩ := by
  unfold unlift_event
  rw [hnd, Option.some_bind, hp, Option.some_bind]
  simp only
  rw [hn, Option.some_bind]

theorem linkedAt_spec (h : Hist Op Value) (i : Nat) (hl : linkedAt h i = true) :
    ∃ nd pn nn, h.events[i]? = some nd ∧ h.events[nd.prev]? = some pn ∧
      h.events[nd.next]? = some nn ∧ pn.next = i ∧ nn.prev = i := by
  unfold linkedAt at hl
  cases hnd : h.events[i]? with
  | none => rw [hnd] at hl; cases hl
  | some nd =>
    rw [hnd, Option.some_bind] at hl
    cases hp : h.events[nd.prev]? with
    | none => rw [hp] at hl; cases hl
    | some pn =>
      rw [hp, Option.some_bind] at hl
      cases hn : h.events[nd.next]? with
      | none => rw [hn] at hl; cases hl
      | some nn =>
        rw [hn, Option.map_some'] at hl
        simp only [Option.getD_some, Bool.and_eq_true, beq_iff_eq] at hl
        exact ⟨nd, pn, nn, rfl, hp, hn, hl.1, hl.2⟩

theorem linkedAt_intro (h : Hist Op Value) (i : Nat) (nd pn nn : Node Op Value)
    (hnd : h.events[i]? = some nd) (hp : h.events[nd.prev]? = some pn)
    (hn : h.events[nd.next]? = some nn) (hpn : pn.next = i) (hnn : nn.prev = i) :
    linkedAt h i = true := by
  unfold linkedAt
  rw [hnd, Option.some_bind, hp, Option.some_bind, hn, Option.map_some']
  simp [hpn, hnn]


theorem lift_event_cancel (h : Hist Op Value) (i : Nat) (hl : linkedAt h i = true) :
    ∃ h2, lift_event h i = some h2 ∧ unlift_event h2 i = some h ∧
      h2.events[i]? = h.events[i]? ∧ h2.events.length = h.events.length := by
  obtain ⟨nd, pn, nn, hnd, hp, hn, hpn, hnn⟩ := linkedAt_spec h i hl
  obtain ⟨e, n, p⟩ := nd
  simp only at hnd hp hn
  by_cases hip : p = i
  · -- case p = i: then the node is a self cycle (n = i as well)
    subst hip
    rw [hnd] at hp
    have h1 : (⟨e, n, p⟩ : Node Op Value) = pn := Option.some.inj hp
    subst h1
    have h2 : n = p := hpn
    subst h2
    rw [hnd] at hn
    have h3 : (⟨e, n, n⟩ : Node Op Value) = nn := Option.some.inj hn
    subst h3
    have hset : h.events.set n (⟨e, n, n⟩ : Node Op Value) = h.events :=
      set_getElem_self _ _ _ hnd
    refine ⟨h, ?_, ?_, rfl, rfl⟩
    · have heq := lift_event_eq h n ⟨e, n, n⟩ ⟨e, n, n⟩ ⟨e, n, n⟩ hnd hnd
        (by simp only; rw [hset]; exact hnd)
      simp only at heq
      rw [hset, hset] at heq
      exact heq
    · have heq := unlift_event_eq h n ⟨e, n, n⟩ ⟨e, n, n⟩ ⟨e, n, n⟩ hnd hnd
        (by simp only; rw [hset]; exact hnd)
      simp only at heq
      rw [hset, hset] at heq
      exact heq
  · by_cases hin : n = i
    · -- impossible: n = i forces nn = the node itself and then p = i
      subst hin
      rw [hnd] at hn
      have h1 : (⟨e, n, p⟩ : Node Op Value) = nn := Option.some.inj hn
      subst h1
      exact absurd hnn hip
    · obtain ⟨pe, pnnext, pnprev⟩ := pn
      obtain ⟨ne2, nnnext, nnprev⟩ := nn
      simp only at hpn hnn
      have hpn4 : i = pnnext := hpn.symm
      subst hpn4
      have hnn4 : i = nnprev := hnn.symm
      subst hnn4
      by_cases hpn2 : p = n
      · -- case p = n with i distinct: the two neighbours coincide
        subst hpn2
        rw [hp] at hn
        have h1 : (⟨pe, i, pnprev⟩ : Node Op Value) = ⟨ne2, nnnext, i⟩ :=
          Option.some.inj hn
        cases h1
        have hpLt : p < h.events.length := getElem_lt hp
        refine ⟨⟨(h.events.set p ⟨pe, p, p⟩)⟩, ?_, ?_, ?_, ?_⟩
        · have heq := lift_event_eq h i ⟨e, p, p⟩ ⟨pe, i, i⟩
            ⟨pe, p, i⟩ hnd hp
            (by simp only; rw [List.getElem?_set_eq_of_lt _ hpLt])
          simp only at heq
          rw [List.set_set] at heq
          exact heq
        · have hpLt2 : p < ((h.events.set p (⟨pe, p, p⟩ : Node Op Value))).length := by
            rw [List.length_set]; exact hpLt
          have hgi : ((h.events.set p (⟨pe, p, p⟩ : Node Op Value)))[i]? =
              some ⟨e, p, p⟩ := by
            rw [List.getElem?_set_ne (fun hc => hip hc)]
            exact hnd
          have heq := unlift_event_eq ⟨h.events.set p ⟨pe, p, p⟩⟩ i ⟨e, p, p⟩
            ⟨pe, p, p⟩ ⟨pe, i, p⟩ hgi
            (by simp only; rw [List.getElem?_set_eq_of_lt _ hpLt])
            (by simp only; rw [List.set_set, List.getElem?_set_eq_of_lt _ hpLt])
          simp only at heq
          rw [List.set_set, List.set_set] at heq
          rw [set_getElem_self _ _ _ hp] at heq
          exact heq
        · simp only
          rw [List.getElem?_set_ne (fun hc => hip hc)]
        · simp only [List.length_set]
      · -- general case: i, p, n pairwise distinct
        have hpLt : p < h.events.length := getElem_lt hp
        have hnLt : n < h.events.length := getElem_lt hn
        refine ⟨⟨(h.events.set p ⟨pe, n, pnprev⟩).set n ⟨ne2, nnnext, p⟩⟩, ?_, ?_, ?_, ?_⟩
        · have heq := lift_event_eq h i ⟨e, n, p⟩ ⟨pe, i, pnprev⟩ ⟨ne2, nnnext, i⟩ hnd hp
            (by simp only; rw [List.getElem?_set_ne hpn2]; exact hn)
          simp only at heq
          exact heq
        · have hE2i : ((h.events.set p (⟨pe, n, pnprev⟩ : Node Op Value)).set n
              (⟨ne2, nnnext, p⟩ : Node Op Value))[i]? = some ⟨e, n, p⟩ := by
            rw [List.getElem?_set_ne (fun hc => hin hc),
              List.getElem?_set_ne (fun hc => hip hc)]
            exact hnd
          have hE2p : ((h.events.set p (⟨pe, n, pnprev⟩ : Node Op Value)).set n
              (⟨ne2, nnnext, p⟩ : Node Op Value))[p]? = some ⟨pe, n, pnprev⟩ := by
            rw [List.getElem?_set_ne (fun hc => hpn2 hc.symm),
              List.getElem?_set_eq_of_lt _ hpLt]
          have hstep : ((h.events.set p (⟨pe, n, pnprev⟩ : Node Op Value)).set n
              (⟨ne2, nnnext, p⟩ : Node Op Value)).set p ⟨pe, i, pnprev⟩ =
              h.events.set n ⟨ne2, nnnext, p⟩ := by
            rw [← List.set_comm _ _ _ hpn2, List.set_set, set_getElem_self _ _ _ hp]
          have heq := unlift_event_eq ⟨(h.events.set p ⟨pe, n, pnprev⟩).set n
              ⟨ne2, nnnext, p⟩⟩ i ⟨e, n, p⟩ ⟨pe, n, pnprev⟩ ⟨ne2, nnnext, p⟩ hE2i hE2p
            (by simp only; rw [hstep, List.getElem?_set_eq_of_lt _ hnLt])
          simp only at heq
          rw [hstep, List.set_set, set_getElem_self _ _ _ hn] at heq
          exact heq
        · simp only
          rw [List.getElem?_set_ne (fun hc => hin hc),
            List.getElem?_set_ne (fun hc => hip hc)]
        · simp only [List.length_set]


theorem lift_event_some (h h2 : Hist Op Value) (i : Nat) (hle : lift_event h i = some h2) :
    ∃ nd pn nn2, h.events[i]? = some nd ∧ h.events[nd.prev]? = some pn ∧
      (h.events.set nd.prev { pn with next := nd.next })[nd.next]? = some nn2 ∧
      h2 = ⟨(h.events.set nd.prev { pn with next := nd.next }).set nd.next
        { nn2 with prev := nd.prev }⟩ := by
  unfold lift_event at hle
  cases hnd : h.events[i]? with
  | none => rw [hnd] at hle; cases hle
  | some nd =>
    rw [hnd, Option.some_bind] at hle
    cases hp : h.events[nd.prev]? with
    | none => rw [hp] at hle; cases hle
    | some pn =>
      rw [hp, Option.some_bind] at hle
      simp only at hle
      cases hn : (h.events.set nd.prev { pn with next := nd.next })[nd.next]? with
      | none => rw [hn] at hle; cases hle
      | some nn2 =>
        rw [hn, Option.some_bind] at hle
        exact ⟨nd, pn, nn2, rfl, hp, hn, (Option.some.inj hle).symm⟩

theorem unlift_event_some (h h2 : Hist Op Value) (i : Nat)
    (hle : unlift_event h i = some h2) :
    ∃ nd pn nn2, h.events[i]? = some nd ∧ h.events[nd.prev]? = some pn ∧
      (h.events.set nd.prev { pn with next := i })[nd.next]? = some nn2 ∧
      h2 = ⟨(h.events.set nd.prev { pn with next := i }).set nd.next
        { nn2 with prev := i }⟩ := by
  unfold unlift_event at hle
  cases hnd : h.events[i]? with
  | none => rw [hnd] at hle; cases hle
  | some nd =>
    rw [hnd, Option.some_bind] at hle
    cases hp : h.events[nd.prev]? with
    | none => rw [hp] at hle; cases hle
    | some pn =>
      rw [hp, Option.some_bind] at hle
      simp only at hle
      cases hn : (h.events.set nd.prev { pn with next := i })[nd.next]? with
      | none => rw [hn] at hle; cases hle
      | some nn2 =>
        rw [hn, Option.some_bind] at hle
        exact ⟨nd, pn, nn2, rfl, hp, hn, (Option.some.inj hle).symm⟩

theorem bind_ev_set (l : List (Node Op Value)) (p : Nat) (x : Node Op Value)
    (hev : (l[p]?).map Node.ev = some x.ev) (j : Nat) :
    ((l.set p x)[j]?).bind Node.ev = (l[j]?).bind Node.ev := by
  by_cases hj : p = j
  · subst hj
    cases hl : l[p]? with
    | none => rw [hl] at hev; cases hev
    | some nd =>
      rw [List.getElem?_set_eq_of_lt _ (getElem_lt hl)]
      rw [hl, Option.map_some'] at hev
      have hev2 := Option.some.inj hev
      simp [Option.some_bind, hev2]
  · rw [List.getElem?_set_ne hj]

theorem lift_event_ev (h h2 : Hist Op Value) (i : Nat) (hle : lift_event h i = some h2)
    (j : Nat) : get_from_eid h2 j = get_from_eid h j := by
  obtain ⟨nd, pn, nn2, hnd, hp, hn, hh2⟩ := lift_event_some h h2 i hle
  subst hh2
  unfold get_from_eid
  simp only
  rw [bind_ev_set _ nd.next { nn2 with prev := nd.prev } (by rw [hn, Option.map_some'])]
  rw [bind_ev_set _ nd.prev { pn with next := nd.next } (by rw [hp, Option.map_some'])]

theorem unlift_event_ev (h h2 : Hist Op Value) (i : Nat)
    (hle : unlift_event h i = some h2) (j : Nat) :
    get_from_eid h2 j = get_from_eid h j := by
  obtain ⟨nd, pn, nn2, hnd, hp, hn, hh2⟩ := unlift_event_some h h2 i hle
  subst hh2
  unfold get_from_eid
  simp only
  rw [bind_ev_set _ nd.next { nn2 with prev := i } (by rw [hn, Option.map_some'])]
  rw [bind_ev_set _ nd.prev { pn with next := i } (by rw [hp, Option.map_some'])]

theorem lift_event_length (h h2 : Hist Op Value) (i : Nat)
    (hle : lift_event h i = some h2) : h2.events.length = h.events.length := by
  obtain ⟨nd, pn, nn2, hnd, hp, hn, hh2⟩ := lift_event_some h h2 i hle
  subst hh2
  simp [List.length_set]

theorem unlift_event_length (h h2 : Hist Op Value) (i : Nat)
    (hle : unlift_event h i = some h2) : h2.events.length = h.events.length := by
  obtain ⟨nd, pn, nn2, hnd, hp, hn, hh2⟩ := unlift_event_some h h2 i hle
  subst hh2
  simp [List.length_set]

theorem lift_some (h h2 : Hist Op Value) (e : Nat) (hle : lift h e = some h2) :
    ∃ op r cid h1, get_from_eid h e = some (Event.invoke op r cid) ∧
      lift_event h e = some h1 ∧ lift_event h1 r = some h2 := by
  unfold lift at hle
  cases hev : get_from_eid h e with
  | none => rw [hev] at hle; cases hle
  | some ev =>
    rw [hev, Option.some_bind] at hle
    cases ev with
    | ret v => cases hle
    | invoke op r cid =>
      simp only at hle
      cases h1c : lift_event h e with
      | none => rw [h1c] at hle; cases hle
      | some h1 =>
        rw [h1c, Option.some_bind] at hle
        exact ⟨op, r, cid, h1, rfl, rfl, hle⟩

theorem unlift_some (h h2 : Hist Op Value) (e : Nat) (hle : unlift h e = some h2) :
    ∃ op r cid h1, get_from_eid h e = some (Event.invoke op r cid) ∧
      unlift_event h r = some h1 ∧ unlift_event h1 e = some h2 := by
  unfold unlift at hle
  cases hev : get_from_eid h e with
  | none => rw [hev] at hle; cases hle
  | some ev =>
    rw [hev, Option.some_bind] at hle
    cases ev with
    | ret v => cases hle
    | invoke op r cid =>
      simp only at hle
      cases h1c : unlift_event h r with
      | none => rw [h1c] at hle; cases hle
      | some h1 =>
        rw [h1c, Option.some_bind] at hle
        exact ⟨op, r, cid, h1, rfl, h1c, hle⟩

theorem lift_ev (h h2 : Hist Op Value) (e : Nat) (hle : lift h e = some h2) (j : Nat) :
    get_from_eid h2 j = get_from_eid h j := by
  obtain ⟨op, r, cid, h1, _, hl1, hl2⟩ := lift_some h h2 e hle
  rw [lift_event_ev h1 h2 r hl2 j, lift_event_ev h h1 e hl1 j]

theorem unlift_ev (h h2 : Hist Op Value) (e : Nat) (hle : unlift h e = some h2) (j : Nat) :
    get_from_eid h2 j = get_from_eid h j := by
  obtain ⟨op, r, cid, h1, _, hl1, hl2⟩ := unlift_some h h2 e hle
  rw [unlift_event_ev h1 h2 e hl2 j, unlift_event_ev h h1 r hl1 j]

theorem lift_length (h h2 : Hist Op Value) (e : Nat) (hle : lift h e = some h2) :
    h2.events.length = h.events.length := by
  obtain ⟨op, r, cid, h1, _, hl1, hl2⟩ := lift_some h h2 e hle
  rw [lift_event_length h1 h2 r hl2, lift_event_length h h1 e hl1]

theorem unlift_length (h h2 : Hist Op Value) (e : Nat) (hle : unlift h e = some h2) :
    h2.events.length = h.events.length := by
  obtain ⟨op, r, cid, h1, _, hl1, hl2⟩ := unlift_some h h2 e hle
  rw [unlift_event_length h1 h2 e hl2, unlift_event_length h h1 r hl1]

/-- The central cancellation property: on a doubly linked invoke node whose
matching return is also doubly linked after the invoke has been unlinked,
lift succeeds and unlift brings the history back exactly. -/
theorem lift_unlift_cancel (h : Hist Op Value) (e r : Nat) (op : Op) (cid : Nat)
    (hev : get_from_eid h e = some (Event.invoke op r cid))
    (hle : linkedAt h e = true)
    (hmid : ∀ hm, lift_event h e = some hm → linkedAt hm r = true) :
    ∃ h2, lift h e = some h2 ∧ unlift h2 e = some h := by
  obtain ⟨h1, hl1, hu1, hn1, hlen1⟩ := lift_event_cancel h e hle
  obtain ⟨h2, hl2, hu2, hn2, hlen2⟩ := lift_event_cancel h1 r (hmid h1 hl1)
  refine ⟨h2, ?_, ?_⟩
  · unfold lift
    rw [hev, Option.some_bind]
    simp only
    rw [hl1, Option.some_bind, hl2]
  · unfold unlift
    have hev2 : get_from_eid h2 e = some (Event.invoke op r cid) := by
      rw [lift_event_ev h1 h2 r hl2 e, lift_event_ev h h1 e hl1 e]
      exact hev
    rw [hev2, Option.some_bind]
    simp only
    rw [hu2, Option.some_bind, hu1]


/-! ### Chain lemmas -/

theorem nextOf_eq (h : Hist Op Value) {j : Nat} {nd : Node Op Value}
    (hj : h.events[j]? = some nd) : nextOf h j = nd.next := by
  unfold nextOf
  rw [hj]

theorem prevOf_eq (h : Hist Op Value) {j : Nat} {nd : Node Op Value}
    (hj : h.events[j]? = some nd) : prevOf h j = nd.prev := by
  unfold prevOf
  rw [hj]

theorem chainOK_nil_iff (h : Hist Op Value) (a b : Nat) :
    chainOK h a [] b = true ↔ nextOf h a = b ∧ prevOf h b = a := by
  simp [chainOK, Bool.and_eq_true, beq_iff_eq]

theorem chainOK_cons_iff (h : Hist Op Value) (a x b : Nat) (xs : List Nat) :
    chainOK h a (x :: xs) b = true ↔
      nextOf h a = x ∧ prevOf h x = a ∧ chainOK h x xs b = true := by
  simp [chainOK, Bool.and_eq_true, beq_iff_eq, and_assoc]

theorem chainOK_append_iff (h : Hist Op Value) (a x b : Nat) (xs ys : List Nat) :
    chainOK h a (xs ++ x :: ys) b = true ↔
      chainOK h a xs x = true ∧ chainOK h x ys b = true := by
  induction xs generalizing a with
  | nil =>
    simp only [List.nil_append, chainOK_cons_iff, chainOK_nil_iff]
    tauto
  | cons y xs ih =>
    simp only [List.cons_append, chainOK_cons_iff, ih]
    tauto

theorem chainOK_last (h : Hist Op Value) (a b : Nat) (xs : List Nat)
    (hc : chainOK h a xs b = true) :
    nextOf h (xs.getLastD a) = b ∧ prevOf h b = xs.getLastD a := by
  induction xs generalizing a with
  | nil =>
    rw [chainOK_nil_iff] at hc
    simpa using hc
  | cons x xs ih =>
    rw [chainOK_cons_iff] at hc
    rw [List.getLastD_cons]
    exact ih x hc.2.2

theorem chainOK_head (h : Hist Op Value) (a b : Nat) (xs : List Nat)
    (hc : chainOK h a xs b = true) :
    nextOf h a = xs.headD b ∧ prevOf h (xs.headD b) = a := by
  cases xs with
  | nil =>
    rw [chainOK_nil_iff] at hc
    simpa using hc
  | cons x xs =>
    rw [chainOK_cons_iff] at hc
    exact ⟨hc.1, hc.2.1⟩

theorem headD_mem_cons (l : List Nat) (a : Nat) : l.headD a ∈ a :: l := by
  cases l with
  | nil => simp
  | cons x xs => simp [List.headD]

theorem chainOK_congr (h1 h2 : Hist Op Value) (a b : Nat) (xs : List Nat)
    (hnext : ∀ y ∈ a :: xs, nextOf h2 y = nextOf h1 y)
    (hprev : ∀ y ∈ xs, prevOf h2 y = prevOf h1 y)
    (hprevb : prevOf h2 b = prevOf h1 b)
    (hc : chainOK h1 a xs b = true) : chainOK h2 a xs b = true := by
  induction xs generalizing a with
  | nil =>
    rw [chainOK_nil_iff] at hc ⊢
    rw [hnext a (by simp), hprevb]
    exact hc
  | cons x xs ih =>
    rw [chainOK_cons_iff] at hc ⊢
    refine ⟨?_, ?_, ?_⟩
    · rw [hnext a (by simp)]; exact hc.1
    · rw [hprev x (by simp)]; exact hc.2.1
    · exact ih x (fun y hy => hnext y (by simp [hy] )) (fun y hy => hprev y (by simp [hy]))
        hc.2.2

theorem chainOK_replace_last (h1 h2 : Hist Op Value) (a b c : Nat) (xs : List Nat)
    (hc : chainOK h1 a xs b = true)
    (hnd : (a :: xs).Nodup)
    (hnext : ∀ y ∈ a :: xs, y ≠ xs.getLastD a → nextOf h2 y = nextOf h1 y)
    (hprev : ∀ y ∈ xs, prevOf h2 y = prevOf h1 y)
    (hlastnext : nextOf h2 (xs.getLastD a) = c)
    (hlastprev : prevOf h2 c = xs.getLastD a) :
    chainOK h2 a xs c = true := by
  induction xs generalizing a with
  | nil =>
    rw [chainOK_nil_iff]
    exact ⟨hlastnext, hlastprev⟩
  | cons x xs ih =>
    rw [chainOK_cons_iff] at hc
    rw [chainOK_cons_iff]
    have hlast_ne_a : a ≠ (x :: xs).getLastD a := by
      intro hcon
      have hmem := List.getLastD_mem_cons xs x
      rw [List.getLastD_cons] at hcon
      rw [← hcon] at hmem
      exact (List.nodup_cons.mp hnd).1 hmem
    refine ⟨?_, ?_, ?_⟩
    · rw [hnext a (by simp) (fun hcon => hlast_ne_a hcon)]
      exact hc.1
    · rw [hprev x (by simp)]; exact hc.2.1
    · exact ih x hc.2.2 (List.nodup_cons.mp hnd).2
        (fun y hy hne => hnext y (by simp [hy]) (by rw [List.getLastD_cons]; exact hne))
        (fun y hy => hprev y (by simp [hy]))
        (by rw [List.getLastD_cons] at hlastnext; exact hlastnext)
        (by rw [List.getLastD_cons] at hlastprev; exact hlastprev)


theorem lift_event_nextOf (h h2 : Hist Op Value) (e : Nat) (hle : lift_event h e = some h2)
    (j : Nat) : nextOf h2 j = if j = prevOf h e then nextOf h e else nextOf h j := by
  obtain ⟨nd, pn, nn2, hnd, hp, hn, hh2⟩ := lift_event_some h h2 e hle
  subst hh2
  rw [prevOf_eq h hnd, nextOf_eq h hnd]
  have hNlt : nd.next < h.events.length := by
    have := getElem_lt hn
    rwa [List.length_set] at this
  by_cases hjN : j = nd.next
  · subst hjN
    have hnode : ((h.events.set nd.prev { pn with next := nd.next }).set nd.next
        { nn2 with prev := nd.prev })[nd.next]? = some { nn2 with prev := nd.prev } :=
      List.getElem?_set_eq_of_lt _ (by rw [List.length_set]; exact hNlt)
    rw [nextOf_eq _ hnode]
    by_cases hNP : nd.next = nd.prev
    · rw [if_pos hNP]
      rw [← hNP, List.getElem?_set_eq_of_lt _ hNlt] at hn
      have hY : ({ pn with next := nd.next } : Node Op Value) = nn2 := Option.some.inj hn
      rw [← hY]
    · rw [if_neg hNP]
      rw [List.getElem?_set_ne (fun hc => hNP hc.symm)] at hn
      rw [nextOf_eq h hn]
  · have hnode : ((h.events.set nd.prev { pn with next := nd.next }).set nd.next
        { nn2 with prev := nd.prev })[j]? =
        (h.events.set nd.prev { pn with next := nd.next })[j]? :=
      List.getElem?_set_ne (fun hc => hjN hc.symm)
    by_cases hjP : j = nd.prev
    · subst hjP
      rw [if_pos rfl]
      have hnode2 : (h.events.set nd.prev { pn with next := nd.next })[nd.prev]? =
          some { pn with next := nd.next } :=
        List.getElem?_set_eq_of_lt _ (getElem_lt hp)
      rw [nextOf_eq _ (hnode.trans hnode2)]
    · rw [if_neg hjP]
      have hnode2 : (h.events.set nd.prev { pn with next := nd.next })[j]? =
          h.events[j]? := List.getElem?_set_ne (fun hc => hjP hc.symm)
      unfold nextOf
      rw [hnode.trans hnode2]

theorem lift_event_prevOf (h h2 : Hist Op Value) (e : Nat) (hle : lift_event h e = some h2)
    (j : Nat) : prevOf h2 j = if j = nextOf h e then prevOf h e else prevOf h j := by
  obtain ⟨nd, pn, nn2, hnd, hp, hn, hh2⟩ := lift_event_some h h2 e hle
  subst hh2
  rw [prevOf_eq h hnd, nextOf_eq h hnd]
  have hNlt : nd.next < h.events.length := by
    have := getElem_lt hn
    rwa [List.length_set] at this
  by_cases hjN : j = nd.next
  · subst hjN
    rw [if_pos rfl]
    have hnode : ((h.events.set nd.prev { pn with next := nd.next }).set nd.next
        { nn2 with prev := nd.prev })[nd.next]? = some { nn2 with prev := nd.prev } :=
      List.getElem?_set_eq_of_lt _ (by rw [List.length_set]; exact hNlt)
    rw [prevOf_eq _ hnode]
  · rw [if_neg hjN]
    have hnode : ((h.events.set nd.prev { pn with next := nd.next }).set nd.next
        { nn2 with prev := nd.prev })[j]? =
        (h.events.set nd.prev { pn with next := nd.next })[j]? :=
      List.getElem?_set_ne (fun hc => hjN hc.symm)
    by_cases hjP : j = nd.prev
    · subst hjP
      have hnode2 : (h.events.set nd.prev { pn with next := nd.next })[nd.prev]? =
          some { pn with next := nd.next } :=
        List.getElem?_set_eq_of_lt _ (getElem_lt hp)
      rw [prevOf_eq _ (hnode.trans hnode2), prevOf_eq h hp]
    · have hnode2 : (h.events.set nd.prev { pn with next := nd.next })[j]? =
          h.events[j]? := List.getElem?_set_ne (fun hc => hjP hc.symm)
      unfold prevOf
      rw [hnode.trans hnode2]

theorem unlift_event_nextOf (h h2 : Hist Op Value) (e : Nat)
    (hle : unlift_event h e = some h2) (j : Nat) :
    nextOf h2 j = if j = prevOf h e then e else nextOf h j := by
  obtain ⟨nd, pn, nn2, hnd, hp, hn, hh2⟩ := unlift_event_some h h2 e hle
  subst hh2
  rw [prevOf_eq h hnd]
  have hNlt : nd.next < h.events.length := by
    have := getElem_lt hn
    rwa [List.length_set] at this
  by_cases hjN : j = nd.next
  · subst hjN
    have hnode : ((h.events.set nd.prev { pn with next := e }).set nd.next
        { nn2 with prev := e })[nd.next]? = some { nn2 with prev := e } :=
      List.getElem?_set_eq_of_lt _ (by rw [List.length_set]; exact hNlt)
    rw [nextOf_eq _ hnode]
    by_cases hNP : nd.next = nd.prev
    · rw [if_pos hNP]
      rw [← hNP, List.getElem?_set_eq_of_lt _ hNlt] at hn
      have hY : ({ pn with next := e } : Node Op Value) = nn2 := Option.some.inj hn
      rw [← hY]
    · rw [if_neg hNP]
      rw [List.getElem?_set_ne (fun hc => hNP hc.symm)] at hn
      rw [nextOf_eq h hn]
  · have hnode : ((h.events.set nd.prev { pn with next := e }).set nd.next
        { nn2 with prev := e })[j]? =
        (h.events.set nd.prev { pn with next := e })[j]? :=
      List.getElem?_set_ne (fun hc => hjN hc.symm)
    by_cases hjP : j = nd.prev
    · subst hjP
      rw [if_pos rfl]
      have hnode2 : (h.events.set nd.prev { pn with next := e })[nd.prev]? =
          some { pn with next := e } :=
        List.getElem?_set_eq_of_lt _ (getElem_lt hp)
      rw [nextOf_eq _ (hnode.trans hnode2)]
    · rw [if_neg hjP]
      have hnode2 : (h.events.set nd.prev { pn with next := e })[j]? =
          h.events[j]? := List.getElem?_set_ne (fun hc => hjP hc.symm)
      unfold nextOf
      rw [hnode.trans hnode2]

theorem unlift_event_prevOf (h h2 : Hist Op Value) (e : Nat)
    (hle : unlift_event h e = some h2) (j : Nat) :
    prevOf h2 j = if j = nextOf h e then e else prevOf h j := by
  obtain ⟨nd, pn, nn2, hnd, hp, hn, hh2⟩ := unlift_event_some h h2 e hle
  subst hh2
  rw [nextOf_eq h hnd]
  have hNlt : nd.next < h.events.length := by
    have := getElem_lt hn
    rwa [List.length_set] at this
  by_cases hjN : j = nd.next
  · subst hjN
    rw [if_pos rfl]
    have hnode : ((h.events.set nd.prev { pn with next := e }).set nd.next
        { nn2 with prev := e })[nd.next]? = some { nn2 with prev := e } :=
      List.getElem?_set_eq_of_lt _ (by rw [List.length_set]; exact hNlt)
    rw [prevOf_eq _ hnode]
  · rw [if_neg hjN]
    have hnode : ((h.events.set nd.prev { pn with next := e }).set nd.next
        { nn2 with prev := e })[j]? =
        (h.events.set nd.prev { pn with next := e })[j]? :=
      List.getElem?_set_ne (fun hc => hjN hc.symm)
    by_cases hjP : j = nd.prev
    · subst hjP
      have hnode2 : (h.events.set nd.prev { pn with next := e })[nd.prev]? =
          some { pn with next := e } :=
        List.getElem?_set_eq_of_lt _ (getElem_lt hp)
      rw [prevOf_eq _ (hnode.trans hnode2), prevOf_eq h hp]
    · have hnode2 : (h.events.set nd.prev { pn with next := e })[j]? =
          h.events[j]? := List.getElem?_set_ne (fun hc => hjP hc.symm)
      unfold prevOf
      rw [hnode.trans hnode2]


theorem headD_nil (a : Nat) : List.headD ([] : List Nat) a = a := rfl

theorem headD_cons (x a : Nat) (xs : List Nat) : (x :: xs).headD a = x := rfl

/-- Every member of a valid live chain is doubly linked. -/
theorem goodChain_linkedAt (h : Hist Op Value) (lv : List Nat) (x : Nat)
    (hg : goodChain h lv) (hx : x ∈ lv) : linkedAt h x = true := by
  obtain ⟨hc, hnd, hval, hpos⟩ := hg
  obtain ⟨l1, l2, hsplit⟩ := List.append_of_mem hx
  subst hsplit
  rw [chainOK_append_iff] at hc
  obtain ⟨hc1, hc2⟩ := hc
  obtain ⟨hpn, hpp⟩ := chainOK_last h 0 x l1 hc1
  obtain ⟨hsn, hsp⟩ := chainOK_head h x 0 l2 hc2
  have hxval := hval x (by simp)
  have hPval : l1.getLastD 0 < h.events.length := by
    rcases List.mem_cons.mp (List.getLastD_mem_cons l1 0) with h0 | hmem
    · rw [h0]; exact hpos
    · exact (hval _ (List.mem_append_left _ hmem)).2
  have hNval : l2.headD 0 < h.events.length := by
    rcases List.mem_cons.mp (headD_mem_cons l2 0) with h0 | hmem
    · rw [h0]; exact hpos
    · exact (hval _ (List.mem_append_right _ (List.mem_cons_of_mem _ hmem))).2
  obtain ⟨nd, hnd2⟩ : ∃ nd, h.events[x]? = some nd :=
    ⟨_, List.getElem?_eq_getElem hxval.2⟩
  obtain ⟨pn, hpn2⟩ : ∃ pn, h.events[l1.getLastD 0]? = some pn :=
    ⟨_, List.getElem?_eq_getElem hPval⟩
  obtain ⟨nn, hnn2⟩ : ∃ nn, h.events[l2.headD 0]? = some nn :=
    ⟨_, List.getElem?_eq_getElem hNval⟩
  have hprev : nd.prev = l1.getLastD 0 := by rw [← prevOf_eq h hnd2]; exact hpp
  have hnext : nd.next = l2.headD 0 := by rw [← nextOf_eq h hnd2]; exact hsn
  refine linkedAt_intro h x nd pn nn hnd2 (by rw [hprev]; exact hpn2)
    (by rw [hnext]; exact hnn2) ?_ ?_
  · rw [← nextOf_eq h hpn2]; exact hpn
  · rw [← prevOf_eq h hnn2]; exact hsp

/-- Unlinking a live chain member with lift_event succeeds and leaves a valid
chain on the remaining members; events and length are unchanged. -/
theorem goodChain_lift_event (h : Hist Op Value) (l1 l2 : List Nat) (e : Nat)
    (hg : goodChain h (l1 ++ e :: l2)) :
    ∃ h2, lift_event h e = some h2 ∧ goodChain h2 (l1 ++ l2) ∧
      h2.events.length = h.events.length ∧
      (∀ j, get_from_eid h2 j = get_from_eid h j) := by
  have hlk : linkedAt h e = true := goodChain_linkedAt h _ e hg (by simp)
  obtain ⟨h2, hle, _, _, _⟩ := lift_event_cancel h e hlk
  obtain ⟨hc, hnd, hval, hpos⟩ := hg
  rw [chainOK_append_iff] at hc
  obtain ⟨hc1, hc2⟩ := hc
  obtain ⟨hpn, hpp⟩ := chainOK_last h 0 e l1 hc1
  obtain ⟨hsn, hsp⟩ := chainOK_head h e 0 l2 hc2
  have hlen : h2.events.length = h.events.length := lift_event_length h h2 e hle
  have hnexts : ∀ j, nextOf h2 j = if j = l1.getLastD 0 then l2.headD 0 else nextOf h j := by
    intro j
    rw [lift_event_nextOf h h2 e hle j, hpp, hsn]
  have hprevs : ∀ j, prevOf h2 j = if j = l2.headD 0 then l1.getLastD 0 else prevOf h j := by
    intro j
    rw [lift_event_prevOf h h2 e hle j, hpp, hsn]
  have hnodup0 : (0 :: l1).Nodup := by
    rw [List.nodup_cons]
    constructor
    · intro hmem
      exact (hval 0 (List.mem_append_left _ hmem)).1 rfl
    · exact hnd.sublist (List.sublist_append_left l1 (e :: l2))
  have hnd2 : (l1 ++ l2).Nodup := by
    refine hnd.sublist ?_
    exact List.Sublist.append_left (List.sublist_cons_self e l2) l1
  have hmemne : ∀ y ∈ l1, ∀ z ∈ l2, y ≠ z := by
    intro y hy z hz hcon
    subst hcon
    rcases List.nodup_append.mp hnd with ⟨_, _, hdisj⟩
    exact hdisj hy (by simp [hz])
  have hel1 : e ∉ l1 := by
    intro hmem
    rcases List.nodup_append.mp hnd with ⟨_, _, hdisj⟩
    exact hdisj hmem (by simp)
  refine ⟨h2, hle, ⟨?_, hnd2, ?_, ?_⟩, hlen, fun j => lift_event_ev h h2 e hle j⟩
  · -- the new chain
    cases hl2 : l2 with
    | nil =>
      subst hl2
      simp only [headD_nil] at hnexts hprevs
      simp only [List.append_nil]
      refine chainOK_replace_last h h2 0 e 0 l1 hc1 hnodup0 ?_ ?_ ?_ ?_
      · intro y hy hne
        rw [hnexts y, if_neg hne]
      · intro y hy
        rw [hprevs y, if_neg]
        intro hcon
        exact (hval y (List.mem_append_left _ hy)).1 hcon
      · rw [hnexts, if_pos rfl]
      · rw [hprevs, if_pos rfl]
    | cons y l2t =>
      subst hl2
      simp only [headD_cons] at hnexts hprevs
      rw [chainOK_append_iff]
      rw [chainOK_cons_iff] at hc2
      have hmemy : y ∈ l1 ++ e :: y :: l2t := by simp
      have hyne0 : y ≠ 0 := (hval y hmemy).1
      have hnody : (y :: l2t).Nodup := by
        have hs1 : (e :: y :: l2t).Sublist (l1 ++ e :: y :: l2t) :=
          List.sublist_append_right l1 (e :: y :: l2t)
        have hs2 : (y :: l2t).Sublist (e :: y :: l2t) :=
          List.sublist_cons_self e (y :: l2t)
        exact (hs2.trans hs1).nodup hnd
      constructor
      · refine chainOK_replace_last h h2 0 e y l1 hc1 hnodup0 ?_ ?_ ?_ ?_
        · intro z hz hne
          rw [hnexts z, if_neg hne]
        · intro z hz
          rw [hprevs z, if_neg]
          intro hcon
          exact hmemne z hz y (by simp) hcon
        · rw [hnexts, if_pos rfl]
        · rw [hprevs y, if_pos rfl]
      · refine chainOK_congr h h2 y 0 l2t ?_ ?_ ?_ hc2.2.2
        · intro z hz
          rw [hnexts z, if_neg]
          intro hcon
          rcases List.mem_cons.mp (List.getLastD_mem_cons l1 0) with h0 | hmem
          · rw [h0] at hcon
            rcases List.mem_cons.mp hz with hz0 | hzt
            · exact hyne0 (hz0.symm.trans hcon)
            · exact (hval z (List.mem_append_right _
                (List.mem_cons_of_mem _ (List.mem_cons_of_mem _ hzt)))).1 hcon
          · rcases List.mem_cons.mp hz with hz0 | hzt
            · exact hmemne _ hmem z (by rw [hz0]; simp) hcon.symm
            · exact hmemne _ hmem z (by simp [hzt]) hcon.symm
        · intro z hz
          rw [hprevs z, if_neg]
          intro hcon
          rw [hcon] at hz
          exact (List.nodup_cons.mp hnody).1 hz
        · rw [hprevs 0, if_neg]
          exact fun hcon => hyne0 hcon.symm
  · intro x hx
    rw [hlen]
    refine hval x ?_
    rcases List.mem_append.mp hx with h1 | h1
    · exact List.mem_append_left _ h1
    · simp [h1]
  · rw [hlen]; exact hpos


theorem END_eq : (END : Nat) = 0 := rfl

theorem BEGIN_eq : (BEGIN : Nat) = 0 := rfl

theorem nodup_length_le (lv : List Nat) (n : Nat) (hnd : lv.Nodup)
    (hval : ∀ x ∈ lv, x < n) : lv.length ≤ n := by
  have h1 : lv.toFinset.card = lv.length := List.toFinset_card_of_nodup hnd
  have h2 : lv.toFinset ⊆ Finset.range n := by
    intro x hx
    rw [Finset.mem_range]
    exact hval x (List.mem_toFinset.mp hx)
  have h3 := Finset.card_le_card h2
  rw [h1, Finset.card_range] at h3
  exact h3

theorem chainFrom_eq (h : Hist Op Value) (a : Nat) (xs : List Nat)
    (hc : chainOK h a xs 0 = true) (hx : ∀ x ∈ xs, x ≠ 0) (fuel : Nat)
    (hf : xs.length ≤ fuel) : chainFrom h fuel a = xs := by
  induction xs generalizing a fuel with
  | nil =>
    rw [chainOK_nil_iff] at hc
    cases fuel with
    | zero => rfl
    | succ f =>
      unfold chainFrom
      simp only [hc.1, if_pos]
  | cons x xs ih =>
    rw [chainOK_cons_iff] at hc
    cases fuel with
    | zero => simp at hf
    | succ f =>
      unfold chainFrom
      simp only [hc.1]
      rw [if_neg (hx x (by simp))]
      have hf2 : xs.length ≤ f := by simp at hf; omega
      rw [ih x hc.2.2 (fun z hz => hx z (by simp [hz])) f hf2]

theorem liveList_eq (h : Hist Op Value) (lv : List Nat) (hg : goodChain h lv) :
    liveList h = lv := by
  obtain ⟨hc, hnd, hval, hpos⟩ := hg
  unfold liveList
  exact chainFrom_eq h 0 lv hc (fun x hx => (hval x hx).1) _
    (nodup_length_le lv h.events.length hnd (fun x hx => (hval x hx).2))

theorem histWF_of_goodChain (h : Hist Op Value) (lv : List Nat)
    (hg : goodChain h lv) : histWF h := by
  unfold histWF
  rw [liveList_eq h lv hg]
  exact hg

theorem push_back_fields (h : Hist Op Value) (ev : Event Op Value) (s0 : Node Op Value)
    (h0 : h.events[0]? = some s0) (hP : s0.prev < h.events.length) :
    ∃ h2, push_back h ev = some (h2, h.events.length) ∧
      h2.events.length = h.events.length + 1 ∧
      (∀ j, j < h.events.length → j ≠ s0.prev → nextOf h2 j = nextOf h j) ∧
      nextOf h2 s0.prev = h.events.length ∧
      (∀ j, j < h.events.length → j ≠ 0 → prevOf h2 j = prevOf h j) ∧
      prevOf h2 0 = h.events.length ∧
      nextOf h2 h.events.length = 0 ∧
      prevOf h2 h.events.length = s0.prev ∧
      (∀ j, j < h.events.length → get_from_eid h2 j = get_from_eid h j) ∧
      get_from_eid h2 h.events.length = some ev := by
  have h0lt : 0 < h.events.length := getElem_lt h0
  have hmid : (h.events.set 0 { s0 with prev := h.events.length })[s0.prev]? =
      some (if s0.prev = 0 then { s0 with prev := h.events.length }
        else h.events.get ⟨s0.prev, hP⟩) := by
    by_cases hP0 : s0.prev = 0
    · rw [if_pos hP0, hP0]
      exact List.getElem?_set_eq_of_lt _ h0lt
    · rw [if_neg hP0, List.getElem?_set_ne (fun hc => hP0 hc.symm)]
      exact List.getElem?_eq_getElem hP
  set pn2 := (if s0.prev = 0 then { s0 with prev := h.events.length }
    else h.events.get ⟨s0.prev, hP⟩) with hpn2def
  have hpush : push_back h ev = some (⟨((h.events.set 0
      { s0 with prev := h.events.length }).set s0.prev
      { pn2 with next := h.events.length }) ++
      [⟨some ev, END, s0.prev⟩]⟩, h.events.length) := by
    unfold push_back
    rw [END_eq, h0, Option.some_bind]
    simp only
    rw [hmid, Option.some_bind]
  set E2 : List (Node Op Value) := ((h.events.set 0
      { s0 with prev := h.events.length }).set s0.prev
      { pn2 with next := h.events.length }) ++ [⟨some ev, END, s0.prev⟩] with hE2def
  have hlen2 : E2.length = h.events.length + 1 := by
    rw [hE2def]
    simp [List.length_set]
  have hmidlen : ((h.events.set 0 { s0 with prev := h.events.length }).set s0.prev
      { pn2 with next := h.events.length }).length = h.events.length := by
    simp [List.length_set]
  have hgetlt : ∀ j, j < h.events.length → E2[j]? =
      ((h.events.set 0 { s0 with prev := h.events.length }).set s0.prev
        { pn2 with next := h.events.length })[j]? := by
    intro j hj
    rw [hE2def]
    exact List.getElem?_append_left (by rw [hmidlen]; exact hj)
  have hgetL : E2[h.events.length]? = some ⟨some ev, END, s0.prev⟩ := by
    rw [hE2def]
    have := List.getElem?_concat_length ((h.events.set 0
      { s0 with prev := h.events.length }).set s0.prev
      { pn2 with next := h.events.length }) (⟨some ev, END, s0.prev⟩ : Node Op Value)
    rw [hmidlen] at this
    exact this
  refine ⟨⟨E2⟩, hpush, hlen2, ?_, ?_, ?_, ?_, ?_, ?_, ?_, ?_⟩
  · intro j hj hjP
    by_cases hj0 : j = 0
    · subst hj0
      have hnode : E2[0]? = some { s0 with prev := h.events.length } := by
        rw [hgetlt 0 h0lt, List.getElem?_set_ne (fun hc => hjP hc.symm),
          List.getElem?_set_eq_of_lt _ h0lt]
      rw [nextOf_eq _ hnode, nextOf_eq h h0]
    · have hnode : E2[j]? = h.events[j]? := by
        rw [hgetlt j hj, List.getElem?_set_ne (fun hc => hjP hc.symm),
          List.getElem?_set_ne (fun hc => hj0 hc.symm)]
      unfold nextOf
      rw [hnode]
  · have hnode : E2[s0.prev]? = some { pn2 with next := h.events.length } := by
      rw [hgetlt _ hP]
      exact List.getElem?_set_eq_of_lt _ (by rw [List.length_set]; exact hP)
    rw [nextOf_eq _ hnode]
  · intro j hj hj0
    by_cases hjP : j = s0.prev
    · subst hjP
      have hnode : E2[s0.prev]? = some { pn2 with next := h.events.length } := by
        rw [hgetlt _ hP]
        exact List.getElem?_set_eq_of_lt _ (by rw [List.length_set]; exact hP)
      rw [prevOf_eq _ hnode]
      show pn2.prev = prevOf h s0.prev
      rw [hpn2def, if_neg hj0, prevOf_eq h (List.getElem?_eq_getElem hP),
        List.get_eq_getElem]
    · have hnode : E2[j]? = h.events[j]? := by
        rw [hgetlt j hj, List.getElem?_set_ne (fun hc => hjP hc.symm),
          List.getElem?_set_ne (fun hc => hj0 hc.symm)]
      unfold prevOf
      rw [hnode]
  · have hnode : E2[0]? = some (if s0.prev = 0
        then { pn2 with next := h.events.length }
        else { s0 with prev := h.events.length }) := by
      rw [hgetlt 0 h0lt]
      by_cases hP0 : s0.prev = 0
      · rw [if_pos hP0, hP0]
        exact List.getElem?_set_eq_of_lt _ (by rw [List.length_set]; exact h0lt)
      · rw [if_neg hP0, List.getElem?_set_ne hP0]
        exact List.getElem?_set_eq_of_lt _ h0lt
    rw [prevOf_eq _ hnode]
    by_cases hP0 : s0.prev = 0
    · rw [if_pos hP0]
      simp only
      rw [hpn2def, if_pos hP0]
    · rw [if_neg hP0]
  · rw [nextOf_eq _ hgetL, END_eq]
  · rw [prevOf_eq _ hgetL]
  · intro j hj
    unfold get_from_eid
    have hnode : (E2[j]?).map Node.ev = (h.events[j]?).map Node.ev := by
      rw [hgetlt j hj]
      by_cases hjP : j = s0.prev
      · subst hjP
        rw [List.getElem?_set_eq_of_lt _ (by rw [List.length_set]; exact hP)]
        rw [hpn2def]
        by_cases hP0 : s0.prev = 0
        · rw [if_pos hP0, hP0, h0]
          rfl
        · rw [if_neg hP0, List.getElem?_eq_getElem hP]
          rfl
      · by_cases hj0 : j = 0
        · subst hj0
          rw [List.getElem?_set_ne (fun hc => hjP hc.symm),
            List.getElem?_set_eq_of_lt _ h0lt, h0]
          rfl
        · rw [List.getElem?_set_ne (fun hc => hjP hc.symm),
            List.getElem?_set_ne (fun hc => hj0 hc.symm)]
    cases hE : E2[j]? with
    | none => rw [hE] at hnode; cases hh : h.events[j]? with
      | none => rfl
      | some nd => rw [hh] at hnode; cases hnode
    | some nd =>
      rw [hE] at hnode
      cases hh : h.events[j]? with
      | none => rw [hh] at hnode; cases hnode
      | some nd2 =>
        rw [hh] at hnode
        simp only [Option.map_some', Option.some.injEq] at hnode
        rw [Option.some_bind, Option.some_bind, hnode]
  · unfold get_from_eid
    rw [hgetL, Option.some_bind]


theorem goodChain_push_back (h : Hist Op Value) (lv : List Nat) (ev : Event Op Value)
    (hg : goodChain h lv) :
    ∃ h2, push_back h ev = some (h2, h.events.length) ∧
      goodChain h2 (lv ++ [h.events.length]) ∧
      h2.events.length = h.events.length + 1 ∧
      (∀ j, j < h.events.length → get_from_eid h2 j = get_from_eid h j) ∧
      get_from_eid h2 h.events.length = some ev := by
  obtain ⟨hc, hnd, hval, hpos⟩ := hg
  obtain ⟨s0, h0⟩ : ∃ s0, h.events[0]? = some s0 := ⟨_, List.getElem?_eq_getElem hpos⟩
  have hlast := chainOK_last h 0 0 lv hc
  have hPeq : s0.prev = lv.getLastD 0 := by
    rw [← prevOf_eq h h0]
    exact hlast.2
  have hPlt : s0.prev < h.events.length := by
    rw [hPeq]
    rcases List.mem_cons.mp (List.getLastD_mem_cons lv 0) with h0m | hmem
    · rw [h0m]; exact hpos
    · exact (hval _ hmem).2
  obtain ⟨h2, hpb, hlen, hnexts, hnextP, hprevs, hprev0, hnextL, hprevL, hevj, hevL⟩ :=
    push_back_fields h ev s0 h0 hPlt
  have hnodup0 : (0 :: lv).Nodup := by
    rw [List.nodup_cons]
    exact ⟨fun hmem => (hval 0 hmem).1 rfl, hnd⟩
  refine ⟨h2, hpb, ⟨?_, ?_, ?_, ?_⟩, hlen, hevj, hevL⟩
  · rw [chainOK_append_iff]
    constructor
    · refine chainOK_replace_last h h2 0 0 h.events.length lv hc hnodup0 ?_ ?_ ?_ ?_
      · intro y hy hne
        have hylt : y < h.events.length := by
          rcases List.mem_cons.mp hy with h0m | hmem
          · rw [h0m]; exact hpos
          · exact (hval _ hmem).2
        refine hnexts y hylt ?_
        rw [hPeq]
        exact hne
      · intro y hy
        exact hprevs y (hval y hy).2 (hval y hy).1
      · rw [← hPeq]
        exact hnextP
      · rw [← hPeq]
        exact hprevL
    · rw [chainOK_nil_iff]
      exact ⟨hnextL, hprev0⟩
  · rw [List.nodup_append]
    refine ⟨hnd, List.nodup_singleton _, ?_⟩
    intro x hx hmem
    rw [List.mem_singleton] at hmem
    subst hmem
    exact absurd (hval _ hx).2 (lt_irrefl _)
  · intro x hx
    rcases List.mem_append.mp hx with h1 | h1
    · exact ⟨(hval x h1).1, by rw [hlen]; exact Nat.lt_succ_of_lt (hval x h1).2⟩
    · rw [List.mem_singleton] at h1
      subst h1
      exact ⟨by omega, by rw [hlen]; omega⟩
  · rw [hlen]; omega

/-- Histories reachable by building (with_capacity plus push_back calls, the
generation phase) and a LIFO discipline of lift and unlift applied to live
invoke events with live matching returns (the checking phase).  The second
component records the invoke eids of the currently lifted pairs, most recent
first. -/
inductive ReachH : Hist Op Value → List Nat → Prop where
  | init (cap : Nat) : ReachH (with_capacity cap) []
  | push (h : Hist Op Value) (ev : Event Op Value) (h2 : Hist Op Value) (pos : Nat) :
      ReachH h [] → push_back h ev = some (h2, pos) → ReachH h2 []
  | lft (h : Hist Op Value) (st : List Nat) (e r : Nat) (op : Op) (cid : Nat)
      (v : Value) (h2 : Hist Op Value) :
      ReachH h st →
      get_from_eid h e = some (Event.invoke op r cid) →
      get_from_eid h r = some (Event.ret v) →
      e ∈ liveList h → r ∈ liveList h →
      lift h e = some h2 → ReachH h2 (e :: st)
  | unlft (h : Hist Op Value) (st : List Nat) (e : Nat) (h2 : Hist Op Value) :
      ReachH h (e :: st) → unlift h e = some h2 → ReachH h2 st

/-- Basic sanity of a history: the two installed sentinel slots stay
sentinels, the arena never shrinks below them, and every live node carries a
real event. -/
def BaseWF (h : Hist Op Value) : Prop :=
  get_from_eid h 0 = none ∧ get_from_eid h 1 = none ∧ 2 ≤ h.events.length ∧
    ∀ x ∈ liveList h, (get_from_eid h x).isSome = true

/-- The invariant carried through ReachH: the current history has a valid
live chain and basic sanity, and unlifting the recorded stack in order keeps
restoring such histories. -/
def StackInv : Hist Op Value → List Nat → Prop
  | h, [] => histWF h ∧ BaseWF h
  | h, e :: st => (histWF h ∧ BaseWF h) ∧ ∃ h2, unlift h e = some h2 ∧ StackInv h2 st

theorem StackInv_histWF (h : Hist Op Value) (st : List Nat) (hs : StackInv h st) :
    histWF h := by
  cases st with
  | nil => exact hs.1
  | cons e st => exact hs.1.1

theorem StackInv_BaseWF (h : Hist Op Value) (st : List Nat) (hs : StackInv h st) :
    BaseWF h := by
  cases st with
  | nil => exact hs.2
  | cons e st => exact hs.1.2

theorem ReachH_inv (h : Hist Op Value) (st : List Nat) (hr : ReachH h st) :
    StackInv h st := by
  induction hr with
  | init cap =>
    show histWF (with_capacity cap) ∧ BaseWF (with_capacity cap)
    constructor
    · unfold histWF
      refine ⟨rfl, ?_, ?_, ?_⟩
      · show (liveList (with_capacity cap : Hist Op Value)).Nodup
        rw [show liveList (with_capacity cap : Hist Op Value) = [] from rfl]
        exact List.nodup_nil
      · intro x hx
        rw [show liveList (with_capacity cap : Hist Op Value) = [] from rfl] at hx
        cases hx
      · show 0 < 2
        omega
    · refine ⟨rfl, rfl, by show 2 ≤ 2; omega, ?_⟩
      intro x hx
      rw [show liveList (with_capacity cap : Hist Op Value) = [] from rfl] at hx
      cases hx
  | push h ev h2 pos hr hpb ih =>
    have hwf : histWF h := ih.1
    have hbase : BaseWF h := ih.2
    obtain ⟨h2b, hpb2, hgc2, hlen2, hevlt, hevL⟩ :=
      goodChain_push_back h (liveList h) ev hwf
    rw [hpb] at hpb2
    have hinj := Option.some.inj hpb2
    have h2eq : h2 = h2b := congrArg Prod.fst hinj
    subst h2eq
    have hll2 : liveList h2 = liveList h ++ [h.events.length] := liveList_eq h2 _ hgc2
    have hlenge : 2 ≤ h.events.length := hbase.2.2.1
    refine ⟨histWF_of_goodChain h2 _ hgc2, ?_, ?_, ?_, ?_⟩
    · rw [hevlt 0 (by omega)]
      exact hbase.1
    · rw [hevlt 1 (by omega)]
      exact hbase.2.1
    · rw [hlen2]
      omega
    · intro x hx
      rw [hll2] at hx
      rcases List.mem_append.mp hx with h1m | h1m
      · rw [hevlt x ((StackInv_histWF h [] ih).2.2.1 x h1m).2]
        exact hbase.2.2.2 x h1m
      · rw [List.mem_singleton] at h1m
        subst h1m
        rw [hevL]
        rfl
  | lft h st e r op cid v h2 hr hev hevr helv hrlv hlft ih =>
    have hwf : histWF h := StackInv_histWF h st ih
    have hrne : r ≠ e := by
      intro hcon
      rw [hcon] at hevr
      rw [hev] at hevr
      cases hevr
    obtain ⟨l1, l2, hsplit⟩ := List.append_of_mem helv
    have hgood : goodChain h (l1 ++ e :: l2) := by
      have := hwf
      unfold histWF at this
      rw [hsplit] at this
      exact this
    obtain ⟨h1, hle1, hgc1, _, hev1⟩ := goodChain_lift_event h l1 l2 e hgood
    have hrin : r ∈ l1 ++ l2 := by
      rw [hsplit] at hrlv
      rcases List.mem_append.mp hrlv with h1m | h1m
      · exact List.mem_append_left _ h1m
      · rcases List.mem_cons.mp h1m with h2m | h2m
        · exact absurd h2m hrne
        · exact List.mem_append_right _ h2m
    obtain ⟨l1b, l2b, hsplitb⟩ := List.append_of_mem hrin
    have hgc1b : goodChain h1 (l1b ++ r :: l2b) := by
      rw [hsplitb] at hgc1
      exact hgc1
    obtain ⟨h2b, hle2, hgc2, _, _⟩ := goodChain_lift_event h1 l1b l2b r hgc1b
    obtain ⟨op2, r2, cid2, h1c, hevc, hle1c, hle2c⟩ := lift_some h h2 e hlft
    rw [hev] at hevc
    have hevc2 := Option.some.inj hevc
    cases hevc2
    rw [hle1] at hle1c
    have h1eq : h1 = h1c := Option.some.inj hle1c
    subst h1eq
    rw [hle2] at hle2c
    have h2eq : h2 = h2b := (Option.some.inj hle2c).symm
    subst h2eq
    constructor
    · constructor
      · exact histWF_of_goodChain _ _ hgc2
      · have hwfb : BaseWF h := StackInv_BaseWF h st ih
        have hll1 : liveList h1 = l1 ++ l2 := liveList_eq h1 _ hgc1
        have hll2 : liveList h2 = l1b ++ l2b := liveList_eq h2 _ hgc2
        have hevall : ∀ j, get_from_eid h2 j = get_from_eid h j := by
          intro j
          rw [lift_ev h h2 e hlft j]
        refine ⟨?_, ?_, ?_, ?_⟩
        · rw [hevall 0]; exact hwfb.1
        · rw [hevall 1]; exact hwfb.2.1
        · rw [lift_length h h2 e hlft]; exact hwfb.2.2.1
        · intro x hx
          rw [hevall x]
          refine hwfb.2.2.2 x ?_
          rw [hll2] at hx
          rw [hsplit]
          have hx2 : x ∈ l1 ++ l2 := by
            rw [hsplitb]
            rcases List.mem_append.mp hx with h1m | h1m
            · exact List.mem_append_left _ h1m
            · exact List.mem_append_right _ (List.mem_cons_of_mem _ h1m)
          rcases List.mem_append.mp hx2 with h1m | h1m
          · exact List.mem_append_left _ h1m
          · exact List.mem_append_right _ (List.mem_cons_of_mem _ h1m)
    · -- unlift restores h
      have hlk : linkedAt h e = true := goodChain_linkedAt h _ e hgood (by simp)
      have hmid : ∀ hm, lift_event h e = some hm → linkedAt hm r = true := by
        intro hm hmc
        rw [hle1] at hmc
        have := Option.some.inj hmc
        subst this
        exact goodChain_linkedAt h1 _ r hgc1b (by simp)
      obtain ⟨h2c, hlc, huc⟩ := lift_unlift_cancel h e r op cid hev hlk hmid
      rw [hlft] at hlc
      have heq2 : h2 = h2c := Option.some.inj hlc
      subst heq2
      exact ⟨h, huc, ih⟩
  | unlft h st e h2 hr hu ih =>
    obtain ⟨hwf, h2b, hub, hsi⟩ := ih
    rw [hu] at hub
    have : h2 = h2b := Option.some.inj hub
    subst this
    exact hsi


theorem lift_event_frame (h h2 : Hist Op Value) (x : Nat)
    (hle : lift_event h x = some h2) (j : Nat) (hjp : j ≠ prevOf h x)
    (hjn : j ≠ nextOf h x) : h2.events[j]? = h.events[j]? := by
  obtain ⟨nd, pn, nn2, hnd, hp, hn, hh2⟩ := lift_event_some h h2 x hle
  subst hh2
  rw [prevOf_eq h hnd] at hjp
  rw [nextOf_eq h hnd] at hjn
  simp only
  rw [List.getElem?_set_ne (fun hc => hjn hc.symm),
    List.getElem?_set_ne (fun hc => hjp hc.symm)]

/-- On a valid chain with the invoke and its return both live, lift followed
by unlift on the invoke eid restores the history exactly. -/
theorem lift_unlift_restore_aux (h h2 : Hist Op Value) (e r : Nat) (op : Op)
    (cid : Nat) (v : Value) (lv : List Nat) (hg : goodChain h lv) (he : e ∈ lv)
    (hrl : r ∈ lv) (hev : get_from_eid h e = some (Event.invoke op r cid))
    (hevr : get_from_eid h r = some (Event.ret v))
    (hle : lift h e = some h2) : unlift h2 e = some h := by
  have hrne : r ≠ e := by
    intro hcon
    rw [hcon, hev] at hevr
    cases hevr
  obtain ⟨l1, l2, hsplit⟩ := List.append_of_mem he
  rw [hsplit] at hg
  obtain ⟨h1, hle1, hgc1, _, _⟩ := goodChain_lift_event h l1 l2 e hg
  have hrin : r ∈ l1 ++ l2 := by
    rw [hsplit] at hrl
    rcases List.mem_append.mp hrl with h1m | h1m
    · exact List.mem_append_left _ h1m
    · rcases List.mem_cons.mp h1m with h2m | h2m
      · exact absurd h2m hrne
      · exact List.mem_append_right _ h2m
  obtain ⟨l1b, l2b, hsplitb⟩ := List.append_of_mem hrin
  rw [hsplitb] at hgc1
  have hlk : linkedAt h e = true := goodChain_linkedAt h _ e hg (by simp)
  have hmid : ∀ hm, lift_event h e = some hm → linkedAt hm r = true := by
    intro hm hmc
    rw [hle1] at hmc
    have heq := Option.some.inj hmc
    subst heq
    exact goodChain_linkedAt h1 _ r hgc1 (by simp)
  obtain ⟨h2c, hlc, huc⟩ := lift_unlift_cancel h e r op cid hev hlk hmid
  rw [hle] at hlc
  have heq2 : h2 = h2c := Option.some.inj hlc
  subst heq2
  exact huc

/-- LIFO nested sequences of lift/unlift pairs applied to live invoke events
with live matching returns. -/
inductive Balanced : Hist Op Value → Hist Op Value → Prop where
  | nil (h : Hist Op Value) : Balanced h h
  | seq (h ha hb : Hist Op Value) : Balanced h ha → Balanced ha hb → Balanced h hb
  | pair (h h1 h2 h3 : Hist Op Value) (e r : Nat) (op : Op) (cid : Nat) (v : Value)
      (lv : List Nat) :
      goodChain h lv → e ∈ lv → r ∈ lv →
      get_from_eid h e = some (Event.invoke op r cid) →
      get_from_eid h r = some (Event.ret v) →
      lift h e = some h1 → Balanced h1 h2 → unlift h2 e = some h3 →
      Balanced h h3

theorem Balanced_restores (h hend : Hist Op Value) (hb : Balanced h hend) : hend = h := by
  induction hb with
  | nil h => rfl
  | seq h ha hb hab hbc ih1 ih2 => rw [ih2, ih1]
  | pair h h1 h2 h3 e r op cid v lv hg he hrl hev hevr hle hbal hun ih =>
    rw [ih] at hun
    have hres := lift_unlift_restore_aux h h1 e r op cid v lv hg he hrl hev hevr hle
    rw [hres] at hun
    exact (Option.some.inj hun).symm

/-! ### Concrete histories for witnesses and counterexamples -/

/-- The history after with_capacity 2 and one invoke push. -/
def histA1 : Hist Nat Nat :=
  ⟨[⟨none, 2, 2⟩, ⟨none, 0, 0⟩, ⟨some (Event.invoke 0 3 0), 0, 0⟩]⟩

/-- A built two event history: one invoke (eid 2) and its adjacent return
(eid 3). -/
def histA : Hist Nat Nat :=
  ⟨[⟨none, 2, 3⟩, ⟨none, 0, 0⟩, ⟨some (Event.invoke 0 3 0), 3, 0⟩,
    ⟨some (Event.ret 5), 0, 2⟩]⟩

/-- histA after lift 2. -/
def histALifted : Hist Nat Nat :=
  ⟨[⟨none, 0, 0⟩, ⟨none, 0, 0⟩, ⟨some (Event.invoke 0 3 0), 3, 0⟩,
    ⟨some (Event.ret 5), 0, 0⟩]⟩

/-- A built four event history with two overlapping calls: invokes at eids
2 and 3, returns at eids 4 and 5; call 0 is the non adjacent pair (2, 4). -/
def histC : Hist Nat Nat :=
  ⟨[⟨none, 2, 5⟩, ⟨none, 0, 0⟩, ⟨some (Event.invoke 0 4 0), 3, 0⟩,
    ⟨some (Event.invoke 1 5 1), 4, 2⟩, ⟨some (Event.ret 10), 5, 3⟩,
    ⟨some (Event.ret 11), 0, 4⟩]⟩

/-- histC after lift 2. -/
def histCLifted : Hist Nat Nat :=
  ⟨[⟨none, 3, 5⟩, ⟨none, 0, 0⟩, ⟨some (Event.invoke 0 4 0), 3, 0⟩,
    ⟨some (Event.invoke 1 5 1), 5, 0⟩, ⟨some (Event.ret 10), 5, 3⟩,
    ⟨some (Event.ret 11), 0, 3⟩]⟩

instance (h : Hist Op Value) (lv : List Nat) : Decidable (goodChain h lv) := by
  unfold goodChain
  infer_instance

instance (h : Hist Op Value) : Decidable (histWF h) := by
  unfold histWF
  infer_instance

instance [DecidableEq Op] [DecidableEq Value] (h : Hist Op Value) :
    Decidable (BaseWF h) := by
  unfold BaseWF
  infer_instance

/-- histA is reachable by building. -/
theorem reachA : ReachH histA [] :=
  ReachH.push histA1 (Event.ret 5) histA 3
    (ReachH.push (with_capacity 2) (Event.invoke 0 3 0) histA1 2
      (ReachH.init 2) (by decide))
    (by decide)

/-! ### Claims C3 to C7 -/

/-- C5: after any sequence of push_back, lift and unlift operations, with
lift and unlift applied to live invoke eids (with live matching returns) in
LIFO nesting, every node n in the live list satisfies
events[n.prev].next = n and events[n.next].prev = n. -/
theorem c5_live_list_doubly_linked (h : Hist Op Value) (st : List Nat)
    (hr : ReachH h st) : ∀ e ∈ liveList h, linkedAt h e = true := by
  intro e he
  exact goodChain_linkedAt h (liveList h) e
    (StackInv_histWF h st (ReachH_inv h st hr)) he

/-- Witness for C5: in the concrete built history histA the live node 2 is
doubly linked. -/
theorem c5_live_list_doubly_linked_witness : linkedAt histA 2 = true :=
  c5_live_list_doubly_linked histA [] reachA 2 (by decide)

/-- C4: lift followed immediately by unlift on the same live invoke eid
restores the history exactly, node for node; and any LIFO nested sequence of
such lift/unlift pairs returns the history to its original state. -/
theorem c4_lift_unlift_restore :
    (∀ (h h2 : Hist Op Value) (e r : Nat) (op : Op) (cid : Nat) (v : Value)
      (lv : List Nat), goodChain h lv → e ∈ lv → r ∈ lv →
      get_from_eid h e = some (Event.invoke op r cid) →
      get_from_eid h r = some (Event.ret v) →
      lift h e = some h2 → unlift h2 e = some h) ∧
    (∀ h hend : Hist Op Value, Balanced h hend → hend = h) :=
  ⟨lift_unlift_restore_aux, Balanced_restores⟩

/-- Witness for C4 at the concrete history histA: lifting invoke 2 and
unlifting it restores histA exactly. -/
theorem c4_lift_unlift_restore_witness : unlift histALifted 2 = some histA :=
  c4_lift_unlift_restore.1 histA histALifted 2 3 0 0 5 [2, 3] (by decide)
    (by decide) (by decide) (by decide) (by decide) (by decide)

/-- The order of unlink operations that C3 claims for lift: the return node
first, then the invoke node. -/
def liftSpecRetFirst (h : Hist Op Value) (eid : Nat) : Option (Hist Op Value) :=
  (get_from_eid h eid).bind (fun ev =>
    match ev with
    | Event.invoke _ eid_ret _ =>
      (lift_event h eid_ret).bind (fun h1 => lift_event h1 eid)
    | Event.ret _ => none)

/-- The order of relink operations that C3 claims for unlift: the invoke
node first, then the return node. -/
def unliftSpecInvokeFirst (h : Hist Op Value) (eid : Nat) : Option (Hist Op Value) :=
  (get_from_eid h eid).bind (fun ev =>
    match ev with
    | Event.invoke _ eid_ret _ =>
      (unlift_event h eid).bind (fun h1 => unlift_event h1 eid_ret)
    | Event.ret _ => none)

/-- The amended order for lift, written from the corrected wording: unlink
the invoke node first, then its matching return node. -/
def liftSpecInvokeFirst (h : Hist Op Value) (eid : Nat) : Option (Hist Op Value) :=
  (get_from_eid h eid).bind (fun ev =>
    match ev with
    | Event.invoke _ eid_ret _ =>
      (lift_event h eid).bind (fun h1 => lift_event h1 eid_ret)
    | Event.ret _ => none)

/-- The amended order for unlift, written from the corrected wording: relink
the return node first, then the invoke node. -/
def unliftSpecRetFirst (h : Hist Op Value) (eid : Nat) : Option (Hist Op Value) :=
  (get_from_eid h eid).bind (fun ev =>
    match ev with
    | Event.invoke _ eid_ret _ =>
      (unlift_event h eid_ret).bind (fun h1 => unlift_event h1 eid)
    | Event.ret _ => none)

/-- C3 counterexample: on the built history histA, removing the return node
first (as the claim states) produces a different history than the code does,
so lift does not unlink the return first. -/
theorem c3_lift_order_counterexample :
    lift histA 2 ≠ liftSpecRetFirst histA 2 ∧
    lift histA 2 = some histALifted ∧
    liftSpecRetFirst histA 2 =
      some ⟨[⟨none, 0, 0⟩, ⟨none, 0, 0⟩, ⟨some (Event.invoke 0 3 0), 0, 0⟩,
        ⟨some (Event.ret 5), 0, 2⟩]⟩ := by decide

/-- C3 amended: lift unlinks the invoke node first and then its matching
return node, and unlift is the exact inverse, relinking the return node
first and then the invoke node, which restores the history on live pairs. -/
theorem c3_lift_order_amended :
    (∀ (h : Hist Op Value) (e : Nat), lift h e = liftSpecInvokeFirst h e) ∧
    (∀ (h : Hist Op Value) (e : Nat), unlift h e = unliftSpecRetFirst h e) ∧
    (∀ (h h2 : Hist Op Value) (e r : Nat) (op : Op) (cid : Nat) (v : Value)
      (lv : List Nat), goodChain h lv → e ∈ lv → r ∈ lv →
      get_from_eid h e = some (Event.invoke op r cid) →
      get_from_eid h r = some (Event.ret v) →
      lift h e = some h2 → unlift h2 e = some h) :=
  ⟨fun _ _ => rfl, fun _ _ => rfl, lift_unlift_restore_aux⟩

/-- Witness for C3 amended at the concrete non adjacent pair of histC. -/
theorem c3_lift_order_amended_witness : unlift histCLifted 2 = some histC :=
  c3_lift_order_amended.2.2 histC histCLifted 2 4 0 0 10 [2, 3, 4, 5] (by decide)
    (by decide) (by decide) (by decide) (by decide) (by decide)


/-- C6 counterexample: in histA the invoke (eid 2) and its return (eid 3)
are adjacent in the live list; before lift the return node has prev field 2
(its former live neighbour, the invoke), but after lift 2 the return node
has prev field 0, so a lifted node does not always keep its former
neighbours in its own prev/next fields. -/
theorem c6_lifted_fields_counterexample :
    lift histA 2 = some histALifted ∧ prevOf histA 3 = 2 ∧
    prevOf histALifted 3 = 0 ∧ (2 : Nat) ≠ 0 := by decide

/-- C6 amended: after lift e on a live pair, the invoke node e is unchanged
from before the lift, and the return node r keeps exactly the fields it had
at the moment it was unlinked, namely after the invoke had already been
removed: its former neighbours, with a neighbour equal to e replaced by the
corresponding former neighbour of e. -/
theorem c6_lifted_fields_amended :
    ∀ (h h2 : Hist Op Value) (e r : Nat) (op : Op) (cid : Nat) (v : Value)
      (lv : List Nat), goodChain h lv → e ∈ lv → r ∈ lv →
      get_from_eid h e = some (Event.invoke op r cid) →
      get_from_eid h r = some (Event.ret v) →
      lift h e = some h2 →
      ∃ h1, lift_event h e = some h1 ∧
        h2.events[e]? = h.events[e]? ∧
        h2.events[r]? = h1.events[r]? ∧
        prevOf h1 r = (if prevOf h r = e then prevOf h e else prevOf h r) ∧
        nextOf h1 r = (if nextOf h r = e then nextOf h e else nextOf h r) := by
  intro h h2 e r op cid v lv hg he hrl hev hevr hle
  have hrne : r ≠ e := by
    intro hcon
    rw [hcon, hev] at hevr
    cases hevr
  obtain ⟨l1, l2, hsplit⟩ := List.append_of_mem he
  have hg1 : goodChain h (l1 ++ e :: l2) := by rw [hsplit] at hg; exact hg
  obtain ⟨m1, m2, hsplitr⟩ := List.append_of_mem hrl
  have hgr : goodChain h (m1 ++ r :: m2) := by rw [hsplitr] at hg; exact hg
  have hce := hg1.1
  rw [chainOK_append_iff] at hce
  obtain ⟨hpne, hppe⟩ := chainOK_last h 0 e l1 hce.1
  obtain ⟨hsne, hspe⟩ := chainOK_head h e 0 l2 hce.2
  have hcr := hgr.1
  rw [chainOK_append_iff] at hcr
  obtain ⟨hpnr, hppr⟩ := chainOK_last h 0 r m1 hcr.1
  obtain ⟨hsnr, hspr⟩ := chainOK_head h r 0 m2 hcr.2
  obtain ⟨h1, hle1, hgc1, hlen1, hevp⟩ := goodChain_lift_event h l1 l2 e hg1
  have hlk : linkedAt h e = true := goodChain_linkedAt h _ e hg1 (by simp)
  obtain ⟨h1c, hle1c, _, hpres1, _⟩ := lift_event_cancel h e hlk
  rw [hle1] at hle1c
  have h1ceq : h1 = h1c := Option.some.inj hle1c
  subst h1ceq
  obtain ⟨op2, r2, cid2, h1d, hevc, hled, hle2⟩ := lift_some h h2 e hle
  rw [hev] at hevc
  cases Option.some.inj hevc
  rw [hle1] at hled
  have h1deq : h1 = h1d := Option.some.inj hled
  subst h1deq
  have henl1 : e ∉ l1 := by
    rcases List.nodup_append.mp hg1.2.1 with ⟨_, _, hdisj⟩
    intro hmem
    exact hdisj hmem (by simp)
  have henl2 : e ∉ l2 := by
    rcases List.nodup_append.mp hg1.2.1 with ⟨_, hnd2, _⟩
    exact (List.nodup_cons.mp hnd2).1
  have hrin : r ∈ l1 ++ l2 := by
    have hrl2 : r ∈ l1 ++ e :: l2 := by rw [← hsplit]; exact hrl
    rcases List.mem_append.mp hrl2 with h1m | h1m
    · exact List.mem_append_left _ h1m
    · rcases List.mem_cons.mp h1m with h2m | h2m
      · exact absurd h2m hrne
      · exact List.mem_append_right _ h2m
  obtain ⟨l1b, l2b, hsplitb⟩ := List.append_of_mem hrin
  have hgc1b : goodChain h1 (l1b ++ r :: l2b) := by rw [hsplitb] at hgc1; exact hgc1
  have hlkr : linkedAt h1 r = true := goodChain_linkedAt h1 _ r hgc1b (by simp)
  obtain ⟨h2c, hle2c, _, hpres2, _⟩ := lift_event_cancel h1 r hlkr
  rw [hle2] at hle2c
  have h2ceq : h2 = h2c := Option.some.inj hle2c
  subst h2ceq
  have hcb := hgc1b.1
  rw [chainOK_append_iff] at hcb
  obtain ⟨hpnb, hppb⟩ := chainOK_last h1 0 r l1b hcb.1
  obtain ⟨hsnb, hspb⟩ := chainOK_head h1 r 0 l2b hcb.2
  have hene0 : e ≠ 0 := (hg1.2.2.1 e (by simp)).1
  have henl12 : e ∉ l1 ++ l2 := by
    intro hmem
    rcases List.mem_append.mp hmem with h1m | h1m
    · exact henl1 h1m
    · exact henl2 h1m
  have heneP : e ≠ prevOf h1 r := by
    rw [hppb]
    rcases List.mem_cons.mp (List.getLastD_mem_cons l1b 0) with h0m | hmem
    · rw [h0m]; exact hene0
    · intro hcon
      refine henl12 ?_
      rw [hsplitb, hcon]
      exact List.mem_append_left _ hmem
  have heneN : e ≠ nextOf h1 r := by
    rw [hsnb]
    rcases List.mem_cons.mp (headD_mem_cons l2b 0) with h0m | hmem
    · rw [h0m]; exact hene0
    · intro hcon
      refine henl12 ?_
      rw [hsplitb, hcon]
      exact List.mem_append_right _ (List.mem_cons_of_mem _ hmem)
  refine ⟨h1, hle1, ?_, hpres2, ?_, ?_⟩
  · rw [lift_event_frame h1 h2 r hle2 e heneP heneN]
    exact hpres1
  · rw [lift_event_prevOf h h1 e hle1 r]
    have hiff : r = nextOf h e ↔ prevOf h r = e := by
      constructor
      · intro hcon
        rw [hcon, hsne]
        exact hspe
      · intro hcon
        have he2 : e = m1.getLastD 0 := by rw [← hcon, hppr]
        rw [he2, hpnr]
    by_cases hc1 : prevOf h r = e
    · rw [if_pos (hiff.mpr hc1), if_pos hc1]
    · rw [if_neg (fun hcc => hc1 (hiff.mp hcc)), if_neg hc1]
  · rw [lift_event_nextOf h h1 e hle1 r]
    have hiff : r = prevOf h e ↔ nextOf h r = e := by
      constructor
      · intro hcon
        rw [hcon, hppe]
        exact hpne
      · intro hcon
        have he2 : e = m2.headD 0 := by rw [← hcon, hsnr]
        rw [he2, hspr]
    by_cases hc1 : nextOf h r = e
    · rw [if_pos (hiff.mpr hc1), if_pos hc1]
    · rw [if_neg (fun hcc => hc1 (hiff.mp hcc)), if_neg hc1]

/-- histA after only the first unlink step of lift 2. -/
def histAMid : Hist Nat Nat :=
  ⟨[⟨none, 3, 3⟩, ⟨none, 0, 0⟩, ⟨some (Event.invoke 0 3 0), 3, 0⟩,
    ⟨some (Event.ret 5), 0, 0⟩]⟩

/-- Witness for C6 amended at the adjacent pair of histA: the return node
ends up pointing at the invoke former predecessor. -/
theorem c6_lifted_fields_amended_witness :
    prevOf histAMid 3 = prevOf histA 2 ∧ histALifted.events[2]? = histA.events[2]? := by
  have hx := c6_lifted_fields_amended histA histALifted 2 3 0 0 5 [2, 3] (by decide)
    (by decide) (by decide) (by decide) (by decide) (by decide)
  obtain ⟨h1, hl1, hpe, hpr, hp, hn⟩ := hx
  have h1eq : h1 = histAMid := by
    rw [show lift_event histA 2 = some histAMid from by decide] at hl1
    exact (Option.some.inj hl1).symm
  subst h1eq
  refine ⟨?_, hpe⟩
  rw [hp, if_pos (by decide)]

/-- C7 counterexample: BEGIN and END are the same index 0; in the concrete
built history histA (obtained from with_capacity by two pushes) the second
installed sentinel at index 1 is referenced by no node at all, so the live
list is not bracketed by two sentinel nodes: the single node at index 0
serves as both front and back. -/
theorem c7_sentinels_counterexample :
    Hist.BEGIN = Hist.END ∧
    push_back (with_capacity 2) (Event.invoke 0 3 0) = some (histA1, 2) ∧
    push_back histA1 (Event.ret 5) = some (histA, 3) ∧
    histA.events[1]? = some ⟨none, 0, 0⟩ ∧
    (∀ j, j < histA.events.length → nextOf histA j ≠ 1 ∧ prevOf histA j ≠ 1) := by
  decide

/-- C7 amended: with_capacity installs two sentinel nodes at the fixed
indices 0 and 1, but BEGIN and END are both 0, so the node at index 0 alone
brackets the live list from both sides; sentinel slots keep holding no
event forever, the arena never shrinks, the live chain always starts and
ends at index 0, and neither sentinel index ever appears in the live
list. -/
theorem c7_sentinels_amended :
    ((Hist.BEGIN : Nat) = 0 ∧ (Hist.END : Nat) = 0) ∧
    (∀ cap : Nat, (with_capacity cap : Hist Op Value).events =
      [⟨none, 0, 0⟩, ⟨none, 0, 0⟩]) ∧
    (∀ (h : Hist Op Value) (st : List Nat), ReachH h st →
      get_from_eid h 0 = none ∧ get_from_eid h 1 = none ∧
      2 ≤ h.events.length ∧ chainOK h 0 (liveList h) 0 = true ∧
      0 ∉ liveList h ∧ 1 ∉ liveList h) := by
  refine ⟨⟨rfl, rfl⟩, fun cap => rfl, ?_⟩
  intro h st hr
  have hsi := ReachH_inv h st hr
  have hwf := StackInv_histWF h st hsi
  have hbase := StackInv_BaseWF h st hsi
  refine ⟨hbase.1, hbase.2.1, hbase.2.2.1, hwf.1, ?_, ?_⟩
  · intro hmem
    exact (hwf.2.2.1 0 hmem).1 rfl
  · intro hmem
    have h1m := hbase.2.2.2 1 hmem
    rw [hbase.2.1] at h1m
    cases h1m

/-- Witness for C7 amended at the concrete reachable history histA. -/
theorem c7_sentinels_amended_witness :
    get_from_eid histA 1 = none ∧ 1 ∉ liveList histA :=
  ⟨(c7_sentinels_amended.2.2 histA [] reachA).2.1,
    (c7_sentinels_amended.2.2 histA [] reachA).2.2.2.2.2⟩

end Hist

/-! ## The checker (src/lib.rs, struct Checker) -/

namespace Checker

open Hist

variable {Op Value S : Type} [DecidableEq Op] [DecidableEq Value] [DecidableEq S]

/-- The state of the checker loop: the fields of struct Checker together
with the loop-local model state s and scan position eid. -/
structure CheckerSt (Op Value S : Type) where
  hist : Hist Op Value
  lined : BitVec
  calls : List (Nat × S)
  cache : List (BitVec × S)
  s : S
  eid : Nat

/-- Embedding of Checker::apply; none models the two unreachable panics. -/
def apply (applyM : S → Op → S × Value) (hist : Hist Op Value) (s : S) (eid : Nat) :
    Option (Bool × Nat × S) :=
  match get_from_eid hist eid with
  | some (Event.invoke op ret_event inv_id) =>
    let sr := applyM s op
    match get_from_eid hist ret_event with
    | some (Event.ret val) => some (decide (val = sr.2), inv_id, sr.1)
    | _ => none
  | _ => none

/-- HashSet::insert on the cache: returns the new cache and whether the key
was newly inserted. -/
def cacheInsert (cache : List (BitVec × S)) (k : BitVec × S) :
    List (BitVec × S) × Bool :=
  if k ∈ cache then (cache, false) else (k :: cache, true)

/-- Result of one iteration of the check_linearizability loop. -/
inductive StepRes (Op Value S : Type) where
  | panic
  | done (b : Bool)
  | next (st : CheckerSt Op Value S)

/-- One iteration of the check_linearizability loop, mirroring the source
statement by statement; panic models any unwrap, expect or unreachable. -/
def checkStep (applyM : S → Op → S × Value) (st : CheckerSt Op Value S) :
    StepRes Op Value S :=
  match get_from_eid st.hist st.eid with
  | none => StepRes.panic
  | some (Event.invoke _ _ _) =>
    match next_eid st.hist st.eid with
    | none => StepRes.panic
    | some none => StepRes.panic
    | some (some next1) =>
      match Checker.apply applyM st.hist st.s st.eid with
      | none => StepRes.panic
      | some (lin, call_id, s2) =>
        if lin then
          match BitVec.set st.lined call_id true with
          | none => StepRes.panic
          | some lined2 =>
            let ci := cacheInsert st.cache (lined2, s2)
            if ci.2 then
              match lift st.hist st.eid with
              | none => StepRes.panic
              | some hist2 =>
                match first_eid hist2 with
                | none => StepRes.panic
                | some none => StepRes.done true
                | some (some ne) =>
                  StepRes.next ⟨hist2, lined2, (st.eid, st.s) :: st.calls, ci.1, s2, ne⟩
            else
              StepRes.next ⟨st.hist, st.lined, st.calls, ci.1, st.s, next1⟩
        else
          StepRes.next ⟨st.hist, st.lined, st.calls, st.cache, st.s, next1⟩
  | some (Event.ret _) =>
    match st.calls with
    | [] => StepRes.done false
    | (eid2, s2) :: rest =>
      match get_call_id st.hist eid2 with
      | none => StepRes.panic
      | some call_id =>
        match BitVec.set st.lined call_id false with
        | none => StepRes.panic
        | some lined2 =>
          match unlift st.hist eid2 with
          | none => StepRes.panic
          | some hist2 =>
            match next_eid hist2 eid2 with
            | none => StepRes.panic
            | some none => StepRes.panic
            | some (some ne) =>
              StepRes.next ⟨hist2, lined2, rest, st.cache, s2, ne⟩

/-- Outcome of running the loop with fuel. -/
inductive CheckOut where
  | panicked
  | timeout
  | result (b : Bool)
deriving DecidableEq

/-- The loop of check_linearizability, with fuel bounding the number of
iterations (timeout when the fuel runs out). -/
def checkRun (applyM : S → Op → S × Value) : Nat → CheckerSt Op Value S → CheckOut
  | 0, _ => CheckOut.timeout
  | fuel + 1, st =>
    match checkStep applyM st with
    | StepRes.panic => CheckOut.panicked
    | StepRes.done b => CheckOut.result b
    | StepRes.next st2 => checkRun applyM fuel st2

/-- Embedding of Checker::new followed by Checker::check_linearizability:
the initial bitmap has hist.len() / 2 bits, calls and cache start empty, and
the scan starts at the first live eid (empty history returns true at
once). -/
def check_linearizability (initialM : S) (applyM : S → Op → S × Value) (fuel : Nat)
    (hist : Hist Op Value) : CheckOut :=
  match first_eid hist with
  | none => CheckOut.panicked
  | some none => CheckOut.result true
  | some (some e) =>
    checkRun applyM fuel
      ⟨hist, BitVec.from_elem false (len hist / 2), [], [], initialM, e⟩


/-! ### Well formed histories and the checker invariant -/

theorem div64_lt (cid C : Nat) (h : cid < C) : cid / 64 < (C + 63) / 64 := by
  omega

theorem set_some (b : BitVec) (i : Nat) (v : Bool) (h : i / 64 < b.inner.length) :
    ∃ b2, BitVec.set b i v = some b2 ∧ b2.inner.length = b.inner.length := by
  unfold BitVec.set
  rw [List.getElem?_eq_getElem h, Option.map_some']
  exact ⟨_, rfl, by simp [List.length_set]⟩

/-- Decidable per invoke sanity: the matching return eid is larger and holds
a return event. -/
def invokeOK (hist : Hist Op Value) (i : Nat) : Bool :=
  match get_from_eid hist i with
  | some (Event.invoke _ r _) =>
    decide (i < r) &&
      (match get_from_eid hist r with
       | some (Event.ret _) => true
       | _ => false)
  | _ => true

/-- Decidable injectivity of ret_event over invokes. -/
def retUniq (hist : Hist Op Value) (i1 i2 : Nat) : Bool :=
  match get_from_eid hist i1, get_from_eid hist i2 with
  | some (Event.invoke _ r1 _), some (Event.invoke _ r2 _) =>
    !(r1 == r2) || (i1 == i2)
  | _, _ => true

/-- The call_id values of all invoke events, in eid order. -/
def invokeIds (hist : Hist Op Value) : List Nat :=
  (List.range hist.events.length).filterMap (fun i =>
    match get_from_eid hist i with
    | some (Event.invoke _ _ cid) => some cid
    | _ => none)

/-- A well formed history, as consumed by the checker: valid doubly linked
live list in ascending eid order covering exactly the real events, every
invoke paired with a later matching return, ret_event injective, and the
call_id values a permutation of [0, len/2). -/
def WFHist (hist : Hist Op Value) : Prop :=
  histWF hist ∧ (liveList hist).Sorted (· < ·) ∧
  (∀ i ∈ liveList hist, (get_from_eid hist i).isSome = true) ∧
  (∀ i, i < hist.events.length → (get_from_eid hist i).isSome = true →
    i ∈ liveList hist) ∧
  (∀ i, i < hist.events.length → invokeOK hist i = true) ∧
  (∀ i1, i1 < hist.events.length → ∀ i2, i2 < hist.events.length →
    retUniq hist i1 i2 = true) ∧
  (invokeIds hist).Perm (List.range (len hist / 2))

instance (hist : Hist Op Value) : Decidable (WFHist hist) := by
  unfold WFHist
  infer_instance

theorem invokeOK_spec (hist : Hist Op Value) (i : Nat) (op : Op) (r cid : Nat)
    (h : invokeOK hist i = true)
    (hev : get_from_eid hist i = some (Event.invoke op r cid)) :
    i < r ∧ ∃ v, get_from_eid hist r = some (Event.ret v) := by
  unfold invokeOK at h
  rw [hev] at h
  simp only [Bool.and_eq_true, decide_eq_true_eq] at h
  refine ⟨h.1, ?_⟩
  cases hr : get_from_eid hist r with
  | none => rw [hr] at h; cases h.2
  | some ev =>
    cases ev with
    | invoke op2 r2 cid2 => rw [hr] at h; cases h.2
    | ret v => exact ⟨v, rfl⟩

theorem retUniq_spec (hist : Hist Op Value) (i1 i2 : Nat) (op1 : Op) (r cid1 : Nat)
    (op2 : Op) (cid2 : Nat) (h : retUniq hist i1 i2 = true)
    (hev1 : get_from_eid hist i1 = some (Event.invoke op1 r cid1))
    (hev2 : get_from_eid hist i2 = some (Event.invoke op2 r cid2)) : i1 = i2 := by
  unfold retUniq at h
  rw [hev1, hev2] at h
  simp only [beq_self_eq_true, Bool.not_true, Bool.false_or, beq_iff_eq] at h
  exact h

theorem mem_invokeIds (hist : Hist Op Value) (i : Nat) (op : Op) (r cid : Nat)
    (hev : get_from_eid hist i = some (Event.invoke op r cid)) :
    cid ∈ invokeIds hist := by
  unfold invokeIds
  rw [List.mem_filterMap]
  refine ⟨i, ?_, ?_⟩
  · rw [List.mem_range]
    unfold get_from_eid at hev
    cases hi : hist.events[i]? with
    | none => rw [hi] at hev; cases hev
    | some nd => exact getElem_lt hi
  · rw [hev]

/-- Event level facts needed by the running checker, stable under lift and
unlift because those do not touch ev fields. -/
def EvWF (C : Nat) (hist : Hist Op Value) : Prop :=
  (∀ i op r cid, get_from_eid hist i = some (Event.invoke op r cid) →
    cid < C ∧ i < r ∧ ∃ v, get_from_eid hist r = some (Event.ret v)) ∧
  (∀ i1 i2 op1 cid1 op2 cid2 r,
    get_from_eid hist i1 = some (Event.invoke op1 r cid1) →
    get_from_eid hist i2 = some (Event.invoke op2 r cid2) → i1 = i2)

/-- The history part of the checker loop invariant. -/
def HistOK (C : Nat) (hist : Hist Op Value) : Prop :=
  histWF hist ∧ EvWF C hist ∧ (liveList hist).Sorted (· < ·) ∧
  (∀ i ∈ liveList hist, (get_from_eid hist i).isSome = true) ∧
  (∀ i ∈ liveList hist, ∀ op r cid,
    get_from_eid hist i = some (Event.invoke op r cid) → r ∈ liveList hist)

/-- The calls stack invariant: each recorded invoke unlifts back to a
history that again satisfies the invariant. -/
def StackOKC (C : Nat) : Hist Op Value → List (Nat × S) → Prop
  | _, [] => True
  | hist, (e2, _) :: rest => ∃ hist2, unlift hist e2 = some hist2 ∧
      HistOK C hist2 ∧ e2 ∈ liveList hist2 ∧
      (∃ op r cid, get_from_eid hist2 e2 = some (Event.invoke op r cid)) ∧
      StackOKC C hist2 rest

/-- The full checker loop invariant. -/
def CheckerInv (C : Nat) (st : CheckerSt Op Value S) : Prop :=
  HistOK C st.hist ∧ st.eid ∈ liveList st.hist ∧
  st.lined.inner.length = (C + 63) / 64 ∧ StackOKC C st.hist st.calls

theorem EvWF_congr (C : Nat) (h1 h2 : Hist Op Value)
    (hev : ∀ j, get_from_eid h2 j = get_from_eid h1 j) (h : EvWF C h1) : EvWF C h2 := by
  constructor
  · intro i op r cid hi
    rw [hev i] at hi
    obtain ⟨h1c, h2c, v, h3c⟩ := h.1 i op r cid hi
    exact ⟨h1c, h2c, v, by rw [hev r]; exact h3c⟩
  · intro i1 i2 op1 cid1 op2 cid2 r hi1 hi2
    rw [hev i1] at hi1
    rw [hev i2] at hi2
    exact h.2 i1 i2 op1 cid1 op2 cid2 r hi1 hi2

theorem first_eid_nil (h : Hist Op Value) (hg : goodChain h []) :
    first_eid h = some none := by
  obtain ⟨hc, _, _, hpos⟩ := hg
  rw [chainOK_nil_iff] at hc
  obtain ⟨s0, h0⟩ : ∃ s0, h.events[0]? = some s0 := ⟨_, List.getElem?_eq_getElem hpos⟩
  unfold first_eid next_eid
  rw [BEGIN_eq, h0, Option.map_some']
  have hn0 : s0.next = 0 := by rw [← nextOf_eq h h0]; exact hc.1
  rw [hn0]
  simp [END_eq]

theorem first_eid_cons (h : Hist Op Value) (y : Nat) (rest : List Nat)
    (hg : goodChain h (y :: rest)) : first_eid h = some (some y) := by
  obtain ⟨hc, _, hval, hpos⟩ := hg
  rw [chainOK_cons_iff] at hc
  obtain ⟨s0, h0⟩ : ∃ s0, h.events[0]? = some s0 := ⟨_, List.getElem?_eq_getElem hpos⟩
  unfold first_eid next_eid
  rw [BEGIN_eq, h0, Option.map_some']
  have hn0 : s0.next = y := by rw [← nextOf_eq h h0]; exact hc.1
  rw [hn0]
  have hy0 : y ≠ 0 := (hval y (by simp)).1
  rw [if_pos (by rw [END_eq]; exact hy0)]

theorem chain_next_eid (h : Hist Op Value) (l1 l2 : List Nat) (x y : Nat)
    (hg : goodChain h (l1 ++ x :: y :: l2)) : next_eid h x = some (some y) := by
  obtain ⟨hc, _, hval, _⟩ := hg
  rw [chainOK_append_iff, chainOK_cons_iff] at hc
  have hxval : x < h.events.length := (hval x (by simp)).2
  obtain ⟨nd, hnd⟩ : ∃ nd, h.events[x]? = some nd :=
    ⟨_, List.getElem?_eq_getElem hxval⟩
  unfold next_eid
  rw [hnd, Option.map_some']
  have hn : nd.next = y := by rw [← nextOf_eq h hnd]; exact hc.2.1
  rw [hn]
  have hy0 : y ≠ 0 := (hval y (by simp)).1
  rw [if_pos (by rw [END_eq]; exact hy0)]

theorem sorted_split_succ (lv : List Nat) (hs : lv.Sorted (· < ·)) (i r : Nat)
    (hi : i ∈ lv) (hr : r ∈ lv) (hlt : i < r) :
    ∃ l1 y l2, lv = l1 ++ i :: y :: l2 := by
  obtain ⟨l1, l2, hsplit⟩ := List.append_of_mem hi
  subst hsplit
  have hrmem : r ∈ l2 := by
    rcases List.mem_append.mp hr with h1m | h1m
    · exfalso
      have hs2 : List.Pairwise (· < ·) (l1 ++ i :: l2) := hs
      rw [List.pairwise_append] at hs2
      have := hs2.2.2 r h1m i (by simp)
      omega
    · rcases List.mem_cons.mp h1m with h2m | h2m
      · omega
      · exact h2m
  cases l2 with
  | nil => cases hrmem
  | cons y l2t => exact ⟨l1, y, l2t, rfl⟩

theorem mem_erase2 (lv : List Nat) (hnd : lv.Nodup) (x e r : Nat) :
    x ∈ (lv.erase e).erase r ↔ x ∈ lv ∧ x ≠ e ∧ x ≠ r := by
  rw [List.Nodup.mem_erase_iff (hnd.erase e), List.Nodup.mem_erase_iff hnd]
  tauto

/-- The full lift of a live pair: success, the resulting chain, preservation
of events and length, and invertibility. -/
theorem lift_full (h : Hist Op Value) (lv : List Nat) (e r : Nat) (op : Op)
    (cid : Nat) (v : Value) (hg : goodChain h lv) (he : e ∈ lv) (hrl : r ∈ lv)
    (hev : get_from_eid h e = some (Event.invoke op r cid))
    (hevr : get_from_eid h r = some (Event.ret v)) :
    ∃ h2, lift h e = some h2 ∧ goodChain h2 ((lv.erase e).erase r) ∧
      h2.events.length = h.events.length ∧
      (∀ j, get_from_eid h2 j = get_from_eid h j) ∧
      unlift h2 e = some h := by
  have hrne : r ≠ e := by
    intro hcon
    rw [hcon, hev] at hevr
    cases hevr
  obtain ⟨l1, l2, hsplit⟩ := List.append_of_mem he
  have hg1 : goodChain h (l1 ++ e :: l2) := by rw [hsplit] at hg; exact hg
  obtain ⟨h1, hle1, hgc1, hlen1, hev1⟩ := goodChain_lift_event h l1 l2 e hg1
  have hel1 : e ∉ l1 := by
    rcases List.nodup_append.mp hg1.2.1 with ⟨_, _, hdisj⟩
    intro hmem
    exact hdisj hmem (by simp)
  have herase1 : lv.erase e = l1 ++ l2 := by
    rw [hsplit, List.erase_append_right _ hel1, List.erase_cons_head]
  have hrin : r ∈ l1 ++ l2 := by
    have hrl2 : r ∈ l1 ++ e :: l2 := by rw [← hsplit]; exact hrl
    rcases List.mem_append.mp hrl2 with h1m | h1m
    · exact List.mem_append_left _ h1m
    · rcases List.mem_cons.mp h1m with h2m | h2m
      · exact absurd h2m hrne
      · exact List.mem_append_right _ h2m
  obtain ⟨l1b, l2b, hsplitb⟩ := List.append_of_mem hrin
  have hgc1b : goodChain h1 (l1b ++ r :: l2b) := by rw [hsplitb] at hgc1; exact hgc1
  obtain ⟨h2, hle2, hgc2, hlen2, hev2⟩ := goodChain_lift_event h1 l1b l2b r hgc1b
  have hrl1b : r ∉ l1b := by
    rcases List.nodup_append.mp hgc1b.2.1 with ⟨_, _, hdisj⟩
    intro hmem
    exact hdisj hmem (by simp)
  have herase2 : (lv.erase e).erase r = l1b ++ l2b := by
    rw [herase1, hsplitb, List.erase_append_right _ hrl1b, List.erase_cons_head]
  have hliftfull : lift h e = some h2 := by
    unfold lift
    rw [hev, Option.some_bind]
    simp only
    rw [hle1, Option.some_bind, hle2]
  refine ⟨h2, hliftfull, by rw [herase2]; exact hgc2, by rw [hlen2, hlen1],
    fun j => by rw [hev2 j, hev1 j], ?_⟩
  exact lift_unlift_restore_aux h h2 e r op cid v lv hg he hrl hev hevr hliftfull


theorem apply_eq (applyM : S → Op → S × Value) (hist : Hist Op Value) (s : S)
    (eid : Nat) (op : Op) (r cid : Nat) (v : Value)
    (hev : get_from_eid hist eid = some (Event.invoke op r cid))
    (hevr : get_from_eid hist r = some (Event.ret v)) :
    Checker.apply applyM hist s eid =
      some (decide (v = (applyM s op).2), cid, (applyM s op).1) := by
  unfold Checker.apply
  rw [hev]
  simp only [hevr]

/-- Under the invariant, the scan position of a live invoke always has a
live successor, because its matching return is live and comes later. -/
theorem HistOK_next (C : Nat) (hist : Hist Op Value) (eid : Nat) (op : Op)
    (r cid : Nat) (hOK : HistOK C hist) (hmem : eid ∈ liveList hist)
    (hev : get_from_eid hist eid = some (Event.invoke op r cid)) :
    ∃ ne, next_eid hist eid = some (some ne) ∧ ne ∈ liveList hist := by
  obtain ⟨hWF, hEv, hSort, _, hRet⟩ := hOK
  have hg : goodChain hist (liveList hist) := hWF
  obtain ⟨_, hlt, _, _⟩ := hEv.1 eid op r cid hev
  have hrl : r ∈ liveList hist := hRet eid hmem op r cid hev
  obtain ⟨l1, y, l2, hsplit⟩ :=
    sorted_split_succ (liveList hist) hSort eid r hmem hrl hlt
  rw [hsplit] at hg
  refine ⟨y, chain_next_eid hist l1 l2 eid y hg, ?_⟩
  rw [hsplit]
  simp

/-- Under the invariant, lifting a live invoke succeeds, preserves the
invariant on the double erased live list, and unlifts back. -/
theorem HistOK_lift (C : Nat) (hist : Hist Op Value) (eid : Nat) (op : Op)
    (r cid : Nat) (hOK : HistOK C hist) (hmem : eid ∈ liveList hist)
    (hev : get_from_eid hist eid = some (Event.invoke op r cid)) :
    ∃ hist2, lift hist eid = some hist2 ∧ HistOK C hist2 ∧
      liveList hist2 = ((liveList hist).erase eid).erase r ∧
      unlift hist2 eid = some hist := by
  obtain ⟨hWF, hEv, hSort, hLive, hRet⟩ := hOK
  have hg : goodChain hist (liveList hist) := hWF
  have hnd : (liveList hist).Nodup := hg.2.1
  obtain ⟨_, hlt, v, hevr⟩ := hEv.1 eid op r cid hev
  have hrl : r ∈ liveList hist := hRet eid hmem op r cid hev
  obtain ⟨hist2, hlift, hgc2, _, hevp, hunl⟩ :=
    lift_full hist (liveList hist) eid r op cid v hg hmem hrl hev hevr
  have hlv2 : liveList hist2 = ((liveList hist).erase eid).erase r :=
    liveList_eq hist2 _ hgc2
  have hsub : List.Sublist (((liveList hist).erase eid).erase r) (liveList hist) :=
    (List.erase_sublist r _).trans (List.erase_sublist eid _)
  refine ⟨hist2, hlift, ⟨histWF_of_goodChain hist2 _ hgc2,
    EvWF_congr C hist hist2 hevp hEv, ?_, ?_, ?_⟩, hlv2, hunl⟩
  · rw [hlv2]
    exact List.Pairwise.sublist hsub hSort
  · intro x hx
    rw [hlv2] at hx
    rw [hevp x]
    exact hLive x (hsub.mem hx)
  · intro x hx op1 r1 cid1 hev1
    rw [hlv2] at hx
    rw [hlv2]
    rw [hevp x] at hev1
    obtain ⟨hxlv, hxe, hxr⟩ := (mem_erase2 _ hnd x eid r).mp hx
    have hr1lv : r1 ∈ liveList hist := hRet x hxlv op1 r1 cid1 hev1
    obtain ⟨_, _, v1, hevr1⟩ := hEv.1 x op1 r1 cid1 hev1
    refine (mem_erase2 _ hnd r1 eid r).mpr ⟨hr1lv, ?_, ?_⟩
    · intro hcon
      rw [hcon, hev] at hevr1
      cases hevr1
    · intro hcon
      rw [hcon] at hev1
      exact hxe (hEv.2 x eid op1 cid1 op cid r hev1 hev)

/-- One loop iteration never panics from an invariant state, and every
successor state again satisfies the invariant. -/
theorem checkStep_no_panic (C : Nat) (applyM : S → Op → S × Value)
    (st : CheckerSt Op Value S) (hInv : CheckerInv C st) :
    checkStep applyM st ≠ StepRes.panic ∧
    (∀ st2, checkStep applyM st = StepRes.next st2 → CheckerInv C st2) := by
  obtain ⟨hHOK, hmem, hlen, hstack⟩ := hInv
  have hget := hHOK.2.2.2.1 st.eid hmem
  cases hgev : get_from_eid st.hist st.eid with
  | none => rw [hgev] at hget; cases hget
  | some ev =>
    cases ev with
    | invoke op r cid =>
      obtain ⟨hcid, hltr, v, hevr⟩ := hHOK.2.1.1 st.eid op r cid hgev
      obtain ⟨ne1, hne1, hne1mem⟩ :=
        HistOK_next C st.hist st.eid op r cid hHOK hmem hgev
      have happ := apply_eq applyM st.hist st.s st.eid op r cid v hgev hevr
      obtain ⟨lined2, hset, hslen⟩ := set_some st.lined cid true
        (by rw [hlen]; exact div64_lt cid C hcid)
      cases hlinb : decide (v = (applyM st.s op).2) with
      | false =>
        have hstep : checkStep applyM st =
            StepRes.next ⟨st.hist, st.lined, st.calls, st.cache, st.s, ne1⟩ := by
          unfold checkStep
          rw [hgev]
          simp only [hne1, happ, hlinb]
          simp
        refine ⟨(by rw [hstep]; intro hc; cases hc), ?_⟩
        intro st2 h2
        rw [hstep] at h2
        cases h2
        exact ⟨hHOK, hne1mem, hlen, hstack⟩
      | true =>
        obtain ⟨hist2, hlift, hOK2, hlv2, hunl⟩ :=
          HistOK_lift C st.hist st.eid op r cid hHOK hmem hgev
        cases hcib : (cacheInsert st.cache (lined2, (applyM st.s op).1)).2 with
        | false =>
          have hstep : checkStep applyM st = StepRes.next
              ⟨st.hist, st.lined, st.calls,
                (cacheInsert st.cache (lined2, (applyM st.s op).1)).1,
                st.s, ne1⟩ := by
            unfold checkStep
            rw [hgev]
            simp only [hne1, happ, hlinb, hset, hcib]
            simp
          refine ⟨(by rw [hstep]; intro hc; cases hc), ?_⟩
          intro st2 h2
          rw [hstep] at h2
          cases h2
          exact ⟨hHOK, hne1mem, hlen, hstack⟩
        | true =>
          cases hl2c : ((liveList st.hist).erase st.eid).erase r with
          | nil =>
            have hg2 : goodChain hist2 [] := by
              have hx : goodChain hist2 (liveList hist2) := hOK2.1
              rw [hlv2, hl2c] at hx
              exact hx
            have hfe : first_eid hist2 = some none := first_eid_nil hist2 hg2
            have hstep : checkStep applyM st = StepRes.done true := by
              unfold checkStep
              rw [hgev]
              simp only [hne1, happ, hlinb, hset, hcib, hlift, hfe]
              simp
            refine ⟨(by rw [hstep]; intro hc; cases hc), ?_⟩
            intro st2 h2
            rw [hstep] at h2
            cases h2
          | cons y rest =>
            have hg2 : goodChain hist2 (y :: rest) := by
              have hx : goodChain hist2 (liveList hist2) := hOK2.1
              rw [hlv2, hl2c] at hx
              exact hx
            have hfe : first_eid hist2 = some (some y) :=
              first_eid_cons hist2 y rest hg2
            have hstep : checkStep applyM st = StepRes.next
                ⟨hist2, lined2, (st.eid, st.s) :: st.calls,
                  (cacheInsert st.cache (lined2, (applyM st.s op).1)).1,
                  (applyM st.s op).1, y⟩ := by
              unfold checkStep
              rw [hgev]
              simp only [hne1, happ, hlinb, hset, hcib, hlift, hfe]
              simp
            refine ⟨(by rw [hstep]; intro hc; cases hc), ?_⟩
            intro st2 h2
            rw [hstep] at h2
            cases h2
            refine ⟨hOK2, ?_, hslen.trans hlen, ?_⟩
            · rw [hlv2, hl2c]
              simp
            · exact ⟨st.hist, hunl, hHOK, hmem, ⟨op, r, cid, hgev⟩, hstack⟩
    | ret v0 =>
      rcases hcalls : st.calls with _ | ⟨⟨eid2, s2⟩, rest⟩
      · have hstep : checkStep applyM st = StepRes.done false := by
          unfold checkStep
          rw [hgev]
          simp only [hcalls]
        refine ⟨(by rw [hstep]; intro hc; cases hc), ?_⟩
        intro st2 h2
        rw [hstep] at h2
        cases h2
      · rw [hcalls] at hstack
        obtain ⟨hist2, hunl2, hOK2, hmem2, ⟨op2, r2, cid2, hev2⟩, hstack2⟩ := hstack
        have hevst : get_from_eid st.hist eid2 = some (Event.invoke op2 r2 cid2) := by
          rw [← unlift_ev st.hist hist2 eid2 hunl2 eid2]
          exact hev2
        have hgc : get_call_id st.hist eid2 = some cid2 := by
          unfold get_call_id
          rw [hevst]
          rfl
        obtain ⟨hcid2, _, _, _⟩ := hHOK.2.1.1 eid2 op2 r2 cid2 hevst
        obtain ⟨lined2, hset2, hslen2⟩ := set_some st.lined cid2 false
          (by rw [hlen]; exact div64_lt cid2 C hcid2)
        obtain ⟨ne2, hne2, hne2mem⟩ :=
          HistOK_next C hist2 eid2 op2 r2 cid2 hOK2 hmem2 hev2
        have hstep : checkStep applyM st = StepRes.next
            ⟨hist2, lined2, rest, st.cache, s2, ne2⟩ := by
          unfold checkStep
          rw [hgev]
          simp only [hcalls, hgc, hset2, hunl2, hne2]
        refine ⟨(by rw [hstep]; intro hc; cases hc), ?_⟩
        intro st2 h2
        rw [hstep] at h2
        cases h2
        exact ⟨hOK2, hne2mem, hslen2.trans hlen, hstack2⟩

/-- The loop never panics from an invariant state, whatever the fuel. -/
theorem checkRun_no_panic (C : Nat) (applyM : S → Op → S × Value) (fuel : Nat) :
    ∀ st : CheckerSt Op Value S, CheckerInv C st →
      checkRun applyM fuel st ≠ CheckOut.panicked := by
  induction fuel with
  | zero =>
    intro st _
    intro hc
    cases hc
  | succ n ih =>
    intro st hinv
    obtain ⟨hnp, hpres⟩ := checkStep_no_panic C applyM st hinv
    unfold checkRun
    cases hcs : checkStep applyM st with
    | panic => exact absurd hcs hnp
    | done b => intro hc; cases hc
    | next st2 => exact ih st2 (hpres st2 hcs)


theorem get_from_eid_lt (hist : Hist Op Value) (i : Nat) (ev : Event Op Value)
    (hev : get_from_eid hist i = some ev) : i < hist.events.length := by
  unfold get_from_eid at hev
  cases hi : hist.events[i]? with
  | none => rw [hi] at hev; cases hev
  | some nd => exact getElem_lt hi

/-- C9: on a well formed history (valid live list in eid order, each invoke
paired with a later matching return, ret_event injective, call_id values a
permutation of [0, len/2)), check_linearizability never hits any of its
panics (every expect, unwrap and unreachable), for any model and any number
of loop iterations. -/
theorem c9_checker_no_panic (initialM : S) (applyM : S → Op → S × Value)
    (fuel : Nat) (hist : Hist Op Value) (hWF : WFHist hist) :
    check_linearizability initialM applyM fuel hist ≠ CheckOut.panicked := by
  obtain ⟨hwf, hsort, hlive, hsome, hinvOK, hretU, hperm⟩ := hWF
  have hEv : EvWF (len hist / 2) hist := by
    constructor
    · intro i op r cid hev
      have hi := get_from_eid_lt hist i _ hev
      obtain ⟨hir, v, hevr⟩ := invokeOK_spec hist i op r cid (hinvOK i hi) hev
      refine ⟨?_, hir, v, hevr⟩
      exact List.mem_range.mp
        (hperm.mem_iff.mp (mem_invokeIds hist i op r cid hev))
    · intro i1 i2 op1 cid1 op2 cid2 r h1 h2
      exact retUniq_spec hist i1 i2 op1 r cid1 op2 cid2
        (hretU i1 (get_from_eid_lt hist i1 _ h1) i2
          (get_from_eid_lt hist i2 _ h2)) h1 h2
  have hHOK : HistOK (len hist / 2) hist := by
    refine ⟨hwf, hEv, hsort, hlive, ?_⟩
    intro i hi op r cid hev
    obtain ⟨_, _, v, hevr⟩ := hEv.1 i op r cid hev
    exact hsome r (get_from_eid_lt hist r _ hevr) (by rw [hevr]; rfl)
  have hg : goodChain hist (liveList hist) := hwf
  unfold check_linearizability
  cases hlv : liveList hist with
  | nil =>
    have hfe : first_eid hist = some none :=
      first_eid_nil hist (by rw [← hlv]; exact hg)
    rw [hfe]
    intro hc
    cases hc
  | cons y rest =>
    have hfe : first_eid hist = some (some y) :=
      first_eid_cons hist y rest (by rw [← hlv]; exact hg)
    rw [hfe]
    refine checkRun_no_panic (len hist / 2) applyM fuel _ ?_
    refine ⟨hHOK, ?_, ?_, trivial⟩
    · rw [hlv]
      simp
    · unfold BitVec.from_elem
      simp


theorem c9_checker_no_panic_witness :
    WFHist histA ∧
    check_linearizability 0 (fun (s : Nat) (_ : Nat) => (s, 5)) 10 histA ≠
      CheckOut.panicked :=
  ⟨by decide, c9_checker_no_panic 0 (fun s _ => (s, 5)) 10 histA (by decide)⟩


/-! ### Bit level facts about BitVec: bitmaps determine call sets -/

/-- The block transformation performed by BitVec::set. -/
def setBlock (blk j : Nat) (v : Bool) : Nat :=
  if v then blk ||| (1 <<< j) else blk &&& (u64Max ^^^ (1 <<< j))

/-- All blocks fit in 64 bits. -/
def Bounded (b : BitVec) : Prop := ∀ x ∈ b.inner, x < 2 ^ 64

/-- All bits at positions at or beyond C are clear. -/
def SlackZero (C : Nat) (b : BitVec) : Prop :=
  ∀ k blk, b.inner[k]? = some blk → ∀ j, j < 64 → C ≤ 64 * k + j →
    blk.testBit j = false

theorem testBit_mask (blk j : Nat) :
    ((blk &&& (1 <<< j)) != 0) = blk.testBit j := by
  rw [Nat.one_shiftLeft, Nat.and_two_pow]
  cases htb : blk.testBit j <;> simp

theorem bitvec_set_eq (b : BitVec) (i : Nat) (v : Bool) (blk : Nat)
    (hblk : b.inner[i / 64]? = some blk) :
    BitVec.set b i v = some ⟨b.inner.set (i / 64) (setBlock blk (i % 64) v),
      b.hash ^^^ blk ^^^ setBlock blk (i % 64) v⟩ := by
  unfold BitVec.set setBlock
  rw [hblk, Option.map_some']

theorem setBlock_lt (blk j : Nat) (v : Bool) (hblk : blk < 2 ^ 64)
    (hj : j < 64) : setBlock blk j v < 2 ^ 64 := by
  unfold setBlock
  cases v
  · rw [if_neg (by simp)]
    exact lt_of_le_of_lt Nat.and_le_left hblk
  · rw [if_pos rfl]
    exact Nat.or_lt_two_pow hblk
      (by rw [Nat.one_shiftLeft]; exact Nat.pow_lt_pow_right (by omega) hj)

theorem setBlock_testBit_self (blk j : Nat) (v : Bool) (hj : j < 64) :
    (setBlock blk j v).testBit j = v := by
  unfold setBlock
  cases v
  · rw [if_neg (by simp), Nat.testBit_and, Nat.testBit_xor, Nat.one_shiftLeft,
      Nat.testBit_two_pow]
    unfold u64Max
    rw [Nat.testBit_two_pow_sub_one]
    simp [hj]
  · rw [if_pos rfl, Nat.testBit_or, Nat.one_shiftLeft, Nat.testBit_two_pow]
    simp

theorem setBlock_testBit_ne (blk j t : Nat) (v : Bool) (hblk : blk < 2 ^ 64)
    (ht : t ≠ j) : (setBlock blk j v).testBit t = blk.testBit t := by
  unfold setBlock
  cases v
  · rw [if_neg (by simp), Nat.testBit_and, Nat.testBit_xor, Nat.one_shiftLeft,
      Nat.testBit_two_pow]
    unfold u64Max
    rw [Nat.testBit_two_pow_sub_one]
    by_cases h64 : t < 64
    · simp [h64, Ne.symm ht]
    · have hbf : blk.testBit t = false :=
        Nat.testBit_eq_false_of_lt (lt_of_lt_of_le hblk
          (Nat.pow_le_pow_right (by omega) (by omega)))
      simp [hbf]
  · rw [if_pos rfl, Nat.testBit_or, Nat.one_shiftLeft, Nat.testBit_two_pow]
    simp [Ne.symm ht]

theorem get_testBit (b : BitVec) (i : Nat) (blk : Nat)
    (hblk : b.inner[i / 64]? = some blk) :
    BitVec.get b i = some (blk.testBit (i % 64)) := by
  unfold BitVec.get
  rw [hblk, Option.map_some', testBit_mask]

theorem get_set_self (b b2 : BitVec) (i : Nat) (v : Bool)
    (hset : BitVec.set b i v = some b2) : BitVec.get b2 i = some v := by
  cases hblk : b.inner[i / 64]? with
  | none => unfold BitVec.set at hset; rw [hblk] at hset; cases hset
  | some blk =>
    rw [bitvec_set_eq b i v blk hblk] at hset
    cases hset
    have hblk2 : (b.inner.set (i / 64) (setBlock blk (i % 64) v))[i / 64]? =
        some (setBlock blk (i % 64) v) :=
      List.getElem?_set_eq_of_lt _ (getElem_lt hblk)
    rw [get_testBit _ i _ hblk2, setBlock_testBit_self blk (i % 64) v (by omega)]

theorem get_set_ne (b b2 : BitVec) (i j : Nat) (v : Bool) (hBd : Bounded b)
    (hset : BitVec.set b i v = some b2) (hne : j ≠ i) :
    BitVec.get b2 j = BitVec.get b j := by
  cases hblk : b.inner[i / 64]? with
  | none => unfold BitVec.set at hset; rw [hblk] at hset; cases hset
  | some blk =>
    rw [bitvec_set_eq b i v blk hblk] at hset
    cases hset
    by_cases hsb : j / 64 = i / 64
    · have hjm : j % 64 ≠ i % 64 := by omega
      have hblkj : b.inner[j / 64]? = some blk := by rw [hsb]; exact hblk
      have hblk2 : (b.inner.set (i / 64) (setBlock blk (i % 64) v))[j / 64]? =
          some (setBlock blk (i % 64) v) := by
        rw [hsb]
        exact List.getElem?_set_eq_of_lt _ (getElem_lt hblk)
      rw [get_testBit _ j _ hblk2, get_testBit b j blk hblkj,
        setBlock_testBit_ne blk (i % 64) (j % 64) v
          (hBd blk (List.getElem?_mem hblk)) hjm]
    · unfold BitVec.get
      rw [List.getElem?_set_ne (fun hc => hsb hc.symm)]

theorem Bounded_set (b b2 : BitVec) (i : Nat) (v : Bool) (hBd : Bounded b)
    (hset : BitVec.set b i v = some b2) : Bounded b2 := by
  cases hblk : b.inner[i / 64]? with
  | none => unfold BitVec.set at hset; rw [hblk] at hset; cases hset
  | some blk =>
    rw [bitvec_set_eq b i v blk hblk] at hset
    cases hset
    intro x hx
    rcases List.mem_or_eq_of_mem_set hx with hmem | heq
    · exact hBd x hmem
    · rw [heq]
      exact setBlock_lt blk (i % 64) v (hBd blk (List.getElem?_mem hblk))
        (by omega)

theorem SlackZero_set (Cn : Nat) (b b2 : BitVec) (i : Nat) (v : Bool)
    (hi : i < Cn) (hs : SlackZero Cn b) (hBd : Bounded b)
    (hset : BitVec.set b i v = some b2) : SlackZero Cn b2 := by
  cases hblk : b.inner[i / 64]? with
  | none => unfold BitVec.set at hset; rw [hblk] at hset; cases hset
  | some blk =>
    rw [bitvec_set_eq b i v blk hblk] at hset
    cases hset
    intro k blk2 hblk2 j hj64 hCj
    by_cases hk : k = i / 64
    · subst hk
      rw [List.getElem?_set_eq_of_lt _ (getElem_lt hblk)] at hblk2
      cases Option.some.inj hblk2
      have hjne : j ≠ i % 64 := by omega
      rw [setBlock_testBit_ne blk (i % 64) j v
        (hBd blk (List.getElem?_mem hblk)) hjne]
      exact hs (i / 64) blk hblk j hj64 hCj
    · rw [List.getElem?_set_ne (fun hc => hk hc.symm)] at hblk2
      exact hs k blk2 hblk2 j hj64 hCj

theorem Bounded_from_elem (v : Bool) (n : Nat) :
    Bounded (BitVec.from_elem v n) := by
  intro x hx
  unfold BitVec.from_elem at hx
  simp only at hx
  have hx2 := List.eq_of_mem_replicate hx
  rw [hx2]
  cases v
  · rw [if_neg (by simp)]
    omega
  · rw [if_pos rfl]
    unfold u64Max
    omega

theorem SlackZero_from_elem (Cn : Nat) :
    SlackZero Cn (BitVec.from_elem false Cn) := by
  intro k blk hblk j hj64 hCj
  unfold BitVec.from_elem at hblk
  simp only [List.getElem?_replicate] at hblk
  by_cases hk : k < (Cn + 63) / 64
  · rw [if_pos hk] at hblk
    cases Option.some.inj hblk
    simp
  · rw [if_neg hk] at hblk
    cases hblk

theorem get_from_elem_false (Cn i : Nat) (hi : i < Cn) :
    BitVec.get (BitVec.from_elem false Cn) i = some false := by
  have hblk : (BitVec.from_elem false Cn).inner[i / 64]? = some 0 := by
    unfold BitVec.from_elem
    simp only [List.getElem?_replicate]
    rw [if_pos (div64_lt i Cn hi), if_neg (by simp)]
  rw [get_testBit _ i 0 hblk, Nat.zero_testBit]

theorem bitvec_ext (Cn : Nat) (b1 b2 : BitVec)
    (hl1 : b1.inner.length = (Cn + 63) / 64)
    (hl2 : b2.inner.length = (Cn + 63) / 64)
    (hb1 : Bounded b1) (hb2 : Bounded b2)
    (hs1 : SlackZero Cn b1) (hs2 : SlackZero Cn b2)
    (hh1 : BitVec.hashInv b1) (hh2 : BitVec.hashInv b2)
    (hget : ∀ i, i < Cn → BitVec.get b1 i = BitVec.get b2 i) : b1 = b2 := by
  have hinner : b1.inner = b2.inner := by
    apply List.ext_getElem?
    intro k
    by_cases hk : k < (Cn + 63) / 64
    · obtain ⟨blk1, hblk1⟩ : ∃ x, b1.inner[k]? = some x :=
        ⟨_, List.getElem?_eq_getElem (by omega)⟩
      obtain ⟨blk2, hblk2⟩ : ∃ x, b2.inner[k]? = some x :=
        ⟨_, List.getElem?_eq_getElem (by omega)⟩
      rw [hblk1, hblk2]
      congr 1
      apply Nat.eq_of_testBit_eq
      intro j
      by_cases hj64 : j < 64
      · by_cases hjC : 64 * k + j < Cn
        · have hq : (64 * k + j) / 64 = k := by omega
          have hr : (64 * k + j) % 64 = j := by omega
          have h1 := get_testBit b1 (64 * k + j) blk1 (by rw [hq]; exact hblk1)
          have h2 := get_testBit b2 (64 * k + j) blk2 (by rw [hq]; exact hblk2)
          rw [hr] at h1 h2
          have := (hget (64 * k + j) hjC)
          rw [h1, h2] at this
          exact Option.some.inj this
        · rw [hs1 k blk1 hblk1 j hj64 (by omega),
            hs2 k blk2 hblk2 j hj64 (by omega)]
      · rw [Nat.testBit_eq_false_of_lt (lt_of_lt_of_le
            (hb1 blk1 (List.getElem?_mem hblk1))
            (Nat.pow_le_pow_right (by omega) (by omega))),
          Nat.testBit_eq_false_of_lt (lt_of_lt_of_le
            (hb2 blk2 (List.getElem?_mem hblk2))
            (Nat.pow_le_pow_right (by omega) (by omega)))]
    · rw [List.getElem?_eq_none (by omega), List.getElem?_eq_none (by omega)]
  have hhash : b1.hash = b2.hash := by
    unfold BitVec.hashInv at hh1 hh2
    rw [hh1, hh2, hinner]
  calc b1 = ⟨b1.inner, b1.hash⟩ := rfl
    _ = ⟨b2.inner, b2.hash⟩ := by rw [hinner, hhash]
    _ = b2 := rfl

theorem set_length (b b2 : BitVec) (i : Nat) (v : Bool)
    (hset : BitVec.set b i v = some b2) :
    b2.inner.length = b.inner.length := by
  cases hblk : b.inner[i / 64]? with
  | none => unfold BitVec.set at hset; rw [hblk] at hset; cases hset
  | some blk =>
    rw [bitvec_set_eq b i v blk hblk] at hset
    cases hset
    simp


/-! ### Linearizations of a history -/

/-- The ret_event of the invoke at e (0 when e is not an invoke). -/
def retOf (h : Hist Op Value) (e : Nat) : Nat :=
  match get_from_eid h e with
  | some (Event.invoke _ r _) => r
  | _ => 0

/-- The call_id of the invoke at e (0 when e is not an invoke). -/
def cidOf (h : Hist Op Value) (e : Nat) : Nat :=
  match get_from_eid h e with
  | some (Event.invoke _ _ cid) => cid
  | _ => 0

/-- Whether eid e holds an invoke event. -/
def isInvoke (h : Hist Op Value) (e : Nat) : Bool :=
  match get_from_eid h e with
  | some (Event.invoke _ _ _) => true
  | _ => false

/-- The eids of all invoke events, ascending. -/
def invokeEids (h : Hist Op Value) : List Nat :=
  (List.range h.events.length).filter (fun i => isInvoke h i)

/-- The live list remaining after lifting the calls of L. -/
def liveAfter (h : Hist Op Value) (L : List Nat) : List Nat :=
  (liveList h).filter (fun x => !(L.any (fun e => x == e || x == retOf h e)))

/-- Real time precedence between calls named by their invoke eids: b
returned before a was invoked. -/
def RTprec (h : Hist Op Value) (b a : Nat) : Prop :=
  isInvoke h b = true ∧ retOf h b < a

/-- Replaying a sequence of calls through the model: each call must be an
invoke whose matching return value the model reproduces; returns the final
model state. -/
def runSeq (applyM : S → Op → S × Value) (h : Hist Op Value) :
    S → List Nat → Option S
  | s, [] => some s
  | s, e :: rest =>
    match get_from_eid h e with
    | some (Event.invoke op r _) =>
      match get_from_eid h r with
      | some (Event.ret v) =>
        if (applyM s op).2 = v then runSeq applyM h (applyM s op).1 rest
        else none
      | _ => none
    | _ => none

/-- From model state s, with the calls of E already linearized, the
remaining calls can be ordered into a completion: the order respects real
time precedence among themselves and replays from s. -/
def CanFinish (applyM : S → Op → S × Value) (h : Hist Op Value) (s : S)
    (E : List Nat) : Prop :=
  ∃ ord, (E ++ ord).Perm (invokeEids h) ∧
    ord.Pairwise (fun a b => ¬ RTprec h b a) ∧
    (runSeq applyM h s ord).isSome = true

/-- The history has a linearization: a total order of all calls that
respects real time precedence (a call that returned before another was
invoked comes first) and whose sequential replay from the initial state
reproduces every recorded return value. -/
def Linearizable (initialM : S) (applyM : S → Op → S × Value)
    (h : Hist Op Value) : Prop :=
  ∃ ord, ord.Perm (invokeEids h) ∧
    ord.Pairwise (fun a b => ¬ RTprec h b a) ∧
    (runSeq applyM h initialM ord).isSome = true

theorem Linearizable_iff_CanFinish (initialM : S) (applyM : S → Op → S × Value)
    (h : Hist Op Value) :
    Linearizable initialM applyM h ↔ CanFinish applyM h initialM [] := by
  unfold Linearizable CanFinish
  simp only [List.nil_append]

theorem isInvoke_iff (h : Hist Op Value) (e : Nat) :
    isInvoke h e = true ↔
      ∃ op r cid, get_from_eid h e = some (Event.invoke op r cid) := by
  unfold isInvoke
  cases hge : get_from_eid h e with
  | none => simp
  | some ev =>
    cases ev with
    | invoke op r cid => simp
    | ret v => simp

theorem retOf_eq (h : Hist Op Value) (e : Nat) (op : Op) (r cid : Nat)
    (hev : get_from_eid h e = some (Event.invoke op r cid)) :
    retOf h e = r := by
  unfold retOf
  rw [hev]

theorem cidOf_eq (h : Hist Op Value) (e : Nat) (op : Op) (r cid : Nat)
    (hev : get_from_eid h e = some (Event.invoke op r cid)) :
    cidOf h e = cid := by
  unfold cidOf
  rw [hev]

theorem mem_invokeEids (h : Hist Op Value) (e : Nat) :
    e ∈ invokeEids h ↔ isInvoke h e = true := by
  unfold invokeEids
  rw [List.mem_filter, List.mem_range]
  constructor
  · intro hx
    exact hx.2
  · intro hx
    obtain ⟨op, r, cid, hev⟩ := (isInvoke_iff h e).mp hx
    exact ⟨get_from_eid_lt h e _ hev, hx⟩

theorem invokeEids_nodup (h : Hist Op Value) : (invokeEids h).Nodup :=
  (List.nodup_range _).filter _

theorem invokeIds_eq_map (h : Hist Op Value) :
    invokeIds h = (invokeEids h).map (cidOf h) := by
  unfold invokeIds invokeEids
  generalize List.range h.events.length = l
  induction l with
  | nil => rfl
  | cons a t ih =>
    rw [List.filterMap_cons, List.filter_cons]
    cases hge : get_from_eid h a with
    | none =>
      have hni : isInvoke h a = false := by unfold isInvoke; rw [hge]
      rw [hni]
      simpa using ih
    | some ev =>
      cases ev with
      | invoke op r cid =>
        have hni : isInvoke h a = true := by unfold isInvoke; rw [hge]
        have hcid : cidOf h a = cid := cidOf_eq h a op r cid hge
        rw [hni]
        simp [hcid, ih]
      | ret v =>
        have hni : isInvoke h a = false := by unfold isInvoke; rw [hge]
        rw [hni]
        simpa using ih

theorem mem_liveAfter (h : Hist Op Value) (L : List Nat) (x : Nat) :
    x ∈ liveAfter h L ↔
      x ∈ liveList h ∧ ∀ e ∈ L, x ≠ e ∧ x ≠ retOf h e := by
  unfold liveAfter
  rw [List.mem_filter]
  constructor
  · rintro ⟨hm, hf⟩
    refine ⟨hm, ?_⟩
    intro e he
    rw [Bool.not_eq_true', List.any_eq_false] at hf
    have := hf e he
    simp only [Bool.or_eq_true, beq_iff_eq, not_or] at this
    exact this
  · rintro ⟨hm, hf⟩
    refine ⟨hm, ?_⟩
    rw [Bool.not_eq_true', List.any_eq_false]
    intro e he
    simp only [Bool.or_eq_true, beq_iff_eq, not_or]
    exact hf e he

theorem liveAfter_nil (h : Hist Op Value) : liveAfter h [] = liveList h := by
  unfold liveAfter
  simp

theorem liveAfter_snoc (h : Hist Op Value) (L : List Nat) (e : Nat)
    (hnd : (liveList h).Nodup) :
    ((liveAfter h L).erase e).erase (retOf h e) = liveAfter h (L ++ [e]) := by
  have hnd1 : (liveAfter h L).Nodup := hnd.filter _
  rw [List.Nodup.erase_eq_filter hnd1 e,
    List.Nodup.erase_eq_filter (hnd1.filter _) (retOf h e)]
  unfold liveAfter
  rw [List.filter_filter, List.filter_filter]
  apply List.filter_congr
  intro x _
  simp only [List.any_append, List.any_cons, List.any_nil, Bool.or_false,
    Bool.not_or, bne]
  cases hx1 : x == e <;> cases hx2 : x == retOf h e <;>
    cases hx3 : L.any (fun e2 => x == e2 || x == retOf h e2) <;> rfl

theorem runSeq_append (applyM : S → Op → S × Value) (h : Hist Op Value)
    (l1 l2 : List Nat) (s : S) :
    runSeq applyM h s (l1 ++ l2) =
      (runSeq applyM h s l1).bind (fun s2 => runSeq applyM h s2 l2) := by
  induction l1 generalizing s with
  | nil => rw [List.nil_append]; rfl
  | cons e t ih =>
    rw [List.cons_append]
    simp only [runSeq]
    cases hge : get_from_eid h e with
    | none => simp
    | some ev =>
      cases ev with
      | ret v => simp
      | invoke op r cid =>
        simp only []
        cases hgr : get_from_eid h r with
        | none => rfl
        | some ev2 =>
          cases ev2 with
          | invoke op2 r2 cid2 => rfl
          | ret v =>
            simp only []
            by_cases hv : (applyM s op).2 = v
            · rw [if_pos hv, if_pos hv, ih]
            · rw [if_neg hv, if_neg hv]
              rfl


/-! ### The checker loop invariant for functional correctness -/

/-- Whether eid x holds a return event. -/
def isRet (h : Hist Op Value) (x : Nat) : Bool :=
  match get_from_eid h x with
  | some (Event.ret _) => true
  | _ => false

/-- Every live return event is the ret_event of some invoke. -/
def retsCovered (h : Hist Op Value) : Prop :=
  ∀ x ∈ liveList h, isRet h x = true → ∃ e ∈ invokeEids h, retOf h e = x

/-- The lift order of the calls stack, bottom to top. -/
def pathEids (calls : List (Nat × S)) : List Nat :=
  (calls.map Prod.fst).reverse

/-- The candidate extension at x has been tried from state s: either the
model does not reproduce x
 return value, or the extended configuration is
already cached. -/
def Tried (applyM : S → Op → S × Value) (hist0 : Hist Op Value) (s : S)
    (lined : BitVec) (cache : List (BitVec × S)) (x : Nat) : Prop :=
  ∀ op r cid, get_from_eid hist0 x = some (Event.invoke op r cid) →
    ∀ v, get_from_eid hist0 r = some (Event.ret v) →
      (applyM s op).2 ≠ v ∨
      (∃ B2, BitVec.set lined cid true = some B2 ∧
        (B2, (applyM s op).1) ∈ cache)

/-- The bitmap B holds exactly the call_ids of the calls in E. -/
def LinedRep (hist0 : Hist Op Value) (Cn : Nat) (B : BitVec)
    (E : List Nat) : Prop :=
  B.inner.length = (Cn + 63) / 64 ∧ Bounded B ∧ SlackZero Cn B ∧
  BitVec.hashInv B ∧
  ∀ i, i < Cn → (BitVec.get B i = some true ↔ ∃ e ∈ E, cidOf hist0 e = i)

/-- A valid set of linearized calls: distinct invoke eids with in range
call_ids. -/
def GoodE (hist0 : Hist Op Value) (Cn : Nat) (E : List Nat) : Prop :=
  E.Nodup ∧ (∀ e ∈ E, e ∈ invokeEids hist0) ∧ ∀ e ∈ E, cidOf hist0 e < Cn

/-- (E, sE) is one of the configurations on the current DFS path: the
lifted set and model state at some depth of the calls stack. -/
def IsPath : List (Nat × S) → S → List Nat → S → Prop
  | [], stop, E, sE => E.Perm [] ∧ sE = stop
  | (e, sp) :: rest, stop, E, sE =>
    (E.Perm (pathEids ((e, sp) :: rest)) ∧ sE = stop) ∨ IsPath rest sp E sE

/-- Everything that must be restored when the checker backtracks one
frame: the unlift result, the bitmap one bit down, the replay step, the
cached configuration, and the scan facts of the interrupted scan. -/
def CFrames (initialM : S) (applyM : S → Op → S × Value)
    (hist0 : Hist Op Value) (Cn : Nat) (cache : List (BitVec × S)) :
    Hist Op Value → BitVec → List (Nat × S) → S → Prop
  | hist, lined, [], s =>
    hist = hist0 ∧ lined = BitVec.from_elem false Cn ∧ s = initialM
  | hist, lined, (e, sp) :: rest, s =>
    ∃ histp linedp,
      unlift hist e = some histp ∧
      BitVec.set linedp (cidOf hist0 e) true = some lined ∧
      LinedRep hist0 Cn linedp (pathEids rest) ∧
      runSeq applyM hist0 sp [e] = some s ∧
      (lined, s) ∈ cache ∧
      e ∈ liveList histp ∧
      isInvoke hist0 e = true ∧
      (∀ x ∈ liveList histp, x < e →
        isInvoke hist0 x = true ∧ Tried applyM hist0 sp linedp cache x) ∧
      liveList histp = liveAfter hist0 (pathEids rest) ∧
      CFrames initialM applyM hist0 Cn cache histp linedp rest sp

/-- Scan invariant: everything live before the scan position is an invoke
that has already been tried from the current state. -/
def ScanOK (applyM : S → Op → S × Value) (hist0 : Hist Op Value)
    (st : CheckerSt Op Value S) : Prop :=
  ∀ x ∈ liveList st.hist, x < st.eid →
    isInvoke hist0 x = true ∧
      Tried applyM hist0 st.s st.lined st.cache x

/-- Cache invariant: every cached configuration denotes a valid lifted set
and is either dead (cannot be completed to a linearization) or still on
the current DFS path. -/
def CacheOK (applyM : S → Op → S × Value) (hist0 : Hist Op Value) (Cn : Nat)
    (cache : List (BitVec × S)) (calls : List (Nat × S)) (stop : S) : Prop :=
  ∀ p ∈ cache, ∃ E, GoodE hist0 Cn E ∧ LinedRep hist0 Cn p.1 E ∧
    (¬ CanFinish applyM hist0 p.2 E ∨ IsPath calls stop E p.2)

/-- The full functional correctness invariant of the checker loop. -/
def GInv (initialM : S) (applyM : S → Op → S × Value)
    (hist0 : Hist Op Value) (Cn : Nat) (st : CheckerSt Op Value S) : Prop :=
  CheckerInv Cn st ∧
  (∀ j, get_from_eid st.hist j = get_from_eid hist0 j) ∧
  liveList st.hist = liveAfter hist0 (pathEids st.calls) ∧
  LinedRep hist0 Cn st.lined (pathEids st.calls) ∧
  CFrames initialM applyM hist0 Cn st.cache st.hist st.lined st.calls st.s ∧
  ScanOK applyM hist0 st ∧
  CacheOK applyM hist0 Cn st.cache st.calls st.s

/-- The derived facts about the original history used throughout. -/
def WFC (Cn : Nat) (hist0 : Hist Op Value) : Prop :=
  HistOK Cn hist0 ∧
  (∀ x, (get_from_eid hist0 x).isSome = true → x ∈ liveList hist0) ∧
  (∀ x ∈ invokeEids hist0, cidOf hist0 x < Cn) ∧
  (∀ x ∈ invokeEids hist0, ∀ y ∈ invokeEids hist0,
    cidOf hist0 x = cidOf hist0 y → x = y)

theorem pathEids_nil : pathEids ([] : List (Nat × S)) = [] := rfl

theorem pathEids_cons (e : Nat) (sp : S) (rest : List (Nat × S)) :
    pathEids ((e, sp) :: rest) = pathEids rest ++ [e] := by
  unfold pathEids
  rw [List.map_cons, List.reverse_cons]

theorem pathEids_length (calls : List (Nat × S)) :
    (pathEids calls).length = calls.length := by
  unfold pathEids
  rw [List.length_reverse, List.length_map]

theorem isRet_iff (h : Hist Op Value) (x : Nat) :
    isRet h x = true ↔ ∃ v, get_from_eid h x = some (Event.ret v) := by
  unfold isRet
  cases hge : get_from_eid h x with
  | none => simp
  | some ev =>
    cases ev with
    | invoke op r cid => simp
    | ret v => simp

theorem not_isInvoke_isRet (h : Hist Op Value) (x : Nat)
    (h1 : isInvoke h x = true) (h2 : isRet h x = true) : False := by
  obtain ⟨op, r, cid, hev⟩ := (isInvoke_iff h x).mp h1
  obtain ⟨v, hev2⟩ := (isRet_iff h x).mp h2
  rw [hev] at hev2
  cases hev2

theorem Tried_mono (applyM : S → Op → S × Value) (hist0 : Hist Op Value)
    (s : S) (lined : BitVec) (c1 c2 : List (BitVec × S)) (x : Nat)
    (hsub : ∀ p ∈ c1, p ∈ c2)
    (h : Tried applyM hist0 s lined c1 x) : Tried applyM hist0 s lined c2 x := by
  intro op r cid hev v hevr
  rcases h op r cid hev v hevr with h1 | ⟨B2, hB2, hmem⟩
  · exact Or.inl h1
  · exact Or.inr ⟨B2, hB2, hsub _ hmem⟩

theorem CFrames_mono (initialM : S) (applyM : S → Op → S × Value)
    (hist0 : Hist Op Value) (Cn : Nat) (c1 c2 : List (BitVec × S))
    (hsub : ∀ p ∈ c1, p ∈ c2) :
    ∀ calls (hist : Hist Op Value) lined s,
      CFrames initialM applyM hist0 Cn c1 hist lined calls s →
      CFrames initialM applyM hist0 Cn c2 hist lined calls s := by
  intro calls
  induction calls with
  | nil => intro hist lined s h; exact h
  | cons p rest ih =>
    intro hist lined s h
    obtain ⟨e, sp⟩ := p
    obtain ⟨histp, linedp, h1, h2, h3, h4, h5, h6, h7, h8, h9, h10⟩ := h
    exact ⟨histp, linedp, h1, h2, h3, h4, hsub _ h5, h6, h7,
      fun x hx hlt => ⟨(h8 x hx hlt).1,
        Tried_mono applyM hist0 sp linedp c1 c2 x hsub (h8 x hx hlt).2⟩,
      h9, ih histp linedp sp h10⟩

theorem cacheInsert_false_mem (c : List (BitVec × S)) (k : BitVec × S)
    (h : (cacheInsert c k).2 = false) : k ∈ c := by
  unfold cacheInsert at h
  by_cases hk : k ∈ c
  · exact hk
  · rw [if_neg hk] at h
    cases h

theorem cacheInsert_fst_of_mem (c : List (BitVec × S)) (k : BitVec × S)
    (h : k ∈ c) : (cacheInsert c k).1 = c := by
  unfold cacheInsert
  rw [if_pos h]

theorem cacheInsert_fst_of_not_mem (c : List (BitVec × S)) (k : BitVec × S)
    (h : ¬ k ∈ c) : (cacheInsert c k).1 = k :: c := by
  unfold cacheInsert
  rw [if_neg h]

theorem IsPath_length (calls : List (Nat × S)) (stop : S) (E : List Nat)
    (sE : S) (h : IsPath calls stop E sE) : E.length ≤ calls.length := by
  induction calls generalizing stop with
  | nil =>
    rw [h.1.length_eq]
    exact Nat.le_refl _
  | cons p rest ih =>
    obtain ⟨e, sp⟩ := p
    rcases h with ⟨hperm, _⟩ | hrec
    · rw [hperm.length_eq, pathEids_length]
    · exact Nat.le_trans (ih sp hrec) (Nat.le_succ _)

theorem CanFinish_perm (applyM : S → Op → S × Value) (hist0 : Hist Op Value)
    (s : S) (E1 E2 : List Nat) (hp : E1.Perm E2)
    (h : CanFinish applyM hist0 s E1) : CanFinish applyM hist0 s E2 := by
  obtain ⟨ord, h1, h2, h3⟩ := h
  exact ⟨ord, ((hp.append_right ord).symm).trans h1, h2, h3⟩

theorem LinedRep_init (hist0 : Hist Op Value) (Cn : Nat) :
    LinedRep hist0 Cn (BitVec.from_elem false Cn) [] := by
  refine ⟨?_, Bounded_from_elem false Cn, SlackZero_from_elem Cn,
    BitVec.from_elem_hashInv false Cn, ?_⟩
  · unfold BitVec.from_elem
    simp
  · intro i hi
    rw [get_from_elem_false Cn i hi]
    simp

theorem LinedRep_set_true (hist0 : Hist Op Value) (Cn : Nat) (B B2 : BitVec)
    (E : List Nat) (e : Nat) (hrep : LinedRep hist0 Cn B E)
    (hcid : cidOf hist0 e < Cn)
    (hset : BitVec.set B (cidOf hist0 e) true = some B2)
    (hinj : ∀ x ∈ E, cidOf hist0 x = cidOf hist0 e → x = e) :
    LinedRep hist0 Cn B2 (E ++ [e]) := by
  obtain ⟨hlen, hBd, hSl, hHa, hGet⟩ := hrep
  refine ⟨(set_length B B2 _ _ hset).trans hlen, Bounded_set B B2 _ _ hBd hset,
    SlackZero_set Cn B B2 _ _ hcid hSl hBd hset,
    BitVec.set_hashInv B _ _ B2 hHa hset, ?_⟩
  intro i hi
  by_cases hieq : i = cidOf hist0 e
  · subst hieq
    rw [get_set_self B B2 _ _ hset]
    simp only [List.mem_append, List.mem_cons, List.not_mem_nil, or_false]
    constructor
    · intro h2e
      exact ⟨e, Or.inr rfl, rfl⟩
    · intro h2e
      trivial
  · rw [get_set_ne B B2 _ i _ hBd hset hieq, hGet i hi]
    constructor
    · rintro ⟨x, hx, hcx⟩
      exact ⟨x, List.mem_append_left _ hx, hcx⟩
    · rintro ⟨x, hx, hcx⟩
      rcases List.mem_append.mp hx with hx2 | hx2
      · exact ⟨x, hx2, hcx⟩
      · rcases List.mem_cons.mp hx2 with hx3 | hx3
        · rw [hx3] at hcx
          exact absurd hcx.symm hieq
        · cases hx3

theorem LinedRep_eq (hist0 : Hist Op Value) (Cn : Nat) (B1 B2 : BitVec)
    (E : List Nat) (h1 : LinedRep hist0 Cn B1 E)
    (h2 : LinedRep hist0 Cn B2 E) : B1 = B2 := by
  obtain ⟨hl1, hb1, hs1, hh1, hg1⟩ := h1
  obtain ⟨hl2, hb2, hs2, hh2, hg2⟩ := h2
  refine bitvec_ext Cn B1 B2 hl1 hl2 hb1 hb2 hs1 hs2 hh1 hh2 ?_
  intro i hi
  obtain ⟨x1, hx1⟩ : ∃ x, BitVec.get B1 i = some x := by
    unfold BitVec.get
    rw [List.getElem?_eq_getElem (by rw [hl1]; omega)]
    exact ⟨_, rfl⟩
  obtain ⟨x2, hx2⟩ : ∃ x, BitVec.get B2 i = some x := by
    unfold BitVec.get
    rw [List.getElem?_eq_getElem (by rw [hl2]; omega)]
    exact ⟨_, rfl⟩
  rw [hx1, hx2]
  have hiff := (hg1 i hi).trans ((hg2 i hi).symm)
  rw [hx1, hx2] at hiff
  cases x1 <;> cases x2
  · rfl
  · exact absurd (hiff.mpr rfl) (by simp)
  · exact absurd (hiff.mp rfl) (by simp)
  · rfl

theorem LinedRep_inj (hist0 : Hist Op Value) (Cn : Nat) (B : BitVec)
    (E1 E2 : List Nat) (h1 : LinedRep hist0 Cn B E1)
    (h2 : LinedRep hist0 Cn B E2) (hg1 : GoodE hist0 Cn E1)
    (hg2 : GoodE hist0 Cn E2)
    (hinj : ∀ x ∈ invokeEids hist0, ∀ y ∈ invokeEids hist0,
      cidOf hist0 x = cidOf hist0 y → x = y) : E1.Perm E2 := by
  rw [List.perm_ext_iff_of_nodup hg1.1 hg2.1]
  intro a
  constructor
  · intro ha
    have hga := (h1.2.2.2.2 (cidOf hist0 a) (hg1.2.2 a ha)).mpr ⟨a, ha, rfl⟩
    obtain ⟨b, hb, hcb⟩ := (h2.2.2.2.2 (cidOf hist0 a) (hg1.2.2 a ha)).mp hga
    have := hinj b (hg2.2.1 b hb) a (hg1.2.1 a ha) hcb
    rw [← this]
    exact hb
  · intro ha
    have hga := (h2.2.2.2.2 (cidOf hist0 a) (hg2.2.2 a ha)).mpr ⟨a, ha, rfl⟩
    obtain ⟨b, hb, hcb⟩ := (h1.2.2.2.2 (cidOf hist0 a) (hg2.2.2 a ha)).mp hga
    have := hinj b (hg1.2.1 b hb) a (hg2.2.1 a ha) hcb
    rw [← this]
    exact hb


theorem WFHist_WFC (hist0 : Hist Op Value) (hWF : WFHist hist0) :
    WFC (len hist0 / 2) hist0 := by
  obtain ⟨hwf, hsort, hlive, hsome, hinvOK, hretU, hperm⟩ := hWF
  have hndIds : (invokeIds hist0).Nodup :=
    hperm.symm.nodup (List.nodup_range _)
  rw [invokeIds_eq_map] at hndIds
  have hEv : EvWF (len hist0 / 2) hist0 := by
    constructor
    · intro i op r cid hev
      have hi := get_from_eid_lt hist0 i _ hev
      obtain ⟨hir, v, hevr⟩ := invokeOK_spec hist0 i op r cid (hinvOK i hi) hev
      refine ⟨?_, hir, v, hevr⟩
      exact List.mem_range.mp
        (hperm.mem_iff.mp (mem_invokeIds hist0 i op r cid hev))
    · intro i1 i2 op1 cid1 op2 cid2 r h1 h2
      exact retUniq_spec hist0 i1 i2 op1 r cid1 op2 cid2
        (hretU i1 (get_from_eid_lt hist0 i1 _ h1) i2
          (get_from_eid_lt hist0 i2 _ h2)) h1 h2
  refine ⟨⟨hwf, hEv, hsort, hlive, ?_⟩, ?_, ?_, ?_⟩
  · intro i hi op r cid hev
    obtain ⟨_, _, v, hevr⟩ := hEv.1 i op r cid hev
    exact hsome r (get_from_eid_lt hist0 r _ hevr) (by rw [hevr]; rfl)
  · intro x hx
    cases hgx : get_from_eid hist0 x with
    | none => rw [hgx] at hx; cases hx
    | some ev => exact hsome x (get_from_eid_lt hist0 x _ hgx) (by rw [hgx]; rfl)
  · intro x hx
    obtain ⟨op, r, cid, hev⟩ := (isInvoke_iff hist0 x).mp
      ((mem_invokeEids hist0 x).mp hx)
    rw [cidOf_eq hist0 x op r cid hev]
    exact List.mem_range.mp
      (hperm.mem_iff.mp (mem_invokeIds hist0 x op r cid hev))
  · intro x hx y hy hcxy
    exact List.inj_on_of_nodup_map hndIds hx hy hcxy

theorem live_lt_next (h : Hist Op Value) (lv : List Nat) (a b : Nat)
    (hg : goodChain h lv) (hsort : lv.Sorted (· < ·)) (ha : a ∈ lv)
    (hne : next_eid h a = some (some b)) :
    ∀ x ∈ lv, x < b → x ≤ a := by
  obtain ⟨hc, hnd, hval, hpos⟩ := hg
  have haval : a < h.events.length := (hval a ha).2
  obtain ⟨nd, hnda⟩ : ∃ nd, h.events[a]? = some nd :=
    ⟨_, List.getElem?_eq_getElem haval⟩
  have hnext : nextOf h a = b ∧ b ≠ 0 := by
    unfold next_eid at hne
    rw [hnda, Option.map_some'] at hne
    by_cases h0 : nd.next ≠ END
    · rw [if_pos h0] at hne
      cases Option.some.inj hne
      rw [END_eq] at h0
      exact ⟨nextOf_eq h hnda, h0⟩
    · rw [if_neg h0] at hne
      cases hne
  obtain ⟨l1, l2, hsplit⟩ := List.append_of_mem ha
  subst hsplit
  rw [chainOK_append_iff] at hc
  intro x hx hxb
  cases l2 with
  | nil =>
    exfalso
    have hc2 := hc.2
    rw [chainOK_nil_iff] at hc2
    rw [hc2.1] at hnext
    exact hnext.2 hnext.1.symm
  | cons y l2t =>
    have hc2 := hc.2
    rw [chainOK_cons_iff] at hc2
    have hby : b = y := by rw [← hnext.1, hc2.1]
    subst hby
    have hsp : List.Pairwise (fun u v => u < v) (l1 ++ a :: b :: l2t) := hsort
    rw [List.pairwise_append] at hsp
    rcases List.mem_append.mp hx with hx1 | hx2
    · have hxa : x < a := hsp.2.2 x hx1 a (by simp)
      omega
    · rcases List.mem_cons.mp hx2 with hxa | hx3
      · omega
      · rcases List.mem_cons.mp hx3 with hxy | hx4
        · omega
        · exfalso
          have hs2 := hsp.2.1
          rw [List.pairwise_cons] at hs2
          have hs3 := hs2.2
          rw [List.pairwise_cons] at hs3
          have := hs3.1 x hx4
          omega

theorem CFrames_runSeq (initialM : S) (applyM : S → Op → S × Value)
    (hist0 : Hist Op Value) (Cn : Nat) (cache : List (BitVec × S)) :
    ∀ calls (hist : Hist Op Value) lined s,
      CFrames initialM applyM hist0 Cn cache hist lined calls s →
      runSeq applyM hist0 initialM (pathEids calls) = some s := by
  intro calls
  induction calls with
  | nil =>
    intro hist lined s h
    rw [pathEids_nil, h.2.2]
    rfl
  | cons p rest ih =>
    intro hist lined s h
    obtain ⟨e, sp⟩ := p
    obtain ⟨histp, linedp, h1, h2, h3, h4, h5, h6, h7, h8, h9, h10⟩ := h
    rw [pathEids_cons, runSeq_append, ih histp linedp sp h10, Option.some_bind]
    exact h4

theorem CFrames_GoodE (initialM : S) (applyM : S → Op → S × Value)
    (hist0 : Hist Op Value) (Cn : Nat) (cache : List (BitVec × S))
    (hW : WFC Cn hist0) :
    ∀ calls (hist : Hist Op Value) lined s,
      CFrames initialM applyM hist0 Cn cache hist lined calls s →
      GoodE hist0 Cn (pathEids calls) := by
  intro calls
  induction calls with
  | nil =>
    intro hist lined s _
    rw [pathEids_nil]
    exact ⟨List.nodup_nil, by simp, by simp⟩
  | cons p rest ih =>
    intro hist lined s h
    obtain ⟨e, sp⟩ := p
    obtain ⟨histp, linedp, h1, h2, h3, h4, h5, h6, h7, h8, h9, h10⟩ := h
    have hg := ih histp linedp sp h10
    have hemem : e ∈ invokeEids hist0 := (mem_invokeEids hist0 e).mpr h7
    have heA : e ∈ liveAfter hist0 (pathEids rest) := by
      rw [← h9]
      exact h6
    have hnotin : ∀ e2 ∈ pathEids rest, e ≠ e2 := by
      intro e2 he2
      exact (((mem_liveAfter hist0 (pathEids rest) e).mp heA).2 e2 he2).1
    rw [pathEids_cons]
    refine ⟨?_, ?_, ?_⟩
    · rw [List.nodup_append]
      refine ⟨hg.1, List.nodup_singleton e, ?_⟩
      intro x hx hxe
      rw [List.mem_singleton] at hxe
      subst hxe
      exact (hnotin x hx) rfl
    · intro x hx
      rcases List.mem_append.mp hx with hx1 | hx2
      · exact hg.2.1 x hx1
      · rw [List.mem_singleton] at hx2
        rw [hx2]
        exact hemem
    · intro x hx
      rcases List.mem_append.mp hx with hx1 | hx2
      · exact hg.2.2 x hx1
      · rw [List.mem_singleton] at hx2
        rw [hx2]
        exact hW.2.2.1 e hemem

theorem liveAfter_append_mem (h : Hist Op Value) (L1 L2 : List Nat) (x : Nat)
    (hx : x ∈ liveAfter h (L1 ++ L2)) : x ∈ liveAfter h L1 := by
  rw [mem_liveAfter] at hx
  rw [mem_liveAfter]
  exact ⟨hx.1, fun e he => hx.2 e (List.mem_append_left _ he)⟩

/-- Extending a precedence respecting lift order by a fresh live invoke at
the scan frontier keeps it precedence respecting, with the matching cross
fact for the remaining live returns. -/
theorem cross_snoc (hist0 : Hist Op Value) (Cn : Nat) (hW : WFC Cn hist0)
    (L : List Nat) (e : Nat)
    (hpair : L.Pairwise (fun a b => ¬ RTprec hist0 b a))
    (hcross : ∀ a ∈ L, ∀ x ∈ liveAfter hist0 L, isRet hist0 x = true → a < x)
    (hLgood : ∀ a ∈ L, a ∈ invokeEids hist0)
    (he : e ∈ liveAfter hist0 L) (hie : isInvoke hist0 e = true)
    (hscan : ∀ x ∈ liveAfter hist0 L, x < e → isInvoke hist0 x = true) :
    (L ++ [e]).Pairwise (fun a b => ¬ RTprec hist0 b a) ∧
    (∀ a ∈ L ++ [e], ∀ x ∈ liveAfter hist0 (L ++ [e]),
      isRet hist0 x = true → a < x) := by
  obtain ⟨op, r, cid, hev⟩ := (isInvoke_iff hist0 e).mp hie
  have hrO : retOf hist0 e = r := retOf_eq hist0 e op r cid hev
  obtain ⟨hcid, hltr, v, hevr⟩ := hW.1.2.1.1 e op r cid hev
  have hrRet : isRet hist0 r = true := (isRet_iff hist0 r).mpr ⟨v, hevr⟩
  have hrA : r ∈ liveAfter hist0 L := by
    rw [mem_liveAfter]
    refine ⟨hW.2.1 r (by rw [hevr]; rfl), ?_⟩
    intro e2 he2
    obtain ⟨op2, r2, cid2, hev2⟩ := (isInvoke_iff hist0 e2).mp
      ((mem_invokeEids hist0 e2).mp (hLgood e2 he2))
    constructor
    · intro hc
      subst hc
      exact not_isInvoke_isRet hist0 r
        ((mem_invokeEids hist0 r).mp (hLgood r he2)) hrRet
    · intro hc
      rw [retOf_eq hist0 e2 op2 r2 cid2 hev2] at hc
      subst hc
      have hee2 : e = e2 := hW.1.2.1.2 e e2 op cid op2 cid2 r hev hev2
      subst hee2
      exact (((mem_liveAfter hist0 L e).mp he).2 e he2).1 rfl
  constructor
  · rw [List.pairwise_append]
    refine ⟨hpair, List.pairwise_singleton _ _, ?_⟩
    intro a ha b hb
    rw [List.mem_singleton] at hb
    subst hb
    rintro ⟨_, hlt2⟩
    rw [hrO] at hlt2
    exact absurd hlt2 (by have := hcross a ha r hrA hrRet; omega)
  · intro a ha x hx hxret
    have hxA : x ∈ liveAfter hist0 L := liveAfter_append_mem hist0 L [e] x hx
    rcases List.mem_append.mp ha with ha1 | ha2
    · exact hcross a ha1 x hxA hxret
    · rw [List.mem_singleton] at ha2
      subst ha2
      have hnlt : ¬ (x < a) := by
        intro hlt2
        exact not_isInvoke_isRet hist0 x (hscan x hxA hlt2) hxret
      have hne : a ≠ x := by
        intro hc
        subst hc
        exact not_isInvoke_isRet hist0 a hie hxret
      omega

theorem CFrames_cross (initialM : S) (applyM : S → Op → S × Value)
    (hist0 : Hist Op Value) (Cn : Nat) (cache : List (BitVec × S))
    (hW : WFC Cn hist0) :
    ∀ calls (hist : Hist Op Value) lined s,
      CFrames initialM applyM hist0 Cn cache hist lined calls s →
      (pathEids calls).Pairwise (fun a b => ¬ RTprec hist0 b a) ∧
      (∀ a ∈ pathEids calls, ∀ x ∈ liveAfter hist0 (pathEids calls),
        isRet hist0 x = true → a < x) := by
  intro calls
  induction calls with
  | nil =>
    intro hist lined s _
    rw [pathEids_nil]
    exact ⟨List.Pairwise.nil, by simp⟩
  | cons p rest ih =>
    intro hist lined s h
    obtain ⟨e, sp⟩ := p
    obtain ⟨histp, linedp, h1, h2, h3, h4, h5, h6, h7, h8, h9, h10⟩ := h
    obtain ⟨hpair, hcross⟩ := ih histp linedp sp h10
    have hLgood : ∀ a ∈ pathEids rest, a ∈ invokeEids hist0 :=
      (CFrames_GoodE initialM applyM hist0 Cn cache hW rest histp linedp sp
        h10).2.1
    have heA : e ∈ liveAfter hist0 (pathEids rest) := by
      rw [← h9]
      exact h6
    have hscan : ∀ x ∈ liveAfter hist0 (pathEids rest), x < e →
        isInvoke hist0 x = true := by
      intro x hx hlt
      refine (h8 x ?_ hlt).1
      rw [h9]
      exact hx
    rw [pathEids_cons]
    exact cross_snoc hist0 Cn hW (pathEids rest) e hpair hcross hLgood heA
      h7 hscan


/-- The key completeness step: when the scan of the whole candidate region
has been exhausted and hits a return, the current configuration cannot be
completed to a linearization - every candidate next call either fails to
replay or leads to an already explored dead configuration. -/
theorem config_dead (initialM : S) (applyM : S → Op → S × Value)
    (hist0 : Hist Op Value) (Cn : Nat) (hW : WFC Cn hist0)
    (hcov : retsCovered hist0) (st : CheckerSt Op Value S)
    (hG : GInv initialM applyM hist0 Cn st)
    (hretE : isRet hist0 st.eid = true) :
    ¬ CanFinish applyM hist0 st.s (pathEids st.calls) := by
  obtain ⟨hCI, hEVS, hLive, hRep, hCF, hScan, hCache⟩ := hG
  rintro ⟨ord, hperm, hpair, hrun⟩
  have hGE : GoodE hist0 Cn (pathEids st.calls) :=
    CFrames_GoodE initialM applyM hist0 Cn st.cache hW st.calls st.hist
      st.lined st.s hCF
  have hmem : st.eid ∈ liveList st.hist := hCI.2.1
  have hmemA : st.eid ∈ liveAfter hist0 (pathEids st.calls) := by
    rw [← hLive]
    exact hmem
  have hmem0 : st.eid ∈ liveList hist0 :=
    ((mem_liveAfter hist0 (pathEids st.calls) st.eid).mp hmemA).1
  obtain ⟨c, hcInv, hcret⟩ := hcov st.eid hmem0 hretE
  have hcL : c ∉ pathEids st.calls := by
    intro hcin
    exact (((mem_liveAfter hist0 (pathEids st.calls) st.eid).mp hmemA).2 c
      hcin).2 hcret.symm
  have hcord : c ∈ ord := by
    have hco : c ∈ pathEids st.calls ++ ord := hperm.mem_iff.mpr hcInv
    rcases List.mem_append.mp hco with hcc | hcc
    · exact absurd hcc hcL
    · exact hcc
  cases hord : ord with
  | nil =>
    rw [hord] at hcord
    cases hcord
  | cons c1 tail =>
  rw [hord] at hperm hpair hrun hcord
  have hc1inv : c1 ∈ invokeEids hist0 :=
    hperm.mem_iff.mp (by simp)
  obtain ⟨op1, r1, cid1, hev1⟩ := (isInvoke_iff hist0 c1).mp
    ((mem_invokeEids hist0 c1).mp hc1inv)
  obtain ⟨hcid1, hlt1, v1, hevr1⟩ := hW.1.2.1.1 c1 op1 r1 cid1 hev1
  have hndfull : (pathEids st.calls ++ c1 :: tail).Nodup :=
    hperm.symm.nodup (invokeEids_nodup hist0)
  have hc1L : c1 ∉ pathEids st.calls := by
    intro hc2
    rw [List.nodup_append] at hndfull
    exact hndfull.2.2 hc2 (by simp)
  have hc1lt : c1 < st.eid := by
    by_cases hcc : c1 = c
    · subst hcc
      have hco : retOf hist0 c1 = st.eid := hcret
      rw [retOf_eq hist0 c1 op1 r1 cid1 hev1] at hco
      omega
    · have hctail : c ∈ tail := by
        rcases List.mem_cons.mp hcord with hcc2 | hcc2
        · exact absurd hcc2.symm hcc
        · exact hcc2
      have hnp : ¬ RTprec hist0 c c1 := (List.pairwise_cons.mp hpair).1 c hctail
      have hle : ¬ (st.eid < c1) := by
        intro hlt2
        exact hnp ⟨(mem_invokeEids hist0 c).mp hcInv, by rw [hcret]; exact hlt2⟩
      have hne : c1 ≠ st.eid := by
        intro hc2
        exact not_isInvoke_isRet hist0 c1
          ((mem_invokeEids hist0 c1).mp hc1inv) (by rw [hc2]; exact hretE)
      omega
  have hc1live : c1 ∈ liveAfter hist0 (pathEids st.calls) := by
    rw [mem_liveAfter]
    refine ⟨hW.2.1 c1 (by rw [hev1]; rfl), ?_⟩
    intro e2 he2
    obtain ⟨op2, r2, cid2, hev2⟩ := (isInvoke_iff hist0 e2).mp
      ((mem_invokeEids hist0 e2).mp (hGE.2.1 e2 he2))
    constructor
    · intro hc2
      rw [hc2] at hc1L
      exact hc1L he2
    · intro hc2
      rw [retOf_eq hist0 e2 op2 r2 cid2 hev2] at hc2
      rw [hc2] at hev1
      obtain ⟨_, _, v2, hevr2⟩ := hW.1.2.1.1 e2 op2 r2 cid2 hev2
      rw [hevr2] at hev1
      cases hev1
  have hc1liveH : c1 ∈ liveList st.hist := by
    rw [hLive]
    exact hc1live
  have htr := (hScan c1 hc1liveH hc1lt).2
  simp only [runSeq, hev1, hevr1] at hrun
  by_cases hv : (applyM st.s op1).2 = v1
  · rcases htr op1 r1 cid1 hev1 v1 hevr1 with hl | ⟨B2, hB2, hmemC⟩
    · exact hl hv
    · obtain ⟨E2, hgE2, hrep2, hdp⟩ := hCache (B2, (applyM st.s op1).1) hmemC
      have hcidc1 : cidOf hist0 c1 = cid1 := cidOf_eq hist0 c1 op1 r1 cid1 hev1
      have hrepN : LinedRep hist0 Cn B2 (pathEids st.calls ++ [c1]) := by
        refine LinedRep_set_true hist0 Cn st.lined B2 (pathEids st.calls) c1
          hRep (hW.2.2.1 c1 hc1inv) ?_ ?_
        · rw [hcidc1]
          exact hB2
        · intro x hx hcx
          exact hW.2.2.2 x (hGE.2.1 x hx) c1 hc1inv hcx
      have hgN : GoodE hist0 Cn (pathEids st.calls ++ [c1]) := by
        refine ⟨?_, ?_, ?_⟩
        · rw [List.nodup_append]
          refine ⟨hGE.1, List.nodup_singleton c1, ?_⟩
          intro x hx hxe
          rw [List.mem_singleton] at hxe
          subst hxe
          exact hc1L hx
        · intro x hx
          rcases List.mem_append.mp hx with hx1 | hx2
          · exact hGE.2.1 x hx1
          · rw [List.mem_singleton] at hx2
            rw [hx2]
            exact hc1inv
        · intro x hx
          rcases List.mem_append.mp hx with hx1 | hx2
          · exact hGE.2.2 x hx1
          · rw [List.mem_singleton] at hx2
            rw [hx2]
            exact hW.2.2.1 c1 hc1inv
      have hpermE : E2.Perm (pathEids st.calls ++ [c1]) :=
        LinedRep_inj hist0 Cn B2 E2 (pathEids st.calls ++ [c1]) hrep2 hrepN
          hgE2 hgN hW.2.2.2
      rcases hdp with hdead | hpath
      · apply hdead
        apply CanFinish_perm applyM hist0 _ (pathEids st.calls ++ [c1]) E2
          hpermE.symm
        refine ⟨tail, ?_, (List.pairwise_cons.mp hpair).2, ?_⟩
        · rw [List.append_assoc]
          exact hperm
        · rw [if_pos hv] at hrun
          exact hrun
      · have hlen1 := IsPath_length st.calls st.s E2 _ hpath
        have hlen2 : E2.length = (pathEids st.calls).length + 1 := by
          rw [hpermE.length_eq]
          simp
        rw [pathEids_length] at hlen2
        omega
  · rw [if_neg hv] at hrun
    cases hrun


theorem cacheInsert_true_not_mem (c : List (BitVec × S)) (k : BitVec × S)
    (h : (cacheInsert c k).2 = true) : k ∉ c := by
  intro hk
  unfold cacheInsert at h
  rw [if_pos hk] at h
  cases h

theorem GoodE_snoc (hist0 : Hist Op Value) (Cn : Nat) (L : List Nat) (e : Nat)
    (hGE : GoodE hist0 Cn L) (he : e ∈ invokeEids hist0)
    (hcid : cidOf hist0 e < Cn) (hfresh : ∀ e2 ∈ L, e ≠ e2) :
    GoodE hist0 Cn (L ++ [e]) := by
  refine ⟨?_, ?_, ?_⟩
  · rw [List.nodup_append]
    refine ⟨hGE.1, List.nodup_singleton e, ?_⟩
    intro x hx hxe
    rw [List.mem_singleton] at hxe
    subst hxe
    exact (hfresh x hx) rfl
  · intro x hx
    rcases List.mem_append.mp hx with hx1 | hx2
    · exact hGE.2.1 x hx1
    · rw [List.mem_singleton] at hx2
      rw [hx2]
      exact he
  · intro x hx
    rcases List.mem_append.mp hx with hx1 | hx2
    · exact hGE.2.2 x hx1
    · rw [List.mem_singleton] at hx2
      rw [hx2]
      exact hcid

theorem LinedRep_set_false (hist0 : Hist Op Value) (Cn : Nat) (B B2 : BitVec)
    (E : List Nat) (e : Nat) (hrep : LinedRep hist0 Cn B (E ++ [e]))
    (hcid : cidOf hist0 e < Cn)
    (hset : BitVec.set B (cidOf hist0 e) false = some B2)
    (hinj : ∀ x ∈ E, cidOf hist0 x ≠ cidOf hist0 e) :
    LinedRep hist0 Cn B2 E := by
  obtain ⟨hlen, hBd, hSl, hHa, hGet⟩ := hrep
  refine ⟨(set_length B B2 _ _ hset).trans hlen, Bounded_set B B2 _ _ hBd hset,
    SlackZero_set Cn B B2 _ _ hcid hSl hBd hset,
    BitVec.set_hashInv B _ _ B2 hHa hset, ?_⟩
  intro i hi
  by_cases hieq : i = cidOf hist0 e
  · subst hieq
    rw [get_set_self B B2 _ _ hset]
    constructor
    · intro hc
      cases hc
    · rintro ⟨x, hx, hcx⟩
      exact absurd hcx (hinj x hx)
  · rw [get_set_ne B B2 _ i _ hBd hset hieq, hGet i hi]
    constructor
    · rintro ⟨x, hx, hcx⟩
      rcases List.mem_append.mp hx with hx1 | hx2
      · exact ⟨x, hx1, hcx⟩
      · rw [List.mem_singleton] at hx2
        subst hx2
        exact absurd hcx.symm hieq
    · rintro ⟨x, hx, hcx⟩
      exact ⟨x, List.mem_append_left _ hx, hcx⟩


/-- One loop iteration preserves the functional correctness invariant, and
when it terminates the loop, the boolean answer is correct. -/
theorem checkStep_GInv (initialM : S) (applyM : S → Op → S × Value)
    (hist0 : Hist Op Value) (Cn : Nat) (hW : WFC Cn hist0)
    (hcov : retsCovered hist0) (st : CheckerSt Op Value S)
    (hG : GInv initialM applyM hist0 Cn st) :
    (∀ st2, checkStep applyM st = StepRes.next st2 →
      GInv initialM applyM hist0 Cn st2) ∧
    (∀ b, checkStep applyM st = StepRes.done b →
      (b = true ↔ Linearizable initialM applyM hist0)) := by
  have hGfull := hG
  obtain ⟨hCI, hEVS, hLive, hRep, hCF, hScan, hCache⟩ := hG
  have hnp := checkStep_no_panic Cn applyM st hCI
  have hGE : GoodE hist0 Cn (pathEids st.calls) :=
    CFrames_GoodE initialM applyM hist0 Cn st.cache hW st.calls st.hist
      st.lined st.s hCF
  have hget := hCI.1.2.2.2.1 st.eid hCI.2.1
  have hndL0 : (liveList hist0).Nodup := by
    have hgood0 : goodChain hist0 (liveList hist0) := hW.1.1
    exact hgood0.2.1
  cases hgev : get_from_eid st.hist st.eid with
  | none => rw [hgev] at hget; cases hget
  | some ev =>
    cases ev with
    | invoke op r cid =>
      obtain ⟨hcid, hltr, v, hevr⟩ := hCI.1.2.1.1 st.eid op r cid hgev
      obtain ⟨ne1, hne1, hne1mem⟩ :=
        HistOK_next Cn st.hist st.eid op r cid hCI.1 hCI.2.1 hgev
      have happ := apply_eq applyM st.hist st.s st.eid op r cid v hgev hevr
      obtain ⟨lined2, hset, hslen⟩ := set_some st.lined cid true
        (by rw [hCI.2.2.1]; exact div64_lt cid Cn hcid)
      have hgev0 : get_from_eid hist0 st.eid =
          some (Event.invoke op r cid) := by
        rw [← hEVS]
        exact hgev
      have hevr0 : get_from_eid hist0 r = some (Event.ret v) := by
        rw [← hEVS]
        exact hevr
      have hie0 : isInvoke hist0 st.eid = true :=
        (isInvoke_iff hist0 st.eid).mpr ⟨op, r, cid, hgev0⟩
      have hcid0 : cidOf hist0 st.eid = cid :=
        cidOf_eq hist0 st.eid op r cid hgev0
      have hrt0 : retOf hist0 st.eid = r := retOf_eq hist0 st.eid op r cid hgev0
      have hmemA : st.eid ∈ liveAfter hist0 (pathEids st.calls) := by
        rw [← hLive]
        exact hCI.2.1
      have heInv : st.eid ∈ invokeEids hist0 :=
        (mem_invokeEids hist0 st.eid).mpr hie0
      have hxle : ∀ x ∈ liveList st.hist, x < ne1 → x ≤ st.eid :=
        live_lt_next st.hist (liveList st.hist) st.eid ne1 hCI.1.1
          hCI.1.2.2.1 hCI.2.1 hne1
      cases hlinb : decide (v = (applyM st.s op).2) with
      | false =>
        have hstep : checkStep applyM st =
            StepRes.next ⟨st.hist, st.lined, st.calls, st.cache, st.s, ne1⟩ := by
          unfold checkStep
          rw [hgev]
          simp only [hne1, happ, hlinb]
          simp
        refine ⟨?_, ?_⟩
        · intro st2 h2
          rw [hstep] at h2
          cases h2
          refine ⟨hnp.2 _ hstep, hEVS, hLive, hRep, hCF, ?_, hCache⟩
          intro x hx hlt
          rcases Nat.lt_or_ge x st.eid with hlt2 | hge2
          · exact hScan x hx hlt2
          · have hxeq : x = st.eid := by
              have := hxle x hx hlt
              omega
            subst hxeq
            refine ⟨hie0, ?_⟩
            intro op3 r3 cid3 hev3 v3 hevr3
            rw [hgev0] at hev3
            cases hev3
            rw [hevr0] at hevr3
            cases hevr3
            left
            intro hc
            rw [← hc] at hlinb
            simp at hlinb
        · intro b hb
          rw [hstep] at hb
          cases hb
      | true =>
        obtain ⟨hist2, hlift, hOK2, hlv2, hunl⟩ :=
          HistOK_lift Cn st.hist st.eid op r cid hCI.1 hCI.2.1 hgev
        have hveq : (applyM st.s op).2 = v := (of_decide_eq_true hlinb).symm
        have hstepRun : runSeq applyM hist0 st.s [st.eid] =
            some ((applyM st.s op).1) := by
          simp only [runSeq, hgev0, hevr0]
          rw [if_pos hveq]
        cases hcib : (cacheInsert st.cache (lined2, (applyM st.s op).1)).2 with
        | false =>
          have hkmem : (lined2, (applyM st.s op).1) ∈ st.cache :=
            cacheInsert_false_mem _ _ hcib
          have hc1 : (cacheInsert st.cache (lined2, (applyM st.s op).1)).1 =
              st.cache := cacheInsert_fst_of_mem _ _ hkmem
          have hstep : checkStep applyM st = StepRes.next
              ⟨st.hist, st.lined, st.calls,
                (cacheInsert st.cache (lined2, (applyM st.s op).1)).1,
                st.s, ne1⟩ := by
            unfold checkStep
            rw [hgev]
            simp only [hne1, happ, hlinb, hset, hcib]
            simp
          refine ⟨?_, ?_⟩
          · intro st2 h2
            rw [hstep] at h2
            cases h2
            refine ⟨hnp.2 _ hstep, hEVS, hLive, ?_, ?_, ?_, ?_⟩
            · rw [hc1] at *
              exact hRep
            · rw [hc1]
              exact hCF
            · intro x hx hlt
              rcases Nat.lt_or_ge x st.eid with hlt2 | hge2
              · have hsc := hScan x hx hlt2
                refine ⟨hsc.1, ?_⟩
                rw [hc1]
                exact hsc.2
              · have hxeq : x = st.eid := by
                  have := hxle x hx hlt
                  omega
                subst hxeq
                refine ⟨hie0, ?_⟩
                intro op3 r3 cid3 hev3 v3 hevr3
                rw [hgev0] at hev3
                cases hev3
                rw [hevr0] at hevr3
                cases hevr3
                right
                refine ⟨lined2, hset, ?_⟩
                rw [hc1]
                exact hkmem
            · intro p hp
              rw [hc1] at hp
              obtain ⟨E, hgE, hrE, hdp⟩ := hCache p hp
              exact ⟨E, hgE, hrE, hdp⟩
          · intro b hb
            rw [hstep] at hb
            cases hb
        | true =>
          have hknot : (lined2, (applyM st.s op).1) ∉ st.cache :=
            cacheInsert_true_not_mem _ _ hcib
          have hc1 : (cacheInsert st.cache (lined2, (applyM st.s op).1)).1 =
              (lined2, (applyM st.s op).1) :: st.cache :=
            cacheInsert_fst_of_not_mem _ _ hknot
          have hsub : ∀ p, p ∈ st.cache →
              p ∈ (cacheInsert st.cache (lined2, (applyM st.s op).1)).1 := by
            intro p hp
            rw [hc1]
            exact List.mem_cons_of_mem _ hp
          have hrepN : LinedRep hist0 Cn lined2
              (pathEids st.calls ++ [st.eid]) := by
            refine LinedRep_set_true hist0 Cn st.lined lined2
              (pathEids st.calls) st.eid hRep (hW.2.2.1 st.eid heInv) ?_ ?_
            · rw [hcid0]
              exact hset
            · intro x hx hcx
              exact hW.2.2.2 x (hGE.2.1 x hx) st.eid heInv hcx
          have hLive2 : liveList hist2 =
              liveAfter hist0 (pathEids st.calls ++ [st.eid]) := by
            rw [hlv2, hLive, ← hrt0]
            exact liveAfter_snoc hist0 (pathEids st.calls) st.eid hndL0
          have hEVS2 : ∀ j, get_from_eid hist2 j = get_from_eid hist0 j :=
            fun j => (lift_ev st.hist hist2 st.eid hlift j).trans (hEVS j)
          have hfreshE : ∀ e2 ∈ pathEids st.calls, st.eid ≠ e2 := by
            intro e2 he2
            exact (((mem_liveAfter hist0 (pathEids st.calls) st.eid).mp
              hmemA).2 e2 he2).1
          have hgN : GoodE hist0 Cn (pathEids st.calls ++ [st.eid]) :=
            GoodE_snoc hist0 Cn (pathEids st.calls) st.eid hGE heInv
              (hW.2.2.1 st.eid heInv) hfreshE
          cases hl2c : ((liveList st.hist).erase st.eid).erase r with
          | nil =>
            have hg2nil : goodChain hist2 [] := by
              have hx : goodChain hist2 (liveList hist2) := hOK2.1
              rw [hlv2, hl2c] at hx
              exact hx
            have hfe : first_eid hist2 = some none := first_eid_nil hist2 hg2nil
            have hstep : checkStep applyM st = StepRes.done true := by
              unfold checkStep
              rw [hgev]
              simp only [hne1, happ, hlinb, hset, hcib, hlift, hfe]
              simp
            refine ⟨?_, ?_⟩
            · intro st2 h2
              rw [hstep] at h2
              cases h2
            · intro b hb
              rw [hstep] at hb
              cases hb
              constructor
              · intro _
                have hLAnil : liveAfter hist0
                    (pathEids st.calls ++ [st.eid]) = [] := by
                  rw [← hLive2, hlv2, hl2c]
                have hpermF : (pathEids st.calls ++ [st.eid]).Perm
                    (invokeEids hist0) := by
                  rw [List.perm_ext_iff_of_nodup hgN.1 (invokeEids_nodup hist0)]
                  intro a
                  constructor
                  · intro ha
                    rcases List.mem_append.mp ha with ha1 | ha2
                    · exact hGE.2.1 a ha1
                    · rw [List.mem_singleton] at ha2
                      rw [ha2]
                      exact heInv
                  · intro ha
                    by_contra hna
                    obtain ⟨opa, ra, cida, heva⟩ := (isInvoke_iff hist0 a).mp
                      ((mem_invokeEids hist0 a).mp ha)
                    have haA : a ∈ liveAfter hist0
                        (pathEids st.calls ++ [st.eid]) := by
                      rw [mem_liveAfter]
                      refine ⟨hW.2.1 a (by rw [heva]; rfl), ?_⟩
                      intro e2 he2
                      obtain ⟨op2, r2, cid2, hev2⟩ :=
                        (isInvoke_iff hist0 e2).mp
                          ((mem_invokeEids hist0 e2).mp (hgN.2.1 e2 he2))
                      constructor
                      · intro hc
                        rw [hc] at hna
                        exact hna he2
                      · intro hc
                        rw [retOf_eq hist0 e2 op2 r2 cid2 hev2] at hc
                        rw [hc] at heva
                        obtain ⟨_, _, v2, hevr2⟩ :=
                          hW.1.2.1.1 e2 op2 r2 cid2 hev2
                        rw [hevr2] at heva
                        cases heva
                    rw [hLAnil] at haA
                    cases haA
                obtain ⟨hpairL, hcrossL⟩ := CFrames_cross initialM applyM
                  hist0 Cn st.cache hW st.calls st.hist st.lined st.s hCF
                have hpairF := (cross_snoc hist0 Cn hW (pathEids st.calls)
                  st.eid hpairL hcrossL hGE.2.1 hmemA hie0
                  (fun x hx hlt => (hScan x (by rw [hLive]; exact hx) hlt).1)).1
                have hrunL : runSeq applyM hist0 initialM
                    (pathEids st.calls) = some st.s :=
                  CFrames_runSeq initialM applyM hist0 Cn st.cache st.calls
                    st.hist st.lined st.s hCF
                have hrunF : (runSeq applyM hist0 initialM
                    (pathEids st.calls ++ [st.eid])).isSome = true := by
                  rw [runSeq_append, hrunL, Option.some_bind, hstepRun]
                  rfl
                exact ⟨pathEids st.calls ++ [st.eid], hpermF, hpairF, hrunF⟩
              · intro _
                rfl
          | cons y rest2 =>
            have hg2 : goodChain hist2 (y :: rest2) := by
              have hx : goodChain hist2 (liveList hist2) := hOK2.1
              rw [hlv2, hl2c] at hx
              exact hx
            have hfe : first_eid hist2 = some (some y) :=
              first_eid_cons hist2 y rest2 hg2
            have hstep : checkStep applyM st = StepRes.next
                ⟨hist2, lined2, (st.eid, st.s) :: st.calls,
                  (cacheInsert st.cache (lined2, (applyM st.s op).1)).1,
                  (applyM st.s op).1, y⟩ := by
              unfold checkStep
              rw [hgev]
              simp only [hne1, happ, hlinb, hset, hcib, hlift, hfe]
              simp
            refine ⟨?_, ?_⟩
            · intro st2 h2
              rw [hstep] at h2
              cases h2
              refine ⟨hnp.2 _ hstep, hEVS2, ?_, ?_, ?_, ?_, ?_⟩
              · rw [pathEids_cons]
                exact hLive2
              · rw [pathEids_cons]
                exact hrepN
              · refine ⟨st.hist, st.lined, hunl, ?_, hRep, hstepRun, ?_,
                  hCI.2.1, hie0, ?_, hLive,
                  CFrames_mono initialM applyM hist0 Cn st.cache _ hsub
                    st.calls st.hist st.lined st.s hCF⟩
                · rw [hcid0]
                  exact hset
                · rw [hc1]
                  exact List.mem_cons_self _ _
                · intro x hx hlt
                  have hsc := hScan x hx hlt
                  exact ⟨hsc.1, Tried_mono applyM hist0 st.s st.lined
                    st.cache _ x hsub hsc.2⟩
              · intro x hx hlt
                exfalso
                have hlty : x < y := hlt
                rw [hlv2, hl2c] at hx
                have hsort2 : (y :: rest2).Sorted (· < ·) := by
                  have hx2 := hOK2.2.2.1
                  rw [hlv2, hl2c] at hx2
                  exact hx2
                rcases List.mem_cons.mp hx with hxy | hxr
                · omega
                · have := (List.pairwise_cons.mp hsort2).1 x hxr
                  omega
              · intro p hp
                rw [hc1] at hp
                rcases List.mem_cons.mp hp with hpk | hpold
                · subst hpk
                  refine ⟨pathEids st.calls ++ [st.eid], hgN, hrepN, ?_⟩
                  right
                  left
                  refine ⟨?_, rfl⟩
                  rw [pathEids_cons]
                · obtain ⟨E, hgE, hrE, hdp⟩ := hCache p hpold
                  refine ⟨E, hgE, hrE, ?_⟩
                  rcases hdp with hd | hp2
                  · exact Or.inl hd
                  · right
                    right
                    exact hp2
            · intro b hb
              rw [hstep] at hb
              cases hb
    | ret v0 =>
      have hret0 : isRet hist0 st.eid = true := by
        refine (isRet_iff hist0 st.eid).mpr ⟨v0, ?_⟩
        rw [← hEVS]
        exact hgev
      have hdead := config_dead initialM applyM hist0 Cn hW hcov st hGfull hret0
      rcases hcalls : st.calls with _ | ⟨⟨eid2, sp⟩, rest⟩
      · have hstep : checkStep applyM st = StepRes.done false := by
          unfold checkStep
          rw [hgev]
          simp only [hcalls]
        refine ⟨?_, ?_⟩
        · intro st2 h2
          rw [hstep] at h2
          cases h2
        · intro b hb
          rw [hstep] at hb
          cases hb
          constructor
          · intro hc
            cases hc
          · intro hLin
            exfalso
            rw [hcalls] at hCF
            have hsi : st.s = initialM := hCF.2.2
            apply hdead
            rw [hcalls, pathEids_nil, hsi]
            exact (Linearizable_iff_CanFinish initialM applyM hist0).mp hLin
      · rw [hcalls] at hCF
        obtain ⟨histp, linedp, hunl2, hsetp, hrepp, hrunp, hcachep, hmemp,
          hiep, hscanp, hlivep, hCFp⟩ := hCF
        obtain ⟨op2, r2, cid2, hev2⟩ := (isInvoke_iff hist0 eid2).mp hiep
        have hcid02 : cidOf hist0 eid2 = cid2 :=
          cidOf_eq hist0 eid2 op2 r2 cid2 hev2
        have hevst : get_from_eid st.hist eid2 =
            some (Event.invoke op2 r2 cid2) := by
          rw [hEVS]
          exact hev2
        have hgc : get_call_id st.hist eid2 = some cid2 := by
          unfold get_call_id
          rw [hevst]
          rfl
        obtain ⟨hcid2, hltr2, v2, hevr2⟩ := hW.1.2.1.1 eid2 op2 r2 cid2 hev2
        obtain ⟨lined2b, hset2, hslen2⟩ := set_some st.lined cid2 false
          (by rw [hCI.2.2.1]; exact div64_lt cid2 Cn hcid2)
        have hStack := hCI.2.2.2
        rw [hcalls] at hStack
        obtain ⟨hist2x, hunlx, hOKx, hmemx, hevdatax, hstackx⟩ := hStack
        have hhx : hist2x = histp := Option.some.inj (hunlx.symm.trans hunl2)
        subst hhx
        have hEVSp : ∀ j, get_from_eid hist2x j = get_from_eid hist0 j :=
          fun j => (unlift_ev st.hist hist2x eid2 hunl2 j).trans (hEVS j)
        obtain ⟨ne2, hne2, hne2mem⟩ := HistOK_next Cn hist2x eid2 op2 r2 cid2
          hOKx hmemp (by rw [hEVSp]; exact hev2)
        have hGEr : GoodE hist0 Cn (pathEids rest ++ [eid2]) := by
          have hx := hGE
          rw [hcalls, pathEids_cons] at hx
          exact hx
        have hRepC : LinedRep hist0 Cn st.lined (pathEids rest ++ [eid2]) := by
          have hx := hRep
          rw [hcalls, pathEids_cons] at hx
          exact hx
        have hrepb : LinedRep hist0 Cn lined2b (pathEids rest) := by
          refine LinedRep_set_false hist0 Cn st.lined lined2b (pathEids rest)
            eid2 hRepC (by rw [hcid02]; exact hcid2) ?_ ?_
          · rw [hcid02]
            exact hset2
          · intro x hx hcx
            have hxeq : x = eid2 := hW.2.2.2 x (hGEr.2.1 x
              (List.mem_append_left _ hx)) eid2 (hGEr.2.1 eid2 (by simp)) hcx
            subst hxeq
            have hnd2 := hGEr.1
            rw [List.nodup_append] at hnd2
            exact hnd2.2.2 hx (by simp)
        have hlpb : lined2b = linedp :=
          LinedRep_eq hist0 Cn lined2b linedp (pathEids rest) hrepb hrepp
        have hcond : (applyM sp op2).2 = v2 ∧ (applyM sp op2).1 = st.s := by
          simp only [runSeq, hev2, hevr2] at hrunp
          by_cases hc : (applyM sp op2).2 = v2
          · rw [if_pos hc] at hrunp
            exact ⟨hc, Option.some.inj hrunp⟩
          · rw [if_neg hc] at hrunp
            cases hrunp
        have hstep : checkStep applyM st = StepRes.next
            ⟨hist2x, lined2b, rest, st.cache, sp, ne2⟩ := by
          unfold checkStep
          rw [hgev]
          simp only [hcalls, hgc, hset2, hunl2, hne2]
        refine ⟨?_, ?_⟩
        · intro st2 h2
          rw [hstep] at h2
          cases h2
          refine ⟨hnp.2 _ hstep, hEVSp, hlivep, hrepb, ?_, ?_, ?_⟩
          · rw [hlpb]
            exact hCFp
          · intro x hx hlt
            have hxle2 : x ≤ eid2 := live_lt_next hist2x (liveList hist2x)
              eid2 ne2 hOKx.1 hOKx.2.2.1 hmemp hne2 x hx hlt
            rcases Nat.lt_or_ge x eid2 with hlt2 | hge2
            · have hsc := hscanp x hx hlt2
              refine ⟨hsc.1, ?_⟩
              rw [hlpb]
              exact hsc.2
            · have hxeq : x = eid2 := by omega
              subst hxeq
              refine ⟨hiep, ?_⟩
              intro op3 r3 cid3 hev3 v3 hevr3
              rw [hev2] at hev3
              cases hev3
              rw [hevr2] at hevr3
              cases hevr3
              right
              refine ⟨st.lined, ?_, ?_⟩
              · rw [hlpb, ← hcid02]
                exact hsetp
              · rw [hcond.2]
                exact hcachep
          · intro p hp
            obtain ⟨E, hgE, hrE, hdp⟩ := hCache p hp
            refine ⟨E, hgE, hrE, ?_⟩
            rcases hdp with hd | hpath
            · exact Or.inl hd
            · rw [hcalls] at hpath
              rcases hpath with ⟨hpermE, hpE⟩ | hp2
              · left
                intro hcf
                apply hdead
                rw [hcalls]
                refine CanFinish_perm applyM hist0 st.s E
                  (pathEids ((eid2, sp) :: rest)) hpermE ?_
                rw [← hpE]
                exact hcf
              · exact Or.inr hp2
        · intro b hb
          rw [hstep] at hb
          cases hb


theorem checkRun_GInv (initialM : S) (applyM : S → Op → S × Value)
    (hist0 : Hist Op Value) (Cn : Nat) (hW : WFC Cn hist0)
    (hcov : retsCovered hist0) (fuel : Nat) :
    ∀ st : CheckerSt Op Value S, GInv initialM applyM hist0 Cn st → ∀ b,
      checkRun applyM fuel st = CheckOut.result b →
      (b = true ↔ Linearizable initialM applyM hist0) := by
  induction fuel with
  | zero =>
    intro st _ b hb
    cases hb
  | succ n ih =>
    intro st hG b hb
    obtain ⟨hnext, hdone⟩ := checkStep_GInv initialM applyM hist0 Cn hW hcov
      st hG
    unfold checkRun at hb
    cases hcs : checkStep applyM st with
    | panic =>
      rw [hcs] at hb
      cases hb
    | done b2 =>
      rw [hcs] at hb
      cases hb
      exact hdone b hcs
    | next st2 =>
      rw [hcs] at hb
      exact ih st2 (hnext st2 hcs) b hb


/-- C1: whenever the check_linearizability loop returns a boolean (for any
iteration budget), the answer is true if and only if the history has a
linearization: a total order of all its calls respecting real time
precedence (a call that returned before another was invoked is ordered
first - per-thread program order is the special case of calls of one
thread, whose windows are disjoint) under which the model, started from
the initial state, reproduces every recorded return value. The history is
assumed checker well formed (WFHist) and complete (every live return is
some invoke
 ret_event). -/
theorem c1_check_linearizability_correct (initialM : S)
    (applyM : S → Op → S × Value) (fuel : Nat) (hist0 : Hist Op Value)
    (hWF : WFHist hist0) (hcov : retsCovered hist0) (b : Bool)
    (hrun : check_linearizability initialM applyM fuel hist0 =
      CheckOut.result b) :
    b = true ↔ Linearizable initialM applyM hist0 := by
  have hW : WFC (len hist0 / 2) hist0 := WFHist_WFC hist0 hWF
  have hgood0 : goodChain hist0 (liveList hist0) := hW.1.1
  unfold check_linearizability at hrun
  cases hlv : liveList hist0 with
  | nil =>
    have hfe : first_eid hist0 = some none :=
      first_eid_nil hist0 (by rw [← hlv]; exact hgood0)
    rw [hfe] at hrun
    cases hrun
    constructor
    · intro _
      have hie : invokeEids hist0 = [] := by
        cases hx : invokeEids hist0 with
        | nil => rfl
        | cons a t =>
          exfalso
          have ha : a ∈ invokeEids hist0 := by rw [hx]; simp
          obtain ⟨op, r, cid, hev⟩ := (isInvoke_iff hist0 a).mp
            ((mem_invokeEids hist0 a).mp ha)
          have hlm := hW.2.1 a (by rw [hev]; rfl)
          rw [hlv] at hlm
          cases hlm
      exact ⟨[], by rw [hie], List.Pairwise.nil, rfl⟩
    · intro _
      rfl
  | cons y rest =>
    have hfe : first_eid hist0 = some (some y) :=
      first_eid_cons hist0 y rest (by rw [← hlv]; exact hgood0)
    rw [hfe] at hrun
    have hGinit : GInv initialM applyM hist0 (len hist0 / 2)
        ⟨hist0, BitVec.from_elem false (len hist0 / 2), [], [],
          initialM, y⟩ := by
      refine ⟨⟨hW.1, ?_, ?_, trivial⟩, fun j => rfl, ?_, ?_,
        ⟨rfl, rfl, rfl⟩, ?_, ?_⟩
      · show y ∈ liveList hist0
        rw [hlv]
        simp
      · show (BitVec.from_elem false (len hist0 / 2)).inner.length = _
        unfold BitVec.from_elem
        simp
      · show liveList hist0 = liveAfter hist0 (pathEids [])
        rw [pathEids_nil, liveAfter_nil]
      · show LinedRep hist0 (len hist0 / 2)
          (BitVec.from_elem false (len hist0 / 2)) (pathEids [])
        rw [pathEids_nil]
        exact LinedRep_init hist0 _
      · intro x hx hlt
        exfalso
        have hlty : x < y := hlt
        have hx2 : x ∈ liveList hist0 := hx
        rw [hlv] at hx2
        have hsort2 : (y :: rest).Sorted (· < ·) := by
          have hs := hW.1.2.2.1
          rw [hlv] at hs
          exact hs
        rcases List.mem_cons.mp hx2 with hxy | hxr
        · omega
        · have := (List.pairwise_cons.mp hsort2).1 x hxr
          omega
      · intro p hp
        cases hp
    exact checkRun_GInv initialM applyM hist0 (len hist0 / 2) hW hcov fuel _
      hGinit b hrun


instance (h : Hist Op Value) : Decidable (retsCovered h) := by
  unfold retsCovered
  infer_instance

theorem c1_check_linearizability_correct_witness :
    check_linearizability 0 (fun (s : Nat) (_ : Nat) => (s, 5)) 10 histA =
      CheckOut.result true ∧
    (true = true ↔ Linearizable 0 (fun (s : Nat) (_ : Nat) => (s, 5)) histA) :=
  ⟨by decide, c1_check_linearizability_correct 0 (fun s _ => (s, 5)) 10 histA
    (by decide) (by decide) true (by decide)⟩

end Checker

end Hedgehog
